import Mathlib

/-!
# A verification development for `mysh`, a small command shell

The development embeds the quote-aware scanner (`strquote.c`), the line
splitting and formatting code (`mysh.c`) and the execution engine (`exec.c`).

Conventions of the embedding.

* A `char` is a signed byte, held in an `Int`; `toChar` is the conversion from
  `int` to `char`.
* A read-only `char const*` argument is modelled by the memory that starts at
  the pointed byte (a `List Int`); advancing the pointer is `List.drop`.
  Bytes past the modelled region read as NUL.
* Code that writes through pointers works on a buffer together with indices.
* Undefined behaviour (reading before the start of a string, passing NULL to
  `strlen`, writing past the end of a buffer) makes a function return `none`.
-/

namespace Mysh

/-! ## libc string primitives -/

/-- Conversion of an `int` value to (signed, 8 bit) `char`. -/
def toChar (x : Int) : Int := (x + 128) % 256 - 128

/-- Byte at index `i`; memory past the modelled region reads as NUL. -/
def peek (s : List Int) (i : Nat) : Int := s.getD i 0

/-- Store of one byte; `none` when the index is outside the buffer. -/
def poke (b : List Int) (i : Nat) (v : Int) : Option (List Int) :=
  if i < b.length then some (b.set i v) else none

/-- Length of the C string that starts at the head of `s`. -/
def strlen : List Int → Nat
  | [] => 0
  | c :: s => if c = 0 then 0 else strlen s + 1

/-- Contents of the C string that starts at the head of `s` (terminator excluded). -/
def cstr : List Int → List Int
  | [] => []
  | c :: s => if c = 0 then [] else c :: cstr s

/-- Offset of the first occurrence of `c` in the C string at `s`, `none` for NULL. -/
def strchr : List Int → Int → Option Nat
  | [], c => if c = 0 then some 0 else none
  | x :: s, c =>
    if x = c then some 0
    else if x = 0 then none
    else (strchr s c).map (· + 1)

/-- Length of the initial segment of the C string at `s` made of bytes in `accept`. -/
def strspn : List Int → List Int → Nat
  | [], _ => 0
  | c :: s, accept => if c ≠ 0 ∧ c ∈ accept then strspn s accept + 1 else 0

/-- Length of the initial segment of the C string at `s` free of bytes in `reject`. -/
def strcspn : List Int → List Int → Nat
  | [], _ => 0
  | c :: s, reject => if c ≠ 0 ∧ c ∉ reject then strcspn s reject + 1 else 0

/-- Copy of `bytes` into `dest` at offset `off`; `none` when it does not fit. -/
def memcpy (dest : List Int) (off : Nat) (bytes : List Int) : Option (List Int) :=
  if off + bytes.length ≤ dest.length then
    some (dest.take off ++ bytes ++ dest.drop (off + bytes.length))
  else none

/-- Fill of `n` bytes from index `p` with `v`, as far as the buffer reaches. -/
def memset (b : List Int) (p : Nat) (v : Int) : Nat → List Int
  | 0 => b
  | n + 1 => memset (b.set p v) (p + 1) v n

/-- The libc tokenizer. `str` is the first argument (`none` for NULL), `save`
the position remembered from the previous call. Returns the token (`none` for
NULL), the buffer and the new remembered position. -/
def strtok (b : List Int) (str : Option Nat) (delim : List Int) (save : Nat) :
    Option Nat × List Int × Nat :=
  let s0 := str.getD save
  let s := s0 + strspn (b.drop s0) delim
  if peek b s = 0 then (none, b, s)
  else
    let e := s + strcspn (b.drop s) delim
    if peek b e = 0 then (some s, b, e)
    else (some s, b.set e 0, e + 1)

/-! ## strquote.c -/

/-- Source: `is_str_lit`. The second comparison of each conjunct is only
evaluated when the first byte is a quote, hence on a non-empty string. -/
def is_str_lit (str : List Int) : Bool :=
  (peek str 0 = 39 ∧ peek str (strlen str - 1) = 39) ∨
  (peek str 0 = 34 ∧ peek str (strlen str - 1) = 34)

/-- Source: `contains_quotes`. -/
def contains_quotes (str : List Int) : Int :=
  let single_quote := strchr str 39
  let double_quote := strchr str 34
  if single_quote ≠ none ∧ double_quote ≠ none then -1
  else if single_quote = none ∧ double_quote = none then 0
  else if single_quote = none then 34 else 39

/-- The counting loop of `contains_valid_quotes`: `pos` is an offset into `str`. -/
def quote_count_loop (str : List Int) (quote : Int) : Nat → Option Nat → Nat → Nat
  | 0, _, quote_count => quote_count
  | _ + 1, none, quote_count => quote_count
  | fuel + 1, some pos, quote_count =>
    quote_count_loop str quote fuel
      ((strchr (str.drop (pos + 1)) quote).map (· + (pos + 1))) (quote_count + 1)

/-- Source: `contains_valid_quotes`. Every iteration of the loop advances
`pos`, so `str.length + 1` iterations are enough. -/
def contains_valid_quotes (str : List Int) : Int :=
  let single_quote := strchr str 39
  let double_quote := strchr str 34
  let quote : Int := if single_quote = none then 34 else 39
  let pos := if single_quote = none then double_quote else single_quote
  let quote_count := quote_count_loop str quote (str.length + 1) pos 0
  if quote_count % 2 ≠ 0 then -1 else quote

/-- Source: `strip_quotes`; the result is the string at `begin + 1`. -/
def strip_quotes (str : List Int) : List Int :=
  if peek str 0 ≠ 39 ∧ peek str 0 ≠ 34 then str
  else ((str.set 0 0).set (strlen str - 1) 0).drop 1

/-- Source: `get_quote`. -/
def get_quote : List Int → Nat → Int
  | _, 0 => 0
  | [], _ + 1 => 0
  | c :: s, len + 1 =>
    if c = 39 then 39
    else if c = 34 then 34
    else get_quote s len

/-- The inner `for` loop of `replace_within_quotes` on the byte `*pos`. -/
def replace_byte (to_replace : List Int) (ch : Int) : Int :=
  (cstr to_replace).foldl (fun cur d => if cur = d then toChar (-d) else cur) ch

/-- The `while` loop of `replace_within_quotes`. -/
def replace_loop (quote : Int) (to_replace : List Int) : List Int → Nat → Bool → List Int
  | [], _, _ => []
  | s, 0, _ => s
  | c :: s, len + 1, inside_quote =>
    if c = quote then c :: replace_loop quote to_replace s len (!inside_quote)
    else if inside_quote then
      replace_byte to_replace c :: replace_loop quote to_replace s len inside_quote
    else c :: replace_loop quote to_replace s len inside_quote

/-- Source: `replace_within_quotes`. -/
def replace_within_quotes (str : List Int) (to_replace : List Int) (len : Nat) : List Int :=
  let quote := get_quote str len
  if quote = 0 then str else replace_loop quote to_replace str len false

/-- The `while` loop of `restore_within_quotes`. -/
def restore_loop (quote : Int) : List Int → Nat → Bool → List Int
  | [], _, _ => []
  | s, 0, _ => s
  | c :: s, len + 1, inside_quote =>
    if c = quote then c :: restore_loop quote s len (!inside_quote)
    else if inside_quote then
      (if c < 0 then toChar (-c) else c) :: restore_loop quote s len inside_quote
    else c :: restore_loop quote s len inside_quote

/-- Source: `restore_within_quotes`. -/
def restore_within_quotes (str : List Int) (len : Nat) : List Int :=
  let quote := get_quote str len
  if quote = 0 then str else restore_loop quote str len false

/-- The `while` loop of `strchr2`. -/
def strchr2_loop (quote c : Int) : List Int → Bool → Option Nat
  | [], _ => none
  | x :: s, inside_quote =>
    if x = 0 then none
    else if x = quote then (strchr2_loop quote c s (!inside_quote)).map (· + 1)
    else if inside_quote = false ∧ x = c then some 0
    else (strchr2_loop quote c s inside_quote).map (· + 1)

/-- Source: `strchr2`. -/
def strchr2 (s : List Int) (c : Int) : Option Nat :=
  let quote := get_quote s (strlen s)
  if quote = 0 then strchr s c else strchr2_loop quote c s false

/-- The static variables of `strtok2` together with the position remembered by `strtok`. -/
structure TokState where
  current_str : Nat
  current_len : Nat
  save : Nat
  deriving DecidableEq, Repr

/-- Source: `strtok2`, on the buffer `b`. -/
def strtok2 (b : List Int) (st : TokState) (str : Option Nat) (delim : List Int) :
    Option Nat × List Int × TokState :=
  let st1 : TokState :=
    match str with
    | some p => { st with current_str := p, current_len := strlen (b.drop p) }
    | none => st
  let b1 := b.take st1.current_str ++
    replace_within_quotes (b.drop st1.current_str) delim st1.current_len
  let r := strtok b1 str delim st1.save
  let b3 := r.2.1.take st1.current_str ++
    restore_within_quotes (r.2.1.drop st1.current_str) st1.current_len
  (r.1, b3, { st1 with save := r.2.2 })

/-! ## mysh.c -/

/-- Source: `MAX_LEN`: 64 chars + newline + null. -/
def MAX_LEN : Nat := 66

/-- Source: `is_last_arg`; on an empty string the byte before it is read. -/
def is_last_arg (str : List Int) : Option Bool :=
  if strlen str = 0 then none else some (peek str (strlen str - 1) = 10)

/-- Source: `rm_newline`. -/
def rm_newline (str : List Int) : Option (List Int) :=
  match is_last_arg str with
  | none => none
  | some true =>
    let str1 := str.set (strlen str) 0
    some (str1.set (strlen str1 - 1) 0)
  | some false => some str

/-- Source: `append_cmd`; returns the destination buffer and the new `*offset`. -/
def append_cmd (dest : List Int) (cmd : List Int) (offset : Nat) : Option (List Int × Nat) :=
  match is_last_arg cmd with
  | none => none
  | some true =>
    match rm_newline (cstr cmd ++ [0]) with
    | none => none
    | some copy =>
      if is_str_lit copy then
        let quotes_removed := strip_quotes copy
        (memcpy dest offset (cstr quotes_removed ++ [0])).map
          (fun d => (d, offset + (strlen quotes_removed + 1)))
      else
        (memcpy dest offset (cstr copy ++ [0])).map
          (fun d => (d, offset + (strlen copy + 1)))
  | some false =>
    if is_str_lit cmd then
      let copy := cstr cmd ++ [0]
      let quotes_removed := strip_quotes copy
      (memcpy dest offset (cstr quotes_removed ++ [0])).map
        (fun d => (d, offset + (strlen quotes_removed + 1)))
    else
      (memcpy dest offset (cstr cmd ++ [0])).map
        (fun d => (d, offset + (strlen cmd + 1)))

/-- The `while` loop of `format_cmd`, entered with a non-NULL `token`. -/
def format_loop (delim : List Int) :
    Nat → List Int → TokState → List Int → Nat → Option (List Int × List Int)
  | 0, _, _, _, _ => none
  | fuel + 1, b, st, dest, offset =>
    match strtok2 b st none delim with
    | (none, b1, _) => (poke dest offset 0).map (fun d => (b1, d))
    | (some token, b1, st1) =>
      match append_cmd dest (b1.drop token) offset with
      | none => none
      | some (d, offset1) => format_loop delim fuel b1 st1 d offset1

/-- Source: `format_cmd`; `src` is an index into the buffer `b`. Returns the
source buffer and the destination buffer. Every call of `strtok2` in the loop
moves the remembered position forward, so `b.length + 1` iterations are enough. -/
def format_cmd (b : List Int) (src : Nat) (dest : List Int) : Option (List Int × List Int) :=
  let spaces_and_tabs : List Int := [32, 9]
  match strtok2 b ⟨0, 0, 0⟩ (some src) spaces_and_tabs with
  | (none, b1, _) => (append_cmd dest [0] 0).map (fun r => (b1, r.1))
  | (some token, b1, st1) =>
    match append_cmd dest (b1.drop token) 0 with
    | none => none
    | some (d, offset) => format_loop spaces_and_tabs (b.length + 1) b1 st1 d offset

/-- Source: `split_redir`; `src` is an index into the buffer `b`. Returns the
value of `delim`, the source buffer and the destination buffer. -/
def split_redir (b : List Int) (src : Nat) (dest_redir : List Int) :
    Option (Int × List Int × List Int) :=
  let file_redir := strchr2 (b.drop src) 62
  let pipe_redir := strchr2 (b.drop src) 124
  if file_redir ≠ none ∧ pipe_redir ≠ none then some (-1, b, dest_redir)
  else if (file_redir.any fun f => (strchr2 (b.drop (src + f + 1)) 62).isSome) ∨
      (pipe_redir.any fun p => (strchr2 (b.drop (src + p + 1)) 124).isSome) then
    some (-1, b, dest_redir)
  else if file_redir ≠ none ∨ pipe_redir ≠ none then
    let delim_str : List Int := if file_redir ≠ none then [62] else [124]
    match strtok2 b ⟨0, 0, 0⟩ (some src) delim_str with
    | (none, _, _) => none
    | (some token, b1, st1) =>
      let cmd_len := strlen (b1.drop token)
      match strtok2 b1 st1 none delim_str with
      | (none, b2, _) => some (-1, b2, dest_redir)
      | (some token2, b2, _) =>
        if cstr (b2.drop token2) = [32] ∨ cstr (b2.drop token2) = [9] ∨
            cstr (b2.drop token2) = [10] then
          some (-1, b2, dest_redir)
        else
          match append_cmd dest_redir (b2.drop token2) 0 with
          | none => none
          | some (d, offset) =>
            (poke d offset 0).map fun d1 =>
              (if file_redir ≠ none then 62 else 124,
                memset b2 (src + cmd_len + 1) 0 (strlen (b2.drop token2)), d1)
  else some (0, b, dest_redir)

/-- The `while` loop of `buf_to_strs`; the result lists the strings that the
entries of `dest` point to, up to the NULL entry. -/
def buf_to_strs_loop : Nat → List Int → Nat → List (List Int)
  | 0, _, _ => []
  | fuel + 1, buf, ptr =>
    if peek buf ptr = 0 then []
    else cstr (buf.drop ptr) :: buf_to_strs_loop fuel buf (ptr + strlen (buf.drop ptr) + 1)

/-- Source: `buf_to_strs`. Every iteration moves `ptr` forward, so `buf.length`
iterations are enough. -/
def buf_to_strs (buf : List Int) : List (List Int) :=
  buf_to_strs_loop buf.length buf 0

/-- The buffer `char buf[MAX_LEN] = {0}` after a line was read into it. -/
def lineBuf (line : List Int) : List Int := line ++ List.replicate (MAX_LEN - line.length) 0

/-- Whether a byte is a single or a double quote character. -/
def is_quote (c : Int) : Bool := c = 39 ∨ c = 34

/-- The byte `c` stands at position `i` of `s` outside every quoted region:
it is preceded by an even number of quote characters. -/
def unquoted_at (s : List Int) (i : Nat) (c : Int) : Prop :=
  s[i]? = some c ∧ (s.take i).countP is_quote % 2 = 0

/-! ## Command lines made of tokens -/

/-- A token of a command line as it is typed: plain text, or text between a
pair of quote characters. -/
inductive Token where
  | plain (p : List Int)
  | quoted (x : List Int)
  deriving DecidableEq, Repr

/-- The characters of a token on the line; `q` is the quote character of the line. -/
def Token.raw (q : Int) : Token → List Int
  | .plain p => p
  | .quoted x => q :: x ++ [q]

/-- The argument a token stands for: the text without the outer quote pair. -/
def Token.value : Token → List Int
  | .plain p => p
  | .quoted x => x

/-- Well-formed tokens. All characters are seven-bit characters other than NUL
and newline. A plain token is non-empty and contains no quote, space or tab;
the text of a quoted token is non-empty and free of `q`. -/
def Token.Wf (q : Int) : Token → Prop
  | .plain p => p ≠ [] ∧ ∀ c ∈ p, 0 < c ∧ c < 128 ∧ c ≠ 10 ∧ c ≠ 32 ∧ c ≠ 9 ∧ c ≠ 39 ∧ c ≠ 34
  | .quoted x => x ≠ [] ∧ ∀ c ∈ x, 0 < c ∧ c < 128 ∧ c ≠ 10 ∧ c ≠ q

/-- The text of a line after its first token: runs of spaces and tabs, each
followed by a token, and `nl` (nothing or a newline) at the end. -/
def text (q : Int) (nl : List Int) : List (List Int × Token) → List Int
  | [] => nl
  | p :: r => p.1 ++ p.2.raw q ++ text q nl r

/-- The text of a line that `strtok` has not looked at yet, once it has
replaced the first character of the next run of spaces and tabs by NUL. -/
def pending (q : Int) (nl : List Int) : List (List Int × Token) → List Int
  | [] => []
  | p :: r => p.1.tail ++ p.2.raw q ++ text q nl r

/-- Layout of a list of strings in a buffer: each one followed by NUL. -/
def pack : List (List Int) → List Int
  | [] => []
  | v :: vs => v ++ 0 :: pack vs

/-- The replacement of `replace_within_quotes` leaves `A` with the scan
outside quotes, and turns `A` into `A'`. -/
def Closed (q : Int) (d A A' : List Int) : Prop :=
  A'.length = A.length ∧
  ∀ (Y : List Int) (m : Nat),
    replace_loop q d (A ++ Y) (A.length + m) false = A' ++ replace_loop q d Y m false

/-! ## exec.c: the operating system as seen by one process

The state of a process carries its descriptor table, its working directory,
the wait statuses of its children that were not waited for yet, and the
sequence of `chdir` and `fork` calls it made. The answers of the environment
(whether a system call succeeds, how an external program ends, which child a
`wait` returns) are streams that the calls consume in order. Output written
with `write` is not modelled. -/

/-- Source: `EXIT_BYE`. -/
def EXIT_BYE : Int := 10

/-- Source: `EXIT_ON_FAILURE`: to distinguish from programs that return 1 upon success. -/
def EXIT_ON_FAILURE : Int := 11

def EXIT_SUCCESS : Int := 0
def STDIN_FILENO : Int := 0
def STDOUT_FILENO : Int := 1
def CMD_CD : String := "cd"
def CMD_ECHO : String := "echo"
def CMD_PWD : String := "pwd"
def CMD_QUIT : String := "bye"

/-- Wait status of a process killed by the signal SIGSEGV. -/
def SIGSEGV : Int := 11

/-- Wait status of a process that called `exit(code)`. -/
def exited (code : Int) : Int := (code % 256) * 256

/-- The macro `WEXITSTATUS` of `<sys/wait.h>`. -/
def WEXITSTATUS (status : Int) : Int := (status / 256) % 256

/-- A `chdir` or `fork` call made by a process. -/
inductive Ev where
  | chdir (path : Option String)
  | fork (pid : Int)
  deriving DecidableEq, Repr

/-- State of a process and of its environment. -/
structure Sys where
  /-- descriptor table: entry `fd` is the open file the descriptor refers to -/
  fdt : List (Option Nat)
  cwd : Option String
  /-- value of `getenv("HOME")` -/
  home : Option String
  /-- wait statuses of the children not waited for yet -/
  kids : List Int
  /-- the `chdir` and `fork` calls of this process, oldest first -/
  log : List Ev
  /-- number of open files created so far -/
  files : Nat
  /-- number of processes created so far -/
  procs : Nat
  /-- environment: whether each coming fallible system call succeeds -/
  ok : List Bool
  /-- environment: the wait status with which each coming external program ends -/
  progs : List Int
  /-- environment: which waiting child each coming `wait` returns -/
  reap : List Nat
  deriving DecidableEq, Repr

/-- Outcome of running code in a process. -/
inductive Res (α : Type) where
  /-- the code returned to its caller -/
  | ret (a : α) (s : Sys)
  /-- the process ended through `exit(code)` -/
  | exit (code : Int) (s : Sys)
  /-- the process ended on a NULL pointer dereference -/
  | crash (s : Sys)
  deriving DecidableEq, Repr

/-- Next answer of the environment to a fallible system call. -/
def answer (s : Sys) : Bool × Sys := (s.ok.headD true, { s with ok := s.ok.tail })

/-- Open file behind a descriptor. -/
def fd_get (t : List (Option Nat)) (fd : Int) : Option Nat :=
  if fd < 0 then none else t.getD fd.toNat none

/-- Lowest descriptor that is not open. -/
def lowest_free : List (Option Nat) → Nat
  | [] => 0
  | none :: _ => 0
  | some _ :: t => lowest_free t + 1

/-- Descriptor table with entry `fd` replaced. -/
def fd_set : List (Option Nat) → Nat → Option Nat → List (Option Nat)
  | [], 0, v => [v]
  | [], fd + 1, v => none :: fd_set [] fd v
  | _ :: t, 0, v => v :: t
  | x :: t, fd + 1, v => x :: fd_set t fd v

/-- System call `pipe`. -/
def sys_pipe (s : Sys) : Int × (Int × Int) × Sys :=
  let a := answer s
  if a.1 then
    let r := lowest_free a.2.fdt
    let t1 := fd_set a.2.fdt r (some a.2.files)
    let w := lowest_free t1
    let t2 := fd_set t1 w (some (a.2.files + 1))
    (0, ((r : Int), (w : Int)), { a.2 with fdt := t2, files := a.2.files + 2 })
  else (-1, (-1, -1), a.2)

/-- System call `dup`. -/
def sys_dup (fd : Int) (s : Sys) : Int × Sys :=
  let a := answer s
  match fd_get a.2.fdt fd with
  | none => (-1, a.2)
  | some f =>
    if a.1 then
      let n := lowest_free a.2.fdt
      ((n : Int), { a.2 with fdt := fd_set a.2.fdt n (some f) })
    else (-1, a.2)

/-- System call `dup2`. -/
def sys_dup2 (oldfd newfd : Int) (s : Sys) : Int × Sys :=
  let a := answer s
  match fd_get a.2.fdt oldfd with
  | none => (-1, a.2)
  | some f =>
    if a.1 ∧ 0 ≤ newfd then (newfd, { a.2 with fdt := fd_set a.2.fdt newfd.toNat (some f) })
    else (-1, a.2)

/-- System call `close`. -/
def sys_close (fd : Int) (s : Sys) : Int × Sys :=
  let a := answer s
  match fd_get a.2.fdt fd with
  | none => (-1, a.2)
  | some _ =>
    if a.1 then (0, { a.2 with fdt := fd_set a.2.fdt fd.toNat none })
    else (-1, a.2)

/-- System call `open(path, O_WRONLY | O_CREAT | O_TRUNC, S_IRWXU)`. -/
def sys_open (path : Option String) (s : Sys) : Int × Sys :=
  let a := answer s
  match path with
  | none => (-1, a.2)
  | some _ =>
    if a.1 then
      let n := lowest_free a.2.fdt
      ((n : Int), { a.2 with fdt := fd_set a.2.fdt n (some a.2.files), files := a.2.files + 1 })
    else (-1, a.2)

/-- System call `chdir`; the call is recorded in the log of the process. -/
def sys_chdir (path : Option String) (s : Sys) : Int × Sys :=
  let a := answer s
  let s1 : Sys := { a.2 with log := a.2.log ++ [Ev.chdir path] }
  match path with
  | none => (-1, s1)
  | some p => if a.1 then (0, { s1 with cwd := some p }) else (-1, s1)

/-- System call `fork`, as it returns in the parent; the call is recorded in
the log of the process. The code of the child is run on `child_of` and its
end is handed to the parent with `rejoin`. -/
def sys_fork (s : Sys) : Int × Sys :=
  let a := answer s
  if a.1 then
    ((a.2.procs : Int) + 1,
      { a.2 with procs := a.2.procs + 1, log := a.2.log ++ [Ev.fork ((a.2.procs : Int) + 1)] })
  else (-1, { a.2 with log := a.2.log ++ [Ev.fork (-1)] })

/-- State in which a freshly forked child starts. -/
def child_of (s : Sys) : Sys := { s with kids := [], log := [] }

/-- State of the parent once its child has run to its end with wait status `status`. -/
def rejoin (parent child : Sys) (status : Int) : Sys :=
  { parent with
    kids := parent.kids ++ [status], files := child.files, procs := child.procs,
    ok := child.ok, progs := child.progs, reap := child.reap }

/-- System call `wait(&status)`: the new value of `status`. Without children
the call fails and leaves `status` as it is. -/
def sys_wait (status : Int) (s : Sys) : Int × Sys :=
  match s.kids with
  | [] => (status, s)
  | k :: ks =>
    let i := s.reap.headD 0 % (k :: ks).length
    ((k :: ks).getD i 0, { s with kids := (k :: ks).eraseIdx i, reap := s.reap.tail })

/-! ## exec.c -/

/-- Source: `exit_status`. -/
def exit_status (status : Int) (s : Sys) : Res Int :=
  if WEXITSTATUS status = EXIT_ON_FAILURE then .ret (-1) s
  else if WEXITSTATUS status = EXIT_BYE then .exit EXIT_SUCCESS s
  else .ret 0 s

/-- Source: `redir_file`. -/
def redir_file (path : Option String) (s : Sys) : Int × Sys :=
  let o := sys_open path s
  if o.1 < 0 then (-1, o.2)
  else
    let d := sys_dup2 o.1 STDOUT_FILENO o.2
    if d.1 < 0 then (-1, d.2) else (0, d.2)

/-- Source: `redir_pipe`. -/
def redir_pipe (pipefd : Int × Int) (s : Sys) : Int × Sys :=
  let d := sys_dup2 pipefd.2 STDOUT_FILENO s
  let success : Int := if d.1 < 0 then -1 else d.1
  let c1 := sys_close pipefd.2 d.2
  let success : Int := if c1.1 = -1 then -1 else success
  let c0 := sys_close pipefd.1 c1.2
  let success : Int := if c0.1 = -1 then -1 else success
  (success, c0.2)

/-- Source: `setup_redir`. The array `pipefd` is read for `'|'` only; where
the caller has none, it is passed as `(-1, -1)`. -/
def setup_redir (type : Int) (argv : List String) (pipefd : Int × Int) (s : Sys) : Int × Sys :=
  if type = 62 then redir_file (argv.get? 0) s
  else if type = 124 then redir_pipe pipefd s
  else if type = 0 then (0, s)
  else (-1, s)

/-- Source: `setup_pipe_parent`; returns `res`, `pipefd`, `*restore_stdin`
and `*restore_stdout`. -/
def setup_pipe_parent (s : Sys) : Int × (Int × Int) × Int × Int × Sys :=
  let p := sys_pipe s
  if p.1 = -1 then (p.1, p.2.1, -1, -1, p.2.2)
  else
    let restore_stdin := sys_dup STDIN_FILENO p.2.2
    let restore_stdout := sys_dup STDIN_FILENO restore_stdin.2
    if restore_stdin.1 = -1 ∨ restore_stdout.1 = -1 then
      (-1, p.2.1, restore_stdin.1, restore_stdout.1, restore_stdout.2)
    else (p.1, p.2.1, restore_stdin.1, restore_stdout.1, restore_stdout.2)

/-- Source: `close_pipe_parent`. -/
def close_pipe_parent (pipefd : Int × Int) (s : Sys) : Int × Sys :=
  let d := sys_dup2 pipefd.1 STDIN_FILENO s
  if d.1 = -1 then (d.1, d.2)
  else
    let c0 := sys_close pipefd.1 d.2
    let res : Int := if c0.1 = -1 then -1 else d.1
    let c1 := sys_close pipefd.2 c0.2
    let res : Int := if c1.1 = -1 then -1 else res
    (res, c1.2)

/-- Source: `restore_stdio`. -/
def restore_stdio (restore_stdin restore_stdout : Int) (s : Sys) : Int × Sys :=
  let restored_stdin := sys_dup2 restore_stdin STDIN_FILENO s
  let restored_stdout := sys_dup2 restore_stdout STDOUT_FILENO restored_stdin.2
  if restored_stdin.1 = -1 ∨ restored_stdout.1 = -1 then (-1, restored_stdout.2)
  else (0, restored_stdout.2)

/-- Source: `is_builtin`; `none` is the NULL pointer. -/
def is_builtin (cmd : Option String) : Bool :=
  match cmd with
  | none => false
  | some c => c = CMD_CD ∨ c = CMD_ECHO ∨ c = CMD_PWD ∨ c = CMD_QUIT

/-- The last statement of `builtin`: the wait status the child ends with. -/
def builtin_end (success : Int) : Int :=
  if success = EXIT_BYE then exited EXIT_BYE
  else if success < 0 then exited EXIT_ON_FAILURE
  else exited EXIT_SUCCESS

/-- Source: `builtin`, which runs in a child and never returns: the result is
the wait status of the child. `echo` without an argument passes NULL to
`strlen`, and so does a NULL `cmd` to `strcmp`. -/
def builtin (cmd : Option String) (argv : List String) (redir_type : Int) (s : Sys) :
    Int × Sys :=
  match cmd with
  | none => (SIGSEGV, s)
  | some c =>
    if c = CMD_QUIT then
      if argv.get? 1 ≠ none then (builtin_end (-1), s)
      else if redir_type ≠ 0 then (builtin_end (-1), s)
      else (builtin_end EXIT_BYE, s)
    else if c = CMD_ECHO then
      match argv.get? 1 with
      | none => (SIGSEGV, s)
      | some _ => (builtin_end 0, s)
    else if c = CMD_PWD then
      if argv.get? 1 ≠ none then (builtin_end (-1), s)
      else
        let a := answer s
        if a.1 then (builtin_end 0, a.2) else (builtin_end (-1), a.2)
    else if c = CMD_CD then (builtin_end (-1), s)
    else (builtin_end (-1), s)

/-- Source: `builtin_chdir`. A NULL `cmd` is passed to `strcmp`. -/
def builtin_chdir (cmd : Option String) (argv : List String) (s : Sys) : Res Int :=
  match cmd with
  | none => .crash s
  | some c =>
    if c = CMD_CD then
      if argv.get? 2 ≠ none then .ret (-1) s
      else
        match argv.get? 1 with
        | none => let r := sys_chdir s.home s; .ret r.1 r.2
        | some arg1 => let r := sys_chdir (some arg1) s; .ret r.1 r.2
    else .ret 1 s

/-- Source: `external`, which runs in a child and never returns: the result is
the wait status of the child. When `execvp` succeeds the program decides it. -/
def external (cmd : Option String) (argv : List String) (s : Sys) : Int × Sys :=
  let _ := argv
  match cmd with
  | none => (SIGSEGV, s)
  | some _ =>
    let a := answer s
    if a.1 then (a.2.progs.headD 0, { a.2 with progs := a.2.progs.tail })
    else (exited EXIT_ON_FAILURE, a.2)

/-- Source: `exec_builtin`. -/
def exec_builtin (cmd : Option String) (argv : List String) (redir_type : Int)
    (redir_argv : List String) (pipefd : Int × Int) (s : Sys) : Res Int :=
  match builtin_chdir cmd argv s with
  | .ret chdir_success s1 =>
    if chdir_success ≤ 0 then .ret chdir_success s1
    else
      let f := sys_fork s1
      if f.1 < 0 then .ret (-1) f.2
      else
        let r := setup_redir redir_type redir_argv pipefd (child_of f.2)
        let child := if r.1 < 0 then (exited EXIT_ON_FAILURE, r.2)
          else builtin cmd argv redir_type r.2
        let w := sys_wait 0 (rejoin f.2 child.2 child.1)
        exit_status w.1 w.2
  | .exit code s1 => .exit code s1
  | .crash s1 => .crash s1

/-- Source: `exec_extern`. -/
def exec_extern (cmd : Option String) (argv : List String) (redir_type : Int)
    (redir_argv : List String) (pipefd : Int × Int) (s : Sys) : Res Int :=
  let f := sys_fork s
  if f.1 < 0 then .ret (-1) f.2
  else
    let r := setup_redir redir_type redir_argv pipefd (child_of f.2)
    let child := if r.1 < 0 then (exited EXIT_ON_FAILURE, r.2) else external cmd argv r.2
    let w := sys_wait 0 (rejoin f.2 child.2 child.1)
    exit_status w.1 w.2

/-- Either `exec_builtin` or `exec_extern`, as `exec_cmd` chooses. -/
def exec_one (cmd : Option String) (argv : List String) (redir_type : Int)
    (redir_argv : List String) (pipefd : Int × Int) (s : Sys) : Res Int :=
  if is_builtin cmd then exec_builtin cmd argv redir_type redir_argv pipefd s
  else exec_extern cmd argv redir_type redir_argv pipefd s

/-- Source: `exec_cmd`. An empty `argv` is the array that holds NULL only;
the NULL passed as `redir_argv` of the second command of a pipe is `[]`. -/
def exec_cmd (argv : List String) (redir_type : Int) (redir_argv : List String) (s : Sys) :
    Res Int :=
  match argv.head? with
  | none => .ret 0 s
  | some cmd =>
    let p : Int × (Int × Int) × Int × Int × Sys :=
      if redir_type = 124 then setup_pipe_parent s else (0, (-1, -1), -1, -1, s)
    if redir_type = 124 ∧ p.1 < 0 then .ret (-1) p.2.2.2.2
    else
      match exec_one (some cmd) argv redir_type redir_argv p.2.1 p.2.2.2.2 with
      | .ret res s2 =>
        if res < 0 then .ret res s2
        else if redir_type = 124 then
          let c := close_pipe_parent p.2.1 s2
          if c.1 < 0 then .ret c.1 c.2
          else
            match exec_one redir_argv.head? redir_argv 0 [] p.2.1 c.2 with
            | .ret res1 s4 =>
              let r := restore_stdio p.2.2.1 p.2.2.2.1 s4
              if r.1 < 0 then .ret (-1) r.2 else .ret res1 r.2
            | .exit code s4 => .exit code s4
            | .crash s4 => .crash s4
        else .ret res s2
      | .exit code s2 => .exit code s2
      | .crash s2 => .crash s2

/-- One entry of the arrays `cmds`, `redir_types` and `redir_cmds`. -/
structure Clause where
  argv : List String
  redir_type : Int
  redir_argv : List String
  deriving DecidableEq, Repr

/-- The `for` loop of `exec_cmds_seq`. -/
def exec_cmds_seq_loop : List Clause → Int → Sys → Res Int
  | [], res, s => .ret res s
  | c :: cs, res, s =>
    match exec_cmd c.argv c.redir_type c.redir_argv s with
    | .ret success s1 => exec_cmds_seq_loop cs (if success < 0 then success else res) s1
    | .exit code s1 => .exit code s1
    | .crash s1 => .crash s1

/-- Source: `exec_cmds_seq`. -/
def exec_cmds_seq (cmds : List Clause) (s : Sys) : Res Int :=
  exec_cmds_seq_loop cmds 0 s

/-- The code run by the child that `exec_cmds_par` forks for a clause: the
wait status the child ends with. -/
def par_child (c : Clause) (s : Sys) : Int × Sys :=
  if c.redir_type = 124 then
    match exec_cmd c.argv c.redir_type c.redir_argv s with
    | .ret success s1 =>
      if success < 0 then (exited EXIT_ON_FAILURE, s1) else (exited EXIT_SUCCESS, s1)
    | .exit code s1 => (exited code, s1)
    | .crash s1 => (SIGSEGV, s1)
  else
    let r := setup_redir c.redir_type c.redir_argv (-1, -1) s
    if r.1 < 0 then (exited EXIT_ON_FAILURE, r.2)
    else if is_builtin c.argv.head? then builtin c.argv.head? c.argv c.redir_type r.2
    else external c.argv.head? c.argv r.2

/-- The first `for` loop of `exec_cmds_par`; returns `res` and the array `pids`. -/
def par_launch : List Clause → Int → List Int → Sys → Res (Int × List Int)
  | [], res, pids, s => .ret (res, pids) s
  | c :: cs, res, pids, s =>
    match builtin_chdir c.argv.head? c.argv s with
    | .ret chdir_success s1 =>
      if chdir_success ≤ 0 then par_launch cs res (pids ++ [chdir_success]) s1
      else
        let f := sys_fork s1
        if f.1 < 0 then par_launch cs (-1) (pids ++ [f.1]) f.2
        else
          let child := par_child c (child_of f.2)
          par_launch cs res (pids ++ [f.1]) (rejoin f.2 child.2 child.1)
    | .exit code s1 => .exit code s1
    | .crash s1 => .crash s1

/-- The second `for` loop of `exec_cmds_par`. -/
def par_wait : List Int → Int → Int → Sys → Res Int
  | [], _, res, s => .ret res s
  | pid :: pids, status, res, s =>
    if pid > 0 then
      let w := sys_wait status s
      match exit_status w.1 w.2 with
      | .ret success s1 => par_wait pids w.1 (if success = -1 then success else res) s1
      | .exit code s1 => .exit code s1
      | .crash s1 => .crash s1
    else par_wait pids status res s

/-- Source: `exec_cmds_par`. -/
def exec_cmds_par (cmds : List Clause) (s : Sys) : Res Int :=
  match par_launch cmds 0 [] s with
  | .ret (res, pids) s1 => par_wait pids 0 res s1
  | .exit code s1 => .exit code s1
  | .crash s1 => .crash s1

/-- Final state of an outcome. -/
def Res.sys {α : Type} : Res α → Sys
  | .ret _ s => s
  | .exit _ s => s
  | .crash s => s

/-- A shell whose descriptors 0, 1 and 2 refer to the open files `i`, `o` and
`e`, with the given answers of the environment. -/
def shell (i o e : Nat) (ok : List Bool) (progs : List Int) : Sys :=
  { fdt := [some i, some o, some e], cwd := none, home := some "/root", kids := [], log := [],
    files := max i (max o e) + 1, procs := 0, ok := ok, progs := progs, reap := [] }

/-- A result that is Success, CommandFailure or the end of the shell with
success status. -/
def Res.Plain (r : Res Int) : Prop :=
  ∃ s, r = Res.ret 0 s ∨ r = Res.ret (-1) s ∨ r = Res.exit EXIT_SUCCESS s

/-- Running `exec_cmd` on a clause. -/
def run_clause (c : Clause) (s : Sys) : Res Int :=
  exec_cmd c.argv c.redir_type c.redir_argv s

/-- Whether a recorded call is a `fork` (otherwise it is a `chdir`). -/
def Ev.isFork : Ev → Bool
  | .fork _ => true
  | .chdir _ => false

/-- The call that the first loop of `exec_cmds_par` makes in the shell for a
clause with a command: `some false` for the `chdir` of a `cd` clause with at
most one argument, `none` for a `cd` clause with more arguments (no call),
`some true` for the `fork` of any other clause. -/
def clause_call (c : Clause) : Option Bool :=
  if c.argv.head? = some CMD_CD then
    if c.argv.get? 2 ≠ none then none else some false
  else some true

/-- Whether the clause has a command (`cmds[i][0]` is not NULL). -/
def has_cmd (c : Clause) : Bool := c.argv.head?.isSome

/-- A shell without children left to wait for, in an environment where no
external program ends with the exit code `EXIT_BYE`. -/
def Sys.Calm (s : Sys) : Prop :=
  s.kids = [] ∧ ∀ st ∈ s.progs, WEXITSTATUS st ≠ EXIT_BYE

/-! ## mysh.c: lines with several commands -/

/-- The `while` loop of `split`, entered with a non-NULL `token`; returns the
source buffer, the destination buffer and `count`. -/
def split_loop (delim : List Int) :
    Nat → List Int → TokState → List Int → Nat → Nat → Option (List Int × List Int × Nat)
  | 0, _, _, _, _, _ => none
  | fuel + 1, b, st, dest, offset, count =>
    match strtok2 b st none delim with
    | (none, b1, _) => (poke dest offset 0).map (fun d => (b1, d, count))
    | (some token, b1, st1) =>
      match append_cmd dest (b1.drop token) offset with
      | none => none
      | some (d, offset1) => split_loop delim fuel b1 st1 d offset1 (count + 1)

/-- Source: `split`; `src` is an index into the buffer `b`. Returns the source
buffer, the destination buffer and the number of strings copied. When the
first token is NULL, `append_cmd` passes NULL to `strlen`. Every call of
`strtok2` in the loop moves the remembered position forward, so `b.length + 1`
iterations are enough. -/
def split (b : List Int) (src : Nat) (delim : List Int) (dest : List Int) :
    Option (List Int × List Int × Nat) :=
  match strtok2 b ⟨0, 0, 0⟩ (some src) delim with
  | (none, _, _) => none
  | (some token, b1, st1) =>
    match append_cmd dest (b1.drop token) 0 with
    | none => none
    | some (d, offset) => split_loop delim (b.length + 1) b1 st1 d offset 1

/-- Source: `main`, the loop of the branch for several commands, as far as it
builds the argument lists `_f_strs[len-i]`: `i` clauses are left, `_f_ptr`
points into `split_buf`. When the redirection is invalid the command is the
literal `""`. -/
def multi_cmds_loop : Nat → List Int → Nat → Option (List (List (List Int)))
  | 0, _, _ => some []
  | i + 1, split_buf, _f_ptr =>
    let before_format_len := strlen (split_buf.drop _f_ptr) + 1
    match split_redir split_buf _f_ptr (List.replicate MAX_LEN 0) with
    | none => none
    | some (redir_type, sb1, _) =>
      let formatted :=
        if redir_type = -1 then format_cmd [0] 0 (List.replicate MAX_LEN 0)
        else format_cmd sb1 _f_ptr (List.replicate MAX_LEN 0)
      match formatted with
      | none => none
      | some (sb2, _f_buf) =>
        (multi_cmds_loop i (if redir_type = -1 then sb1 else sb2)
          (_f_ptr + before_format_len)).map (fun l => buf_to_strs _f_buf :: l)

/-- Source: `main`, the branch for several commands: the argument lists of the
clauses of the line in `input_buf`, which are joined by `delim`. -/
def multi_cmds (input_buf : List Int) (delim : List Int) : Option (List (List (List Int))) :=
  match split input_buf 0 delim (List.replicate MAX_LEN 0) with
  | none => none
  | some (_, split_buf, len) => multi_cmds_loop len split_buf 0

/-- Source: `main`, the branch for a single command: the argument list of the
line in `input_buf`; `none` also when the line is given up because of its
redirection. -/
def single_cmd (input_buf : List Int) : Option (List (List Int)) :=
  match split_redir input_buf 0 (List.replicate MAX_LEN 0) with
  | none => none
  | some (redir_type, b1, _) =>
    if redir_type = -1 then none
    else (format_cmd b1 0 (List.replicate MAX_LEN 0)).map (fun r => buf_to_strs r.2)


/-! ## Theorems: wait statuses -/

theorem WEXITSTATUS_exited (e : Int) : WEXITSTATUS (exited e) = e % 256 := by
  unfold WEXITSTATUS exited
  omega

theorem exit_status_of_exited (e : Int) (s : Sys) :
    exit_status (exited e) s =
      if e % 256 = 11 then Res.ret (-1) s
      else if e % 256 = 10 then Res.exit 0 s
      else Res.ret 0 s := by
  simp [exit_status, WEXITSTATUS_exited, EXIT_ON_FAILURE, EXIT_BYE, EXIT_SUCCESS]

/-- C3, as stated, fails: a child that exits with code 1 is reported as
Success (0), not as CommandFailure, and so is the line `false ; echo hi`. -/
theorem exit_status_code_one_is_success :
    WEXITSTATUS (exited 1) = 1 ∧
    exit_status (exited 1) (shell 0 1 2 [] []) = Res.ret 0 (shell 0 1 2 [] []) ∧
    exit_status (exited 1) (shell 0 1 2 [] []) ≠ Res.ret (-1) (shell 0 1 2 [] []) ∧
    exec_cmds_seq [⟨["false"], 0, []⟩, ⟨["echo", "hi"], 0, []⟩] (shell 0 1 2 [] [exited 1]) =
      Res.ret 0 { shell 0 1 2 [] [] with procs := 2, log := [Ev.fork 1, Ev.fork 2] } := by
  refine ⟨by decide, by decide, by decide, by decide⟩

/-- C3, amended: for a child that ended with exit code `e`, `exit_status`
reports CommandFailure (-1) exactly for `e = 11` (`EXIT_ON_FAILURE`), ends the
shell with success status for `e = 10` (`EXIT_BYE`), and reports Success (0)
for every other code, the non-zero ones included; `false ; echo hi`, where
`false` exits with code 1, has aggregate outcome Success. -/
theorem exit_status_decodes_sentinels :
    (∀ (e : Fin 256) (s : Sys),
      exit_status (exited e) s =
        if e.val = 11 then Res.ret (-1) s
        else if e.val = 10 then Res.exit EXIT_SUCCESS s
        else Res.ret 0 s) ∧
    exec_cmds_seq [⟨["false"], 0, []⟩, ⟨["echo", "hi"], 0, []⟩] (shell 0 1 2 [] [exited 1]) =
      Res.ret 0 { shell 0 1 2 [] [] with procs := 2, log := [Ev.fork 1, Ev.fork 2] } := by
  constructor
  · intro e s
    rw [exit_status_of_exited]
    have h := e.isLt
    have h1 : ((e.val : Int)) % 256 = e.val := by omega
    simp only [h1, EXIT_SUCCESS]
    norm_cast
  · decide

/-! ## Theorems: the results of `exec_cmd` -/

theorem exit_status_plain (status : Int) (s : Sys) : (exit_status status s).Plain := by
  unfold exit_status Res.Plain
  refine ⟨s, ?_⟩
  split_ifs <;> simp

theorem sys_chdir_range (path : Option String) (s : Sys) :
    (sys_chdir path s).1 = 0 ∨ (sys_chdir path s).1 = -1 := by
  unfold sys_chdir
  cases path with
  | none => simp
  | some p =>
    simp only
    split_ifs <;> simp

theorem builtin_chdir_range (c : String) (argv : List String) (s : Sys) :
    ∃ x s1, builtin_chdir (some c) argv s = Res.ret x s1 ∧ (x = 0 ∨ x = -1 ∨ x = 1) := by
  unfold builtin_chdir
  simp only
  split_ifs with h1 h2
  · exact ⟨_, _, rfl, by simp⟩
  · cases h : argv.get? 1 with
    | none =>
      refine ⟨_, _, rfl, ?_⟩
      rcases sys_chdir_range s.home s with h3 | h3 <;> simp [h3]
    | some a =>
      refine ⟨_, _, rfl, ?_⟩
      rcases sys_chdir_range (some a) s with h3 | h3 <;> simp [h3]
  · exact ⟨_, _, rfl, by simp⟩

theorem exec_extern_plain (cmd : Option String) (argv : List String) (redir_type : Int)
    (redir_argv : List String) (pipefd : Int × Int) (s : Sys) :
    ( exec_extern cmd argv redir_type redir_argv pipefd s).Plain := by
  unfold exec_extern
  simp only
  by_cases h : (sys_fork s).1 < 0
  · rw [if_pos h]; exact ⟨_, Or.inr (Or.inl rfl)⟩
  · rw [if_neg h]; exact exit_status_plain _ _

theorem exec_builtin_plain (c : String) (argv : List String) (redir_type : Int)
    (redir_argv : List String) (pipefd : Int × Int) (s : Sys) :
    (exec_builtin (some c) argv redir_type redir_argv pipefd s).Plain := by
  obtain ⟨x, s1, h, hx⟩ := builtin_chdir_range c argv s
  unfold exec_builtin
  rw [h]
  simp only
  by_cases h1 : x ≤ 0
  · rw [if_pos h1]
    refine ⟨s1, ?_⟩
    rcases hx with hx | hx | hx
    · left; rw [hx]
    · right; left; rw [hx]
    · omega
  · rw [if_neg h1]
    by_cases h2 : (sys_fork s1).1 < 0
    · rw [if_pos h2]; exact ⟨_, Or.inr (Or.inl rfl)⟩
    · rw [if_neg h2]; exact exit_status_plain _ _

theorem exec_one_plain (cmd : Option String) (argv : List String) (redir_type : Int)
    (redir_argv : List String) (pipefd : Int × Int) (s : Sys) :
    (exec_one cmd argv redir_type redir_argv pipefd s).Plain := by
  unfold exec_one
  split_ifs with h
  · cases cmd with
    | none => simp [is_builtin] at h
    | some c => exact exec_builtin_plain c argv redir_type redir_argv pipefd s
  · exact exec_extern_plain cmd argv redir_type redir_argv pipefd s

theorem close_pipe_parent_range (pipefd : Int × Int) (s : Sys) :
    (close_pipe_parent pipefd s).1 < 0 → (close_pipe_parent pipefd s).1 = -1 := by
  unfold close_pipe_parent
  have hd : (sys_dup2 pipefd.1 STDIN_FILENO s).1 = -1 ∨ (sys_dup2 pipefd.1 STDIN_FILENO s).1 = 0 := by
    unfold sys_dup2 STDIN_FILENO
    simp only
    split
    · simp
    · split_ifs <;> simp
  simp only
  rcases hd with hd | hd
  · simp [hd]
  · rw [if_neg (by omega)]
    simp only [hd]
    split_ifs <;> simp

theorem exec_cmd_plain (argv : List String) (redir_type : Int) (redir_argv : List String)
    (s : Sys) : (exec_cmd argv redir_type redir_argv s).Plain := by
  unfold exec_cmd
  cases argv.head? with
  | none => exact ⟨s, Or.inl rfl⟩
  | some cmd =>
    simp only []
    generalize (if redir_type = 124 then setup_pipe_parent s
        else ((0 : Int), ((-1 : Int), (-1 : Int)), (-1 : Int), (-1 : Int), s)) = p
    by_cases h1 : redir_type = 124 ∧ p.1 < 0
    · rw [if_pos h1]; exact ⟨_, Or.inr (Or.inl rfl)⟩
    · rw [if_neg h1]
      obtain ⟨s2, h2⟩ := exec_one_plain (some cmd) argv redir_type redir_argv p.2.1 p.2.2.2.2
      rcases h2 with h2 | h2 | h2
      · rw [h2]
        simp only
        rw [if_neg (by omega)]
        by_cases h3 : redir_type = 124
        · rw [if_pos h3]
          by_cases h4 : (close_pipe_parent p.2.1 s2).1 < 0
          · rw [if_pos h4, close_pipe_parent_range p.2.1 s2 h4]
            exact ⟨_, Or.inr (Or.inl rfl)⟩
          · rw [if_neg h4]
            obtain ⟨s4, h6⟩ := exec_one_plain redir_argv.head? redir_argv 0 [] p.2.1
              (close_pipe_parent p.2.1 s2).2
            rcases h6 with h6 | h6 | h6 <;> rw [h6] <;> simp only
            · split_ifs
              · exact ⟨_, Or.inr (Or.inl rfl)⟩
              · exact ⟨_, Or.inl rfl⟩
            · split_ifs
              · exact ⟨_, Or.inr (Or.inl rfl)⟩
              · exact ⟨_, Or.inr (Or.inl rfl)⟩
            · exact ⟨_, Or.inr (Or.inr rfl)⟩
        · rw [if_neg h3]; exact ⟨_, Or.inl rfl⟩
      · rw [h2]
        simp only
        rw [if_pos (by omega)]
        exact ⟨_, Or.inr (Or.inl rfl)⟩
      · rw [h2]
        exact ⟨_, Or.inr (Or.inr rfl)⟩

/-! ## Theorems: sequential execution -/

theorem exec_cmds_seq_loop_spec (cmds : List Clause) :
    ∀ (res : Int) (s : Sys),
    ∃ (n : Nat) (st : Nat → Sys) (r : Nat → Int),
      n ≤ cmds.length ∧ st 0 = s ∧
      (∀ i, i < n → ∃ c, cmds[i]? = some c ∧ run_clause c (st i) = Res.ret (r i) (st (i + 1)) ∧
        (r i = 0 ∨ r i = -1)) ∧
      ((n = cmds.length ∧
          exec_cmds_seq_loop cmds res s =
            Res.ret (if ∃ i, i < n ∧ r i < 0 then -1 else res) (st n)) ∨
       (∃ c, cmds[n]? = some c ∧ run_clause c (st n) = Res.exit EXIT_SUCCESS (st (n + 1)) ∧
          exec_cmds_seq_loop cmds res s = Res.exit EXIT_SUCCESS (st (n + 1)))) := by
  induction cmds with
  | nil =>
    intro res s
    refine ⟨0, fun _ => s, fun _ => 0, le_refl _, rfl, ?_, Or.inl ⟨rfl, ?_⟩⟩
    · intro i hi; omega
    · simp [exec_cmds_seq_loop]
  | cons c cs ih =>
    intro res s
    obtain ⟨s1, h⟩ := exec_cmd_plain c.argv c.redir_type c.redir_argv s
    have key : ∀ r0 : Int, (r0 = 0 ∨ r0 = -1) → run_clause c s = Res.ret r0 s1 →
        ∃ (n : Nat) (st : Nat → Sys) (r : Nat → Int),
          n ≤ (c :: cs).length ∧ st 0 = s ∧
          (∀ i, i < n → ∃ c', (c :: cs)[i]? = some c' ∧
            run_clause c' (st i) = Res.ret (r i) (st (i + 1)) ∧ (r i = 0 ∨ r i = -1)) ∧
          ((n = (c :: cs).length ∧
              exec_cmds_seq_loop (c :: cs) res s =
                Res.ret (if ∃ i, i < n ∧ r i < 0 then -1 else res) (st n)) ∨
           (∃ c', (c :: cs)[n]? = some c' ∧
              run_clause c' (st n) = Res.exit EXIT_SUCCESS (st (n + 1)) ∧
              exec_cmds_seq_loop (c :: cs) res s = Res.exit EXIT_SUCCESS (st (n + 1)))) := by
      intro r0 hr0 hrun
      obtain ⟨n, st, r, hn, h0, hall, hfin⟩ := ih (if r0 < 0 then r0 else res) s1
      refine ⟨n + 1, fun i => Nat.casesOn i s (fun j => st j), fun i => Nat.casesOn i r0 (fun j => r j),
        by simpa using hn, rfl, ?_, ?_⟩
      · intro i hi
        cases i with
        | zero => exact ⟨c, by simp, by simpa [h0] using hrun, hr0⟩
        | succ j =>
          obtain ⟨c', hc1, hc2, hc3⟩ := hall j (by omega)
          exact ⟨c', by simpa using hc1, hc2, hc3⟩
      · have hloop : exec_cmds_seq_loop (c :: cs) res s =
            exec_cmds_seq_loop cs (if r0 < 0 then r0 else res) s1 := by
          simp only [exec_cmds_seq_loop]
          unfold run_clause at hrun
          rw [hrun]
        rcases hfin with ⟨hlen, hres⟩ | ⟨c', hc1, hc2, hc3⟩
        · left
          refine ⟨by simp [hlen], ?_⟩
          rw [hloop, hres]
          congr 1
          by_cases hex : ∃ i, i < n ∧ r i < 0
          · have hex2 : ∃ i, i < n + 1 ∧ (Nat.casesOn i r0 (fun j => r j) : Int) < 0 := by
              obtain ⟨i, hi1, hi2⟩ := hex
              exact ⟨i + 1, by omega, hi2⟩
            rw [if_pos hex, if_pos hex2]
          · rw [if_neg hex]
            rcases hr0 with hr0 | hr0
            · have : ¬ ∃ i, i < n + 1 ∧ (Nat.casesOn i r0 (fun j => r j) : Int) < 0 := by
                rintro ⟨i, hi1, hi2⟩
                cases i with
                | zero => simp [hr0] at hi2
                | succ j => exact hex ⟨j, by omega, hi2⟩
              rw [if_neg this, if_neg (by omega)]
            · have hex2 : ∃ i, i < n + 1 ∧ (Nat.casesOn i r0 (fun j => r j) : Int) < 0 :=
                ⟨0, by omega, by simp [hr0]⟩
              have hneg : r0 < 0 := by omega
              rw [if_pos hex2, if_pos hneg, hr0]
        · right
          exact ⟨c', by simpa using hc1, hc2, by rw [hloop]; exact hc3⟩
    have hrc : run_clause c s = exec_cmd c.argv c.redir_type c.redir_argv s := rfl
    rcases h with h | h | h
    · exact key 0 (Or.inl rfl) (by rw [hrc, h])
    · exact key (-1) (Or.inr rfl) (by rw [hrc, h])
    · refine ⟨0, fun i => Nat.casesOn i s (fun _ => s1), fun _ => 0, by simp, rfl, ?_, Or.inr ?_⟩
      · intro i hi; omega
      · refine ⟨c, by simp, ?_, ?_⟩
        · show run_clause c s = Res.exit EXIT_SUCCESS s1
          rw [hrc, h]
        · simp only [exec_cmds_seq_loop]
          rw [h]

/-- C4: `exec_cmds_seq` passes the clauses to `exec_cmd` one after the other in
list order, each once and whatever the earlier results were: there are states
`st 0, st 1, ...` of the shell, starting with the initial one, such that clause
`i` is run in `st i` and leaves `st (i + 1)`. Either all clauses return, and
the result is -1 if some clause returned a negative value and 0 otherwise; or
the clauses before clause `n` return, clause `n` ends the shell, and no later
clause is run. -/
theorem exec_cmds_seq_runs_in_order (cmds : List Clause) (s : Sys) :
    ∃ (n : Nat) (st : Nat → Sys) (r : Nat → Int),
      n ≤ cmds.length ∧ st 0 = s ∧
      (∀ i, i < n → ∃ c, cmds[i]? = some c ∧ run_clause c (st i) = Res.ret (r i) (st (i + 1))) ∧
      ((n = cmds.length ∧
          exec_cmds_seq cmds s = Res.ret (if ∃ i, i < n ∧ r i < 0 then -1 else 0) (st n)) ∨
       (∃ c, cmds[n]? = some c ∧ run_clause c (st n) = Res.exit EXIT_SUCCESS (st (n + 1)) ∧
          exec_cmds_seq cmds s = Res.exit EXIT_SUCCESS (st (n + 1)))) := by
  obtain ⟨n, st, r, hn, h0, hall, hfin⟩ := exec_cmds_seq_loop_spec cmds 0 s
  refine ⟨n, st, r, hn, h0, ?_, hfin⟩
  intro i hi
  obtain ⟨c, hc1, hc2, _⟩ := hall i hi
  exact ⟨c, hc1, hc2⟩

/-! ## Theorems: parallel execution, the order of `chdir` and `fork` -/

theorem sys_wait_log (status : Int) (s : Sys) : (sys_wait status s).2.log = s.log := by
  unfold sys_wait
  split <;> rfl

theorem exit_status_sys (status : Int) (s : Sys) : (exit_status status s).sys = s := by
  unfold exit_status
  split_ifs <;> rfl

theorem par_wait_log (pids : List Int) :
    ∀ (status res : Int) (s : Sys), (par_wait pids status res s).sys.log = s.log := by
  induction pids with
  | nil => intro status res s; rfl
  | cons pid pids ih =>
    intro status res s
    unfold par_wait
    by_cases hp : pid > 0
    · rw [if_pos hp]
      simp only
      have h1 := exit_status_sys (sys_wait status s).1 (sys_wait status s).2
      cases h : exit_status (sys_wait status s).1 (sys_wait status s).2 with
      | ret success s1 =>
        rw [h] at h1
        simp only [Res.sys] at h1
        simp only [ih, h1, sys_wait_log]
      | exit code s1 =>
        rw [h] at h1
        simp only [Res.sys] at h1
        simp only [Res.sys, h1, sys_wait_log]
      | crash s1 =>
        rw [h] at h1
        simp only [Res.sys] at h1
        simp only [Res.sys, h1, sys_wait_log]
    · rw [if_neg hp]
      exact ih status res s

theorem sys_chdir_log (path : Option String) (s : Sys) :
    (sys_chdir path s).2.log = s.log ++ [Ev.chdir path] ∧ (sys_chdir path s).1 ≤ 0 := by
  unfold sys_chdir answer
  cases path with
  | none => simp
  | some p =>
    simp only
    split_ifs <;> simp

theorem sys_fork_log (s : Sys) : ∃ pid, (sys_fork s).2.log = s.log ++ [Ev.fork pid] := by
  unfold sys_fork answer
  simp only
  split_ifs
  · exact ⟨_, rfl⟩
  · exact ⟨_, rfl⟩

theorem par_launch_log (cmds : List Clause) :
    ∀ (res : Int) (pids : List Int) (s : Sys),
    ∃ evs, (par_launch cmds res pids s).sys.log = s.log ++ evs ∧
      evs.map Ev.isFork = (cmds.takeWhile has_cmd).filterMap clause_call := by
  induction cmds with
  | nil => intro res pids s; exact ⟨[], by simp [par_launch, Res.sys], by simp⟩
  | cons c cs ih =>
    intro res pids s
    unfold par_launch
    cases hc : c.argv.head? with
    | none =>
      refine ⟨[], by simp [builtin_chdir, Res.sys], ?_⟩
      simp [List.takeWhile, has_cmd, hc]
    | some name =>
      have htw : (c :: cs).takeWhile has_cmd = c :: cs.takeWhile has_cmd := by
        simp [List.takeWhile, has_cmd, hc]
      rw [htw]
      unfold builtin_chdir
      simp only
      by_cases hcd : name = CMD_CD
      · rw [if_pos hcd]
        by_cases h2 : c.argv.get? 2 ≠ none
        · rw [if_pos h2]
          simp only
          rw [if_pos (by omega)]
          obtain ⟨evs, he1, he2⟩ := ih res (pids ++ [-1]) s
          have hcall : clause_call c = none := by
            unfold clause_call
            rw [hc, hcd, if_pos rfl, if_pos h2]
          refine ⟨evs, he1, ?_⟩
          simp [List.filterMap_cons, hcall, he2]
        · rw [if_neg h2]
          have hcall : clause_call c = some false := by
            unfold clause_call
            rw [hc, hcd, if_pos rfl, if_neg h2]
          cases h1 : c.argv.get? 1 with
          | none =>
            simp only
            rw [if_pos (sys_chdir_log s.home s).2]
            obtain ⟨evs, he1, he2⟩ := ih res (pids ++ [(sys_chdir s.home s).1]) (sys_chdir s.home s).2
            refine ⟨Ev.chdir s.home :: evs, ?_, ?_⟩
            · rw [he1, (sys_chdir_log s.home s).1]; simp
            · simp [List.filterMap_cons, hcall, he2, Ev.isFork]
          | some arg1 =>
            simp only
            rw [if_pos (sys_chdir_log (some arg1) s).2]
            obtain ⟨evs, he1, he2⟩ := ih res (pids ++ [(sys_chdir (some arg1) s).1])
              (sys_chdir (some arg1) s).2
            refine ⟨Ev.chdir (some arg1) :: evs, ?_, ?_⟩
            · rw [he1, (sys_chdir_log (some arg1) s).1]; simp
            · simp [List.filterMap_cons, hcall, he2, Ev.isFork]
      · rw [if_neg hcd]
        simp only
        rw [if_neg (by omega)]
        have hcall : clause_call c = some true := by
          simp [clause_call, hc, hcd]
        obtain ⟨pid, hpid⟩ := sys_fork_log s
        by_cases hf : (sys_fork s).1 < 0
        · rw [if_pos hf]
          obtain ⟨evs, he1, he2⟩ := ih (-1) (pids ++ [(sys_fork s).1]) (sys_fork s).2
          refine ⟨Ev.fork pid :: evs, ?_, ?_⟩
          · rw [he1, hpid]; simp
          · simp [List.filterMap_cons, hcall, he2, Ev.isFork]
        · rw [if_neg hf]
          obtain ⟨evs, he1, he2⟩ := ih res (pids ++ [(sys_fork s).1])
            (rejoin (sys_fork s).2 (par_child c (child_of (sys_fork s).2)).2
              (par_child c (child_of (sys_fork s).2)).1)
          refine ⟨Ev.fork pid :: evs, ?_, ?_⟩
          · rw [he1]
            show (sys_fork s).2.log ++ evs = _
            rw [hpid]; simp
          · simp [List.filterMap_cons, hcall, he2, Ev.isFork]

/-- C5, as stated, fails: for `pwd & cd /tmp` the shell forks the child of
`pwd` first and changes its directory afterwards. -/
theorem exec_cmds_par_fork_before_chdir :
    (exec_cmds_par [⟨["pwd"], 0, []⟩, ⟨["cd", "/tmp"], 0, []⟩] (shell 0 1 2 [] [])).sys.log =
      [Ev.fork 1, Ev.chdir (some "/tmp")] := by
  decide

/-- C5, amended: in one call of `exec_cmds_par` every `cd` clause's directory
change is made in the shell process itself, at the place of the clause in the
list: the `chdir` and `fork` calls of the shell follow the order of the
clauses (a `chdir` for a `cd` clause with at most one argument, nothing for a
`cd` clause with more, a `fork` for any other clause; a clause without a
command ends the loop). So no fork of a later clause precedes a `chdir`, while
the forks of the clauses listed before it do. -/
theorem exec_cmds_par_calls_in_clause_order (cmds : List Clause) (s : Sys) :
    ∃ evs, (exec_cmds_par cmds s).sys.log = s.log ++ evs ∧
      evs.map Ev.isFork = (cmds.takeWhile has_cmd).filterMap clause_call := by
  obtain ⟨evs, he1, he2⟩ := par_launch_log cmds 0 [] s
  refine ⟨evs, ?_, he2⟩
  unfold exec_cmds_par
  cases h : par_launch cmds 0 [] s with
  | ret a s1 =>
    obtain ⟨res, pids⟩ := a
    rw [h] at he1
    simp only [Res.sys] at he1
    simp only [par_wait_log, he1]
  | exit code s1 => rw [h] at he1; exact he1
  | crash s1 => rw [h] at he1; exact he1

/-! ## Theorems: what ends the shell -/

theorem sys_dup2_frame (a b : Int) (s : Sys) :
    (sys_dup2 a b s).2.kids = s.kids ∧ (sys_dup2 a b s).2.progs = s.progs := by
  unfold sys_dup2 answer
  simp only
  split
  · exact ⟨rfl, rfl⟩
  · split_ifs <;> exact ⟨rfl, rfl⟩

theorem sys_dup_frame (a : Int) (s : Sys) :
    (sys_dup a s).2.kids = s.kids ∧ (sys_dup a s).2.progs = s.progs := by
  unfold sys_dup answer
  simp only
  split
  · exact ⟨rfl, rfl⟩
  · split_ifs <;> exact ⟨rfl, rfl⟩

theorem sys_close_frame (a : Int) (s : Sys) :
    (sys_close a s).2.kids = s.kids ∧ (sys_close a s).2.progs = s.progs := by
  unfold sys_close answer
  simp only
  split
  · exact ⟨rfl, rfl⟩
  · split_ifs <;> exact ⟨rfl, rfl⟩

theorem sys_open_frame (path : Option String) (s : Sys) :
    (sys_open path s).2.kids = s.kids ∧ (sys_open path s).2.progs = s.progs := by
  unfold sys_open answer
  simp only
  split
  · exact ⟨rfl, rfl⟩
  · split_ifs <;> exact ⟨rfl, rfl⟩

theorem sys_pipe_frame (s : Sys) :
    (sys_pipe s).2.2.kids = s.kids ∧ (sys_pipe s).2.2.progs = s.progs := by
  unfold sys_pipe answer
  simp only
  split_ifs <;> exact ⟨rfl, rfl⟩

theorem sys_chdir_frame (path : Option String) (s : Sys) :
    (sys_chdir path s).2.kids = s.kids ∧ (sys_chdir path s).2.progs = s.progs := by
  unfold sys_chdir answer
  simp only
  split
  · exact ⟨rfl, rfl⟩
  · split_ifs <;> exact ⟨rfl, rfl⟩

theorem sys_fork_frame (s : Sys) :
    (sys_fork s).2.kids = s.kids ∧ (sys_fork s).2.progs = s.progs := by
  unfold sys_fork answer
  simp only
  split_ifs <;> exact ⟨rfl, rfl⟩

theorem redir_file_frame (path : Option String) (s : Sys) :
    (redir_file path s).2.kids = s.kids ∧ (redir_file path s).2.progs = s.progs := by
  unfold redir_file
  simp only
  split_ifs <;>
    simp only [(sys_dup2_frame _ _ _).1, (sys_dup2_frame _ _ _).2, (sys_open_frame _ _).1,
      (sys_open_frame _ _).2, and_self]

theorem redir_pipe_frame (pipefd : Int × Int) (s : Sys) :
    (redir_pipe pipefd s).2.kids = s.kids ∧ (redir_pipe pipefd s).2.progs = s.progs := by
  unfold redir_pipe
  simp only [(sys_dup2_frame _ _ _).1, (sys_dup2_frame _ _ _).2, (sys_close_frame _ _).1,
      (sys_close_frame _ _).2, and_self]

theorem setup_redir_frame (type : Int) (argv : List String) (pipefd : Int × Int) (s : Sys) :
    (setup_redir type argv pipefd s).2.kids = s.kids ∧
    (setup_redir type argv pipefd s).2.progs = s.progs := by
  unfold setup_redir
  split_ifs
  · exact redir_file_frame _ _
  · exact redir_pipe_frame _ _
  · exact ⟨rfl, rfl⟩
  · exact ⟨rfl, rfl⟩

theorem setup_pipe_parent_frame (s : Sys) :
    (setup_pipe_parent s).2.2.2.2.kids = s.kids ∧
    (setup_pipe_parent s).2.2.2.2.progs = s.progs := by
  unfold setup_pipe_parent
  simp only
  split_ifs <;>
    simp only [(sys_dup_frame _ _).1, (sys_dup_frame _ _).2, (sys_pipe_frame _).1,
      (sys_pipe_frame _).2, and_self]

theorem close_pipe_parent_frame (pipefd : Int × Int) (s : Sys) :
    (close_pipe_parent pipefd s).2.kids = s.kids ∧
    (close_pipe_parent pipefd s).2.progs = s.progs := by
  unfold close_pipe_parent
  simp only
  split_ifs <;>
    simp only [(sys_dup2_frame _ _ _).1, (sys_dup2_frame _ _ _).2, (sys_close_frame _ _).1,
      (sys_close_frame _ _).2, and_self]

theorem restore_stdio_frame (a b : Int) (s : Sys) :
    (restore_stdio a b s).2.kids = s.kids ∧ (restore_stdio a b s).2.progs = s.progs := by
  unfold restore_stdio
  simp only
  split_ifs <;>
    simp only [(sys_dup2_frame _ _ _).1, (sys_dup2_frame _ _ _).2, and_self]

theorem sys_wait_rejoin (p c : Sys) (status : Int) (h : p.kids = []) :
    (sys_wait 0 (rejoin p c status)).1 = status ∧
    (sys_wait 0 (rejoin p c status)).2.kids = [] ∧
    (sys_wait 0 (rejoin p c status)).2.progs = c.progs := by
  unfold sys_wait rejoin
  simp [h, Nat.mod_one]

theorem exit_status_no_bye (status : Int) (s : Sys) (h : WEXITSTATUS status ≠ EXIT_BYE) :
    exit_status status s = Res.ret 0 s ∨ exit_status status s = Res.ret (-1) s := by
  unfold exit_status
  split_ifs <;> simp

theorem status_segv : WEXITSTATUS SIGSEGV ≠ EXIT_BYE := by decide

theorem status_failure : WEXITSTATUS (exited EXIT_ON_FAILURE) ≠ EXIT_BYE := by decide

theorem status_end_zero : WEXITSTATUS (builtin_end 0) ≠ EXIT_BYE := by decide

theorem status_end_neg : WEXITSTATUS (builtin_end (-1)) ≠ EXIT_BYE := by decide

theorem status_zero : WEXITSTATUS 0 ≠ EXIT_BYE := by decide

theorem builtin_not_bye (c : String) (argv : List String) (redir_type : Int) (s : Sys)
    (h : c ≠ CMD_QUIT) :
    WEXITSTATUS (builtin (some c) argv redir_type s).1 ≠ EXIT_BYE ∧
    (builtin (some c) argv redir_type s).2.progs = s.progs := by
  unfold builtin
  simp only
  rw [if_neg h]
  split_ifs
  · split
    · exact ⟨status_segv, rfl⟩
    · exact ⟨status_end_zero, rfl⟩
  · exact ⟨status_end_neg, rfl⟩
  · exact ⟨status_end_zero, rfl⟩
  · exact ⟨status_end_neg, rfl⟩
  · exact ⟨status_end_neg, rfl⟩
  · exact ⟨status_end_neg, rfl⟩

theorem external_not_bye (cmd : Option String) (argv : List String) (s : Sys)
    (h : ∀ st ∈ s.progs, WEXITSTATUS st ≠ EXIT_BYE) :
    WEXITSTATUS (external cmd argv s).1 ≠ EXIT_BYE ∧
    ∀ st ∈ (external cmd argv s).2.progs, WEXITSTATUS st ≠ EXIT_BYE := by
  unfold external answer
  cases cmd with
  | none => exact ⟨status_segv, h⟩
  | some c =>
    simp only
    split_ifs
    · cases hp : s.progs with
      | nil => simp only [List.headD_nil, List.tail_nil]; exact ⟨status_zero, by simp⟩
      | cons x xs =>
        rw [hp] at h
        simp only [List.headD_cons, List.tail_cons]
        exact ⟨h x (by simp), fun st hst => h st (by simp [hst])⟩
    · exact ⟨status_failure, h⟩

theorem builtin_chdir_cd (argv : List String) (s : Sys) :
    ∃ x s1, builtin_chdir (some CMD_CD) argv s = Res.ret x s1 ∧ (x = 0 ∨ x = -1) ∧
      s1.kids = s.kids ∧ s1.progs = s.progs := by
  unfold builtin_chdir
  simp only
  rw [if_pos trivial]
  by_cases h2 : argv.get? 2 ≠ none
  · rw [if_pos h2]
    exact ⟨-1, s, rfl, Or.inr rfl, rfl, rfl⟩
  · rw [if_neg h2]
    cases argv.get? 1 with
    | none =>
      exact ⟨_, _, rfl, sys_chdir_range _ _, (sys_chdir_frame _ _).1, (sys_chdir_frame _ _).2⟩
    | some arg1 =>
      exact ⟨_, _, rfl, sys_chdir_range _ _, (sys_chdir_frame _ _).1, (sys_chdir_frame _ _).2⟩

theorem exec_one_calm (cmd : Option String) (argv : List String) (redir_type : Int)
    (redir_argv : List String) (pipefd : Int × Int) (s : Sys)
    (hcmd : cmd ≠ some CMD_QUIT) (hs : s.Calm) :
    ∃ r s1, exec_one cmd argv redir_type redir_argv pipefd s = Res.ret r s1 ∧
      (r = 0 ∨ r = -1) ∧ s1.Calm := by
  have finish : ∀ (p c : Sys) (status : Int), p.Calm → WEXITSTATUS status ≠ EXIT_BYE →
      (∀ st ∈ c.progs, WEXITSTATUS st ≠ EXIT_BYE) →
      ∃ r s1, exit_status (sys_wait 0 (rejoin p c status)).1 (sys_wait 0 (rejoin p c status)).2 =
        Res.ret r s1 ∧ (r = 0 ∨ r = -1) ∧ s1.Calm := by
    intro p c status hp hst hc
    obtain ⟨h1, h2, h3⟩ := sys_wait_rejoin p c status hp.1
    have hcalm : (sys_wait 0 (rejoin p c status)).2.Calm := ⟨h2, by rw [h3]; exact hc⟩
    rw [h1]
    rcases exit_status_no_bye status (sys_wait 0 (rejoin p c status)).2 hst with h | h
    · exact ⟨0, _, h, Or.inl rfl, hcalm⟩
    · exact ⟨-1, _, h, Or.inr rfl, hcalm⟩
  have hfork : ∀ s0 : Sys, s0.Calm → (sys_fork s0).2.Calm := by
    intro s0 h0
    exact ⟨by rw [(sys_fork_frame s0).1]; exact h0.1, by rw [(sys_fork_frame s0).2]; exact h0.2⟩
  have hchild : ∀ s0 : Sys, s0.Calm →
      ∀ st ∈ (setup_redir redir_type redir_argv pipefd (child_of s0)).2.progs,
        WEXITSTATUS st ≠ EXIT_BYE := by
    intro s0 h0
    rw [(setup_redir_frame _ _ _ _).2]
    exact h0.2
  unfold exec_one
  by_cases hb : is_builtin cmd = true
  · rw [if_pos hb]
    cases cmd with
    | none => simp [is_builtin] at hb
    | some c =>
      have hc : c ≠ CMD_QUIT := fun h => hcmd (by rw [h])
      by_cases hcd : c = CMD_CD
      · obtain ⟨x, s1, h1, h2, h3, h4⟩ := builtin_chdir_cd argv s
        unfold exec_builtin
        rw [hcd, h1]
        simp only
        rw [if_pos (by omega)]
        exact ⟨x, s1, rfl, h2, by rw [h3]; exact hs.1, by rw [h4]; exact hs.2⟩
      unfold exec_builtin builtin_chdir
      simp only
      by_cases hcd : c = CMD_CD
      · exact absurd hcd (by assumption)
      · rw [if_neg hcd]
        simp only
        rw [if_neg (by omega)]
        by_cases hf : (sys_fork s).1 < 0
        · rw [if_pos hf]
          exact ⟨-1, _, rfl, Or.inr rfl, hfork s hs⟩
        · rw [if_neg hf]
          by_cases hr : (setup_redir redir_type redir_argv pipefd (child_of (sys_fork s).2)).1 < 0
          · rw [if_pos hr]
            exact finish _ _ _ (hfork s hs) status_failure (hchild _ (hfork s hs))
          · rw [if_neg hr]
            have hb2 := builtin_not_bye c argv redir_type
              (setup_redir redir_type redir_argv pipefd (child_of (sys_fork s).2)).2 hc
            exact finish _ _ _ (hfork s hs) hb2.1 (by rw [hb2.2]; exact hchild _ (hfork s hs))
  · rw [if_neg hb]
    unfold exec_extern
    simp only
    by_cases hf : (sys_fork s).1 < 0
    · rw [if_pos hf]
      exact ⟨-1, _, rfl, Or.inr rfl, hfork s hs⟩
    · rw [if_neg hf]
      by_cases hr : (setup_redir redir_type redir_argv pipefd (child_of (sys_fork s).2)).1 < 0
      · rw [if_pos hr]
        exact finish _ _ _ (hfork s hs) status_failure (hchild _ (hfork s hs))
      · rw [if_neg hr]
        have he := external_not_bye cmd argv
          (setup_redir redir_type redir_argv pipefd (child_of (sys_fork s).2)).2
          (hchild _ (hfork s hs))
        exact finish _ _ _ (hfork s hs) he.1 he.2

theorem exec_cmd_calm (argv : List String) (redir_type : Int) (redir_argv : List String)
    (s : Sys) (hcmd : argv.head? ≠ some CMD_QUIT)
    (hnext : redir_type = 124 → redir_argv.head? ≠ some CMD_QUIT) (hs : s.Calm) :
    ∃ r s1, exec_cmd argv redir_type redir_argv s = Res.ret r s1 ∧ (r = 0 ∨ r = -1) ∧
      s1.Calm := by
  unfold exec_cmd
  cases hh : argv.head? with
  | none => exact ⟨0, s, rfl, Or.inl rfl, hs⟩
  | some cmd =>
    rw [hh] at hcmd
    simp only []
    have hp : (if redir_type = 124 then setup_pipe_parent s
        else ((0 : Int), ((-1 : Int), (-1 : Int)), (-1 : Int), (-1 : Int), s)).2.2.2.2.Calm := by
      split_ifs
      · exact ⟨by rw [(setup_pipe_parent_frame s).1]; exact hs.1,
          by rw [(setup_pipe_parent_frame s).2]; exact hs.2⟩
      · exact hs
    revert hp
    generalize (if redir_type = 124 then setup_pipe_parent s
        else ((0 : Int), ((-1 : Int), (-1 : Int)), (-1 : Int), (-1 : Int), s)) = p
    intro hp
    by_cases h1 : redir_type = 124 ∧ p.1 < 0
    · rw [if_pos h1]; exact ⟨-1, _, rfl, Or.inr rfl, hp⟩
    · rw [if_neg h1]
      obtain ⟨r, s2, h2, hr, hs2⟩ :=
        exec_one_calm (some cmd) argv redir_type redir_argv p.2.1 p.2.2.2.2 hcmd hp
      rw [h2]
      simp only
      by_cases h3 : r < 0
      · rw [if_pos h3]; exact ⟨r, s2, rfl, hr, hs2⟩
      · rw [if_neg h3]
        by_cases h4 : redir_type = 124
        · rw [if_pos h4]
          have hc : (close_pipe_parent p.2.1 s2).2.Calm :=
            ⟨by rw [(close_pipe_parent_frame _ _).1]; exact hs2.1,
              by rw [(close_pipe_parent_frame _ _).2]; exact hs2.2⟩
          by_cases h5 : (close_pipe_parent p.2.1 s2).1 < 0
          · rw [if_pos h5]
            exact ⟨_, _, rfl, Or.inr (close_pipe_parent_range _ _ h5), hc⟩
          · rw [if_neg h5]
            obtain ⟨r4, s4, h6, hr4, hs4⟩ := exec_one_calm redir_argv.head? redir_argv 0 []
              p.2.1 (close_pipe_parent p.2.1 s2).2 (hnext h4) hc
            rw [h6]
            simp only
            have hrs : (restore_stdio p.2.2.1 p.2.2.2.1 s4).2.Calm :=
              ⟨by rw [(restore_stdio_frame _ _ _).1]; exact hs4.1,
                by rw [(restore_stdio_frame _ _ _).2]; exact hs4.2⟩
            by_cases h7 : (restore_stdio p.2.2.1 p.2.2.2.1 s4).1 < 0
            · rw [if_pos h7]; exact ⟨-1, _, rfl, Or.inr rfl, hrs⟩
            · rw [if_neg h7]; exact ⟨r4, _, rfl, hr4, hrs⟩
        · rw [if_neg h4]; exact ⟨r, s2, rfl, hr, hs2⟩

/-- C6, as stated, fails: an external program whose child exits with code 10
ends the shell. -/
theorem exec_cmd_external_code_ten_ends_shell :
    WEXITSTATUS (exited 10) = 10 ∧
    exec_cmd ["prog"] 0 [] (shell 0 1 2 [] [exited 10]) =
      Res.exit EXIT_SUCCESS { shell 0 1 2 [] [] with procs := 1, log := [Ev.fork 1] } := by
  exact ⟨by decide, by decide⟩

/-- C6, amended: `exec_cmd` ends the shell only when a child's wait status
carries the exit code 10 (`EXIT_BYE`), which a successful `bye` produces and
any external program can produce too. For every command whose name is not
`bye` and that is not piped into `bye`, in a shell without children left to
wait for, as long as no external program ends with exit code 10, `exec_cmd`
returns Success (0) or CommandFailure (-1) to its caller. -/
theorem exec_cmd_returns_unless_exit_bye (argv : List String) (redir_type : Int)
    (redir_argv : List String) (s : Sys) (hcmd : argv.head? ≠ some CMD_QUIT)
    (hnext : redir_type = 124 → redir_argv.head? ≠ some CMD_QUIT)
    (hkids : s.kids = []) (hprogs : ∀ st ∈ s.progs, WEXITSTATUS st ≠ EXIT_BYE) :
    ∃ r s1, exec_cmd argv redir_type redir_argv s = Res.ret r s1 ∧ (r = 0 ∨ r = -1) := by
  obtain ⟨r, s1, h, hr, _⟩ := exec_cmd_calm argv redir_type redir_argv s hcmd hnext ⟨hkids, hprogs⟩
  exact ⟨r, s1, h, hr⟩

/-- An instance of the theorem on C6: `sh -c "exit 1" | cat`, with programs that
exit with codes 1 and 3. -/
theorem exec_cmd_returns_unless_exit_bye_witness :
    ∃ r s1, exec_cmd ["sh", "-c", "exit 1"] 124 ["cat"] (shell 0 1 2 [] [exited 1, exited 3]) =
      Res.ret r s1 ∧ (r = 0 ∨ r = -1) :=
  exec_cmd_returns_unless_exit_bye ["sh", "-c", "exit 1"] 124 ["cat"]
    (shell 0 1 2 [] [exited 1, exited 3]) (by decide) (by decide) rfl (by decide)

/-! ## Theorems: `bye` -/

/-- C7: for every argument list whose first token is `bye` and every
redirection type `r`, in a shell without children left to wait for, when the
fork and the redirection setup in the child succeed: `exec_builtin` ends the
shell with success status if there is no argument after `bye` and `r` is none
(0), and returns CommandFailure (-1) in every other case. -/
theorem exec_builtin_bye (args : List String) (r : Int) (redir_argv : List String)
    (pipefd : Int × Int) (s : Sys) (hkids : s.kids = [])
    (hfork : ¬ (sys_fork s).1 < 0)
    (hredir : ¬ (setup_redir r redir_argv pipefd (child_of (sys_fork s).2)).1 < 0) :
    ((args = [] ∧ r = 0) →
      ∃ s1, exec_builtin (some CMD_QUIT) (CMD_QUIT :: args) r redir_argv pipefd s =
        Res.exit EXIT_SUCCESS s1) ∧
    (¬ (args = [] ∧ r = 0) →
      ∃ s1, exec_builtin (some CMD_QUIT) (CMD_QUIT :: args) r redir_argv pipefd s =
        Res.ret (-1) s1) := by
  have hk2 : (sys_fork s).2.kids = [] := by rw [(sys_fork_frame s).1]; exact hkids
  have hcd : builtin_chdir (some CMD_QUIT) (CMD_QUIT :: args) s = Res.ret 1 s := by
    unfold builtin_chdir
    simp only
    rw [if_neg (by decide)]
  have hone : ¬ ((1 : Int) ≤ 0) := by omega
  unfold exec_builtin
  rw [hcd]
  simp only
  rw [if_neg hone, if_neg hfork, if_neg hredir]
  generalize (setup_redir r redir_argv pipefd (child_of (sys_fork s).2)).2 = c
  constructor
  · rintro ⟨ha, hr⟩
    have hb : builtin (some CMD_QUIT) (CMD_QUIT :: args) r c = (exited EXIT_BYE, c) := by
      unfold builtin
      simp [ha, hr, builtin_end]
    rw [hb]
    simp only
    obtain ⟨h1, -, -⟩ := sys_wait_rejoin (sys_fork s).2 c (exited EXIT_BYE) hk2
    rw [h1, exit_status_of_exited]
    refine ⟨(sys_wait 0 (rejoin (sys_fork s).2 c (exited EXIT_BYE))).2, ?_⟩
    simp [EXIT_BYE, EXIT_SUCCESS]
  · intro hn
    have hb : builtin (some CMD_QUIT) (CMD_QUIT :: args) r c = (exited EXIT_ON_FAILURE, c) := by
      unfold builtin
      simp only
      rw [if_pos trivial]
      cases args with
      | nil =>
        have hr : r ≠ 0 := fun h => hn ⟨rfl, h⟩
        simp [hr, builtin_end, EXIT_BYE]
      | cons a as => simp [builtin_end, EXIT_BYE]
    rw [hb]
    simp only
    obtain ⟨h1, -, -⟩ := sys_wait_rejoin (sys_fork s).2 c (exited EXIT_ON_FAILURE) hk2
    rw [h1, exit_status_of_exited]
    refine ⟨(sys_wait 0 (rejoin (sys_fork s).2 c (exited EXIT_ON_FAILURE))).2, ?_⟩
    simp [EXIT_ON_FAILURE]

/-- An instance of the theorem on C7: `bye x` without redirection. -/
theorem exec_builtin_bye_witness :
    ((["x"] = ([] : List String) ∧ (0 : Int) = 0) →
      ∃ s1, exec_builtin (some CMD_QUIT) (CMD_QUIT :: ["x"]) 0 [] (-1, -1) (shell 0 1 2 [] []) =
        Res.exit EXIT_SUCCESS s1) ∧
    (¬ (["x"] = ([] : List String) ∧ (0 : Int) = 0) →
      ∃ s1, exec_builtin (some CMD_QUIT) (CMD_QUIT :: ["x"]) 0 [] (-1, -1) (shell 0 1 2 [] []) =
        Res.ret (-1) s1) :=
  exec_builtin_bye ["x"] 0 [] (-1, -1) (shell 0 1 2 [] []) rfl (by decide) (by decide)

/-! ## Theorems: the descriptors of the shell after a pipe -/

/-- C8 fails on the code: `setup_pipe_parent` saves a duplicate of descriptor 0
as `restore_stdout`, so after `echo hi|cat`, with every system call
succeeding, descriptor 1 of the shell refers to the file that descriptor 0
refers to, not to the file it referred to before the call. -/
theorem exec_cmd_pipe_loses_stdout :
    fd_get (shell 7 8 9 [] []).fdt STDIN_FILENO = some 7 ∧
    fd_get (shell 7 8 9 [] []).fdt STDOUT_FILENO = some 8 ∧
    (∃ s1, exec_cmd ["echo", "hi"] 124 ["cat"] (shell 7 8 9 [] []) = Res.ret 0 s1) ∧
    fd_get (exec_cmd ["echo", "hi"] 124 ["cat"] (shell 7 8 9 [] [])).sys.fdt STDIN_FILENO =
      some 7 ∧
    fd_get (exec_cmd ["echo", "hi"] 124 ["cat"] (shell 7 8 9 [] [])).sys.fdt STDOUT_FILENO =
      some 7 := by
  refine ⟨by decide, by decide, ⟨{ shell 7 8 9 [] [] with
      fdt := [some 7, some 7, some 9, none, none, some 7, some 7], files := 12, procs := 2,
      log := [Ev.fork 1, Ev.fork 2] }, by decide⟩, by decide, by decide⟩

/-! ## Theorems: libc string primitives -/

theorem strchr_cons (x : Int) (s : List Int) (c : Int) :
    strchr (x :: s) c =
      if x = c then some 0 else if x = 0 then none else (strchr s c).map (· + 1) := rfl

theorem getElem?_of_drop_eq_cons {l r : List Int} {n : Nat} {x : Int}
    (h : l.drop n = x :: r) : l[n]? = some x := by
  have := congrArg List.head? h
  simpa [List.head?_drop] using this

theorem strchr_none_of_not_mem (t rest : List Int) (c : Int) (hc : c ≠ 0) (h : c ∉ t) :
    strchr (t ++ 0 :: rest) c = none := by
  induction t with
  | nil => simp [strchr, Ne.symm hc]
  | cons x t ih =>
    simp only [List.mem_cons, not_or] at h
    rw [List.cons_append, strchr_cons, if_neg (Ne.symm h.1)]
    split_ifs
    · rfl
    · rw [ih h.2]; rfl

theorem strchr_split (t rest : List Int) (c : Int) (h0 : (0 : Int) ∉ t) (h : c ∈ t) :
    ∃ a b, t = a ++ c :: b ∧ c ∉ a ∧ strchr (t ++ 0 :: rest) c = some a.length := by
  induction t with
  | nil => simp at h
  | cons x t ih =>
    simp only [List.mem_cons, not_or] at h0
    by_cases hx : x = c
    · exact ⟨[], t, by simp [hx], by simp, by simp [strchr, hx]⟩
    · have hmem : c ∈ t := by
        rcases List.mem_cons.1 h with h1 | h1
        · exact absurd h1.symm hx
        · exact h1
      obtain ⟨a, b, h1, h2, h3⟩ := ih h0.2 hmem
      refine ⟨x :: a, b, by simp [h1], ?_, ?_⟩
      · simp only [List.mem_cons, not_or]
        exact ⟨fun h => hx h.symm, h2⟩
      · rw [List.cons_append, strchr_cons, if_neg hx, if_neg (Ne.symm h0.1), h3]
        simp

/-! ## Theorems: quote validation -/

theorem quote_count_loop_spec (s rest : List Int) (quote : Int) (h0 : (0 : Int) ∉ s) :
    ∀ (fuel p n : Nat), s.length - p ≤ fuel → s[p]? = some quote →
      quote_count_loop (s ++ 0 :: rest) quote fuel (some p) n = n + (s.drop p).count quote := by
  intro fuel
  induction fuel with
  | zero =>
    intro p n hf hp
    have hlt : p < s.length := by
      rcases Nat.lt_or_ge p s.length with h | h
      · exact h
      · rw [List.getElem?_eq_none h] at hp; simp at hp
    omega
  | succ fuel ih =>
    intro p n hf hp
    have hlt : p < s.length := by
      rcases Nat.lt_or_ge p s.length with h | h
      · exact h
      · rw [List.getElem?_eq_none h] at hp; simp at hp
    have hdrop : s.drop p = quote :: s.drop (p + 1) := by
      rw [List.drop_eq_getElem_cons hlt]
      rw [List.getElem?_eq_getElem hlt] at hp
      simp only [Option.some.injEq] at hp
      rw [hp]
    have hstr : (s ++ 0 :: rest).drop (p + 1) = s.drop (p + 1) ++ 0 :: rest := by
      rw [List.drop_append_of_le_length (by omega)]
    have h0t : (0 : Int) ∉ s.drop (p + 1) := fun h => h0 (List.mem_of_mem_drop h)
    simp only [quote_count_loop]
    rw [hstr, hdrop, List.count_cons_self]
    by_cases hq : quote ∈ s.drop (p + 1)
    · obtain ⟨a, b, h1, h2, h3⟩ := strchr_split (s.drop (p + 1)) rest quote h0t hq
      rw [h3]
      simp only [Option.map_some']
      have hlen : (s.drop (p + 1)).length = a.length + (b.length + 1) := by
        rw [h1]; simp
      rw [List.length_drop] at hlen
      have hd2 : s.drop (a.length + (p + 1)) = quote :: b := by
        have := congrArg (fun l => l.drop a.length) h1
        simp only [List.drop_drop] at this
        rw [Nat.add_comm] at this
        rw [this]
        simp
      have hget : s[a.length + (p + 1)]? = some quote := getElem?_of_drop_eq_cons hd2
      rw [ih (a.length + (p + 1)) (n + 1) (by omega) hget]
      rw [hd2, h1]
      simp only [List.count_append, List.count_cons_self, List.count_eq_zero_of_not_mem h2]
      omega
    · have hquote : quote ≠ 0 := by
        intro h
        rw [h] at hp
        exact h0 (List.getElem?_mem hp)
      rw [strchr_none_of_not_mem _ _ _ hquote hq]
      simp only [Option.map_none', List.count_eq_zero_of_not_mem hq]
      cases fuel <;> simp [quote_count_loop]

theorem quote_count_from_first (s rest : List Int) (quote : Int) (h0 : (0 : Int) ∉ s)
    (hq : quote ≠ 0) :
    quote_count_loop (s ++ 0 :: rest) quote ((s ++ 0 :: rest).length + 1)
      (strchr (s ++ 0 :: rest) quote) 0 = s.count quote := by
  by_cases hm : quote ∈ s
  · obtain ⟨a, b, h1, h2, h3⟩ := strchr_split s rest quote h0 hm
    rw [h3]
    have hd : s.drop a.length = quote :: b := by rw [h1]; simp
    have hget : s[a.length]? = some quote := getElem?_of_drop_eq_cons hd
    rw [quote_count_loop_spec s rest quote h0 _ _ _ (by simp; omega) hget]
    rw [hd]
    conv_rhs => rw [h1]
    simp [List.count_append, List.count_eq_zero_of_not_mem h2]
  · rw [strchr_none_of_not_mem _ _ _ hq hm, List.count_eq_zero_of_not_mem hm]
    simp [quote_count_loop]

theorem strchr_eq_none_iff (s rest : List Int) (c : Int) (h0 : (0 : Int) ∉ s) (hc : c ≠ 0) :
    strchr (s ++ 0 :: rest) c = none ↔ c ∉ s := by
  constructor
  · intro h hm
    obtain ⟨a, b, _, _, h3⟩ := strchr_split s rest c h0 hm
    rw [h3] at h
    exact absurd h (by simp)
  · exact strchr_none_of_not_mem s rest c hc

/-- C9: for every line `s` (a C string, stored with its terminator), the quote
validation made before parsing, `contains_quotes(s) < 0` or
`contains_valid_quotes(s) < 0`, rejects `s` if and only if `s` contains both a
single and a double quote character, or the total number of quote characters
in `s` is odd. -/
theorem quote_validation_rejects_iff (s rest : List Int) (h0 : (0 : Int) ∉ s) :
    (contains_quotes (s ++ 0 :: rest) < 0 ∨ contains_valid_quotes (s ++ 0 :: rest) < 0) ↔
      ((39 ∈ s ∧ 34 ∈ s) ∨ (s.count 39 + s.count 34) % 2 = 1) := by
  have hs := strchr_eq_none_iff s rest 39 h0 (by decide)
  have hd := strchr_eq_none_iff s rest 34 h0 (by decide)
  have cs := quote_count_from_first s rest 39 h0 (by decide)
  have cd := quote_count_from_first s rest 34 h0 (by decide)
  unfold contains_quotes contains_valid_quotes
  simp only
  by_cases h1 : (39 : Int) ∈ s <;> by_cases h2 : (34 : Int) ∈ s
  · have e1 : strchr (s ++ 0 :: rest) 39 ≠ none := fun h => (hs.1 h) h1
    have e2 : strchr (s ++ 0 :: rest) 34 ≠ none := fun h => (hd.1 h) h2
    simp [e1, e2, h1, h2]
  · have e1 : strchr (s ++ 0 :: rest) 39 ≠ none := fun h => (hs.1 h) h1
    have e2 : strchr (s ++ 0 :: rest) 34 = none := hd.2 h2
    simp only [e1, e2, ne_eq, not_true_eq_false, and_false, if_false, not_false_eq_true,
      false_and, h1, h2, List.count_eq_zero_of_not_mem h2, Nat.add_zero, false_or]
    rw [cs]
    split_ifs with h3 <;> omega
  · have e1 : strchr (s ++ 0 :: rest) 39 = none := hs.2 h1
    have e2 : strchr (s ++ 0 :: rest) 34 ≠ none := fun h => (hd.1 h) h2
    simp only [e1, e2, ne_eq, not_true_eq_false, false_and, if_false, not_false_eq_true,
      and_false, if_true, h1, h2, List.count_eq_zero_of_not_mem h1, Nat.zero_add, false_or]
    rw [cd]
    split_ifs with h3 <;> omega
  · have e1 : strchr (s ++ 0 :: rest) 39 = none := hs.2 h1
    have e2 : strchr (s ++ 0 :: rest) 34 = none := hd.2 h2
    simp only [e1, e2, ne_eq, not_true_eq_false, false_and, if_false, and_self, if_true, h1, h2,
      List.count_eq_zero_of_not_mem h1, List.count_eq_zero_of_not_mem h2, false_or]
    simp [quote_count_loop]

/-- An instance of the theorem on C9: the line `e'a''`. -/
theorem quote_validation_rejects_iff_witness :
    (contains_quotes ([101, 39, 97, 39, 39] ++ 0 :: []) < 0 ∨
      contains_valid_quotes ([101, 39, 97, 39, 39] ++ 0 :: []) < 0) ↔
      (((39 : Int) ∈ [101, 39, 97, 39, 39] ∧ (34 : Int) ∈ [101, 39, 97, 39, 39]) ∨
        (([101, 39, 97, 39, 39] : List Int).count 39 +
          ([101, 39, 97, 39, 39] : List Int).count 34) % 2 = 1) :=
  quote_validation_rejects_iff [101, 39, 97, 39, 39] [] (by decide)

/-! ## Theorems: the quote-aware search `strchr2` -/

theorem strlen_append_nul (s rest : List Int) (h0 : (0 : Int) ∉ s) :
    strlen (s ++ 0 :: rest) = s.length := by
  induction s with
  | nil => simp [strlen]
  | cons x s ih =>
    simp only [List.mem_cons, not_or] at h0
    rw [List.cons_append]
    simp only [strlen]
    rw [if_neg (Ne.symm h0.1), ih h0.2]
    simp

theorem cstr_append_nul (s rest : List Int) (h0 : (0 : Int) ∉ s) :
    cstr (s ++ 0 :: rest) = s := by
  induction s with
  | nil => simp [cstr]
  | cons x s ih =>
    simp only [List.mem_cons, not_or] at h0
    rw [List.cons_append]
    simp only [cstr]
    rw [if_neg (Ne.symm h0.1), ih h0.2]

theorem get_quote_cons (c : Int) (s : List Int) (len : Nat) :
    get_quote (c :: s) (len + 1) =
      if c = 39 then 39 else if c = 34 then 34 else get_quote s len := rfl

theorem get_quote_none (s r : List Int) (h1 : (39 : Int) ∉ s) (h2 : (34 : Int) ∉ s) :
    get_quote (s ++ r) s.length = 0 := by
  induction s with
  | nil => simp [get_quote]
  | cons x s ih =>
    simp only [List.mem_cons, not_or] at h1 h2
    rw [List.cons_append, List.length_cons, get_quote_cons, if_neg (Ne.symm h1.1),
      if_neg (Ne.symm h2.1), ih h1.2 h2.2]

theorem get_quote_single (s r : List Int) (h1 : (39 : Int) ∈ s) (h2 : (34 : Int) ∉ s) :
    get_quote (s ++ r) s.length = 39 := by
  induction s with
  | nil => simp at h1
  | cons x s ih =>
    simp only [List.mem_cons, not_or] at h2
    rw [List.cons_append, List.length_cons, get_quote_cons]
    by_cases hx : x = 39
    · rw [if_pos hx]
    · rw [if_neg hx, if_neg (Ne.symm h2.1)]
      rcases List.mem_cons.1 h1 with h | h
      · exact absurd h.symm hx
      · exact ih h h2.2

theorem get_quote_double (s r : List Int) (h1 : (39 : Int) ∉ s) (h2 : (34 : Int) ∈ s) :
    get_quote (s ++ r) s.length = 34 := by
  induction s with
  | nil => simp at h2
  | cons x s ih =>
    simp only [List.mem_cons, not_or] at h1
    rw [List.cons_append, List.length_cons, get_quote_cons, if_neg (Ne.symm h1.1)]
    by_cases hx : x = 34
    · rw [if_pos hx]
    · rw [if_neg hx]
      rcases List.mem_cons.1 h2 with h | h
      · exact absurd h.symm hx
      · exact ih h1.2 h

/-- With one quote style `q` in `s`, counting quote characters is counting `q`. -/
theorem countP_is_quote_eq (s : List Int) (q q' : Int) (hq : (q = 39 ∧ q' = 34) ∨ (q = 34 ∧ q' = 39))
    (h : q' ∉ s) : s.countP is_quote = s.count q := by
  induction s with
  | nil => rfl
  | cons x s ih =>
    simp only [List.mem_cons, not_or] at h
    rw [List.countP_cons, List.count_cons, ih h.2]
    congr 1
    have hx : x ≠ q' := fun e => h.1 e.symm
    rcases hq with ⟨a, b⟩ | ⟨a, b⟩ <;> subst a <;> subst b <;> simp [is_quote, hx]

theorem strchr2_loop_cons (quote c x : Int) (s : List Int) (inside_quote : Bool) :
    strchr2_loop quote c (x :: s) inside_quote =
      if x = 0 then none
      else if x = quote then (strchr2_loop quote c s (!inside_quote)).map (· + 1)
      else if inside_quote = false ∧ x = c then some 0
      else (strchr2_loop quote c s inside_quote).map (· + 1) := rfl

theorem strchr2_loop_finds (q c : Int) (rest : List Int) (hcq : c ≠ q) :
    ∀ (t : List Int) (inside : Bool) (i : Nat), (0 : Int) ∉ t → t[i]? = some c →
      ((t.take i).count q + inside.toNat) % 2 = 0 →
      ∃ k, k ≤ i ∧ strchr2_loop q c (t ++ 0 :: rest) inside = some k ∧ t[k]? = some c ∧
        ((t.take k).count q + inside.toNat) % 2 = 0 := by
  intro t
  induction t with
  | nil => intro inside i _ hi; simp at hi
  | cons x t ih =>
    intro inside i h0 hi hpar
    simp only [List.mem_cons, not_or] at h0
    rw [List.cons_append, strchr2_loop_cons, if_neg (Ne.symm h0.1)]
    by_cases hxq : x = q
    · rw [if_pos hxq]
      cases i with
      | zero =>
        simp only [List.getElem?_cons_zero, Option.some.injEq] at hi
        exact absurd (hi.symm.trans hxq) hcq
      | succ i =>
        simp only [List.getElem?_cons_succ] at hi
        simp only [List.take_succ_cons, hxq, List.count_cons_self] at hpar
        have hpar' : ((t.take i).count q + (!inside).toNat) % 2 = 0 := by
          cases inside <;> simp only [Bool.not_false, Bool.not_true, Bool.toNat_true,
            Bool.toNat_false] at hpar ⊢ <;> omega
        obtain ⟨k, hk1, hk2, hk3, hk4⟩ := ih (!inside) i h0.2 hi hpar'
        refine ⟨k + 1, by omega, by rw [hk2]; rfl, by simpa using hk3, ?_⟩
        simp only [List.take_succ_cons, hxq, List.count_cons_self]
        cases inside <;> simp only [Bool.not_false, Bool.not_true, Bool.toNat_true,
            Bool.toNat_false] at hk4 ⊢ <;> omega
    · rw [if_neg hxq]
      by_cases hhit : inside = false ∧ x = c
      · rw [if_pos hhit]
        refine ⟨0, by omega, rfl, by simp [hhit.2], by simp [hhit.1]⟩
      · rw [if_neg hhit]
        cases i with
        | zero =>
          simp only [List.getElem?_cons_zero, Option.some.injEq] at hi
          simp only [List.take_zero, List.count_nil, Nat.zero_add] at hpar
          have : inside = false := by cases inside <;> simp_all
          exact absurd ⟨this, hi⟩ hhit
        | succ i =>
          simp only [List.getElem?_cons_succ] at hi
          have hcnt : ∀ n, ((x :: t).take (n + 1)).count q = (t.take n).count q := by
            intro n
            rw [List.take_succ_cons, List.count_cons_of_ne (Ne.symm hxq)]
          rw [hcnt] at hpar
          obtain ⟨k, hk1, hk2, hk3, hk4⟩ := ih inside i h0.2 hi hpar
          exact ⟨k + 1, by omega, by rw [hk2]; rfl, by simpa using hk3, by rw [hcnt]; exact hk4⟩

/-- With one quote style in `s`, `strchr2` finds an occurrence of `c` outside
quotes whenever there is one, and the one it finds is not after it. -/
theorem strchr2_finds (s rest : List Int) (c : Int) (i : Nat) (h0 : (0 : Int) ∉ s)
    (hstyle : ¬ ((39 : Int) ∈ s ∧ (34 : Int) ∈ s)) (hc : c ≠ 39 ∧ c ≠ 34)
    (hi : unquoted_at s i c) :
    ∃ k, k ≤ i ∧ strchr2 (s ++ 0 :: rest) c = some k ∧ unquoted_at s k c := by
  unfold strchr2
  rw [strlen_append_nul s rest h0]
  simp only
  by_cases h1 : (39 : Int) ∈ s
  · have h2 : (34 : Int) ∉ s := fun h => hstyle ⟨h1, h⟩
    rw [get_quote_single s _ h1 h2, if_neg (by decide)]
    have hcnt : ∀ l : List Int, (34 : Int) ∉ l → l.countP is_quote = l.count 39 := fun l hl =>
      countP_is_quote_eq l 39 34 (Or.inl ⟨rfl, rfl⟩) hl
    have h2t : ∀ n, (34 : Int) ∉ s.take n := fun n h => h2 (List.mem_of_mem_take h)
    obtain ⟨k, hk1, hk2, hk3, hk4⟩ := strchr2_loop_finds 39 c rest hc.1 s false i h0 hi.1
      (by rw [← hcnt _ (h2t i)]; simpa using hi.2)
    exact ⟨k, hk1, hk2, hk3, by rw [hcnt _ (h2t k)]; simpa using hk4⟩
  · by_cases h2 : (34 : Int) ∈ s
    · rw [get_quote_double s _ h1 h2, if_neg (by decide)]
      have hcnt : ∀ l : List Int, (39 : Int) ∉ l → l.countP is_quote = l.count 34 := fun l hl =>
        countP_is_quote_eq l 34 39 (Or.inr ⟨rfl, rfl⟩) hl
      have h1t : ∀ n, (39 : Int) ∉ s.take n := fun n h => h1 (List.mem_of_mem_take h)
      obtain ⟨k, hk1, hk2, hk3, hk4⟩ := strchr2_loop_finds 34 c rest hc.2 s false i h0 hi.1
        (by rw [← hcnt _ (h1t i)]; simpa using hi.2)
      exact ⟨k, hk1, hk2, hk3, by rw [hcnt _ (h1t k)]; simpa using hk4⟩
    · rw [get_quote_none s _ h1 h2, if_pos rfl]
      have hmem : c ∈ s := List.getElem?_mem hi.1
      obtain ⟨a, b, e1, e2, e3⟩ := strchr_split s rest c h0 hmem
      have hnq : ∀ l : List Int, (39 : Int) ∉ l → (34 : Int) ∉ l → l.countP is_quote = 0 := by
        intro l l1 l2
        rw [List.countP_eq_zero]
        intro x hx
        have : x ≠ 39 := fun e => l1 (e ▸ hx)
        have : x ≠ 34 := fun e => l2 (e ▸ hx)
        simp [is_quote, *]
      refine ⟨a.length, ?_, e3, ?_, ?_⟩
      · by_contra hlt
        have hlt : i < a.length := by omega
        have : s[i]? = a[i]? := by rw [e1, List.getElem?_append_left hlt]
        have hi1 := hi.1
        rw [this] at hi1
        exact e2 (List.getElem?_mem hi1)
      · exact getElem?_of_drop_eq_cons (r := b) (by rw [e1]; simp)
      · rw [hnq _ (fun h => h1 (List.mem_of_mem_take h)) (fun h => h2 (List.mem_of_mem_take h))]

/-! ## Theorems: `split_redir` rejects a second operator -/

theorem strchr2_second (s rest : List Int) (c : Int) (k j : Nat) (h0 : (0 : Int) ∉ s)
    (hstyle : ¬ ((39 : Int) ∈ s ∧ (34 : Int) ∈ s)) (hc : c ≠ 39 ∧ c ≠ 34)
    (hk : unquoted_at s k c) (hkj : k < j) (hj : unquoted_at s j c) :
    (strchr2 ((s ++ 0 :: rest).drop (k + 1)) c).isSome = true := by
  have hjlt : j < s.length := by
    rcases Nat.lt_or_ge j s.length with h | h
    · exact h
    · have := hj.1; rw [List.getElem?_eq_none h] at this; simp at this
  have hdrop : (s ++ 0 :: rest).drop (k + 1) = s.drop (k + 1) ++ 0 :: rest := by
    rw [List.drop_append_of_le_length (by omega)]
  have hsplit : s.take j = s.take (k + 1) ++ (s.drop (k + 1)).take (j - (k + 1)) := by
    have h1 : j = (k + 1) + (j - (k + 1)) := by omega
    conv_lhs => rw [h1, List.take_add]
  have hk1 : (s.take (k + 1)).countP is_quote = (s.take k).countP is_quote := by
    have hklt : k < s.length := by omega
    rw [List.take_succ, List.countP_append, hk.1]
    simp only [Option.toList_some, List.countP_cons, List.countP_nil]
    have : is_quote c = false := by simp [is_quote, hc.1, hc.2]
    simp [this]
  have hu : unquoted_at (s.drop (k + 1)) (j - (k + 1)) c := by
    constructor
    · rw [List.getElem?_drop]
      have : k + 1 + (j - (k + 1)) = j := by omega
      rw [this]; exact hj.1
    · have h2 := hj.2
      rw [hsplit, List.countP_append, hk1] at h2
      have h3 := hk.2
      omega
  obtain ⟨m, _, hm, _⟩ := strchr2_finds (s.drop (k + 1)) rest c _
    (fun h => h0 (List.mem_of_mem_drop h))
    (fun h => hstyle ⟨List.mem_of_mem_drop h.1, List.mem_of_mem_drop h.2⟩) hc hu
  rw [hdrop, hm]
  rfl

/-- C10: for every clause `s` with one quote style that holds redirection
operators at two positions outside quotes (a `>` and a `|`, or the same
operator twice), `split_redir` returns -1 and leaves the clause buffer and the
destination buffer unchanged. The clause is the C string at `src` in the
buffer `b`; that its quotes are balanced is not needed. -/
theorem split_redir_rejects_two_operators (b : List Int) (src : Nat) (dest_redir : List Int)
    (s rest : List Int) (i j : Nat) (o1 o2 : Int)
    (hb : b.drop src = s ++ 0 :: rest) (h0 : (0 : Int) ∉ s)
    (hstyle : ¬ ((39 : Int) ∈ s ∧ (34 : Int) ∈ s))
    (hij : i < j) (ho1 : o1 = 62 ∨ o1 = 124) (ho2 : o2 = 62 ∨ o2 = 124)
    (hi : unquoted_at s i o1) (hj : unquoted_at s j o2) :
    split_redir b src dest_redir = some (-1, b, dest_redir) := by
  have hd : ∀ k, b.drop (src + k + 1) = (s ++ 0 :: rest).drop (k + 1) := by
    intro k
    rw [← hb, List.drop_drop, Nat.add_assoc]
  have c62 : (62 : Int) ≠ 39 ∧ (62 : Int) ≠ 34 := by decide
  have c124 : (124 : Int) ≠ 39 ∧ (124 : Int) ≠ 34 := by decide
  have same : ∀ c : Int, (c = 62 ∨ c = 124) → unquoted_at s i c → unquoted_at s j c →
      split_redir b src dest_redir = some (-1, b, dest_redir) := by
    intro c hc ui uj
    have hcq : c ≠ 39 ∧ c ≠ 34 := by rcases hc with h | h <;> rw [h] <;> decide
    obtain ⟨k, hk1, hk2, hk3⟩ := strchr2_finds s rest c i h0 hstyle hcq ui
    have hsec := strchr2_second s rest c k j h0 hstyle hcq hk3 (by omega) uj
    unfold split_redir
    simp only [hb, hd]
    by_cases hboth : strchr2 (s ++ 0 :: rest) 62 ≠ none ∧ strchr2 (s ++ 0 :: rest) 124 ≠ none
    · rw [if_pos hboth]
    · rw [if_neg hboth]
      have hcond : ((strchr2 (s ++ 0 :: rest) 62).any fun f =>
            (strchr2 ((s ++ 0 :: rest).drop (f + 1)) 62).isSome) = true ∨
          ((strchr2 (s ++ 0 :: rest) 124).any fun p =>
            (strchr2 ((s ++ 0 :: rest).drop (p + 1)) 124).isSome) = true := by
        rcases hc with h | h
        · left; rw [h] at hk2 hsec; rw [hk2]; simpa using hsec
        · right; rw [h] at hk2 hsec; rw [hk2]; simpa using hsec
      rw [if_pos hcond]
  have mixed : ∀ a c : Nat, unquoted_at s a 62 → unquoted_at s c 124 →
      split_redir b src dest_redir = some (-1, b, dest_redir) := by
    intro a c ua uc
    obtain ⟨k, _, hk2, _⟩ := strchr2_finds s rest 62 a h0 hstyle c62 ua
    obtain ⟨m, _, hm2, _⟩ := strchr2_finds s rest 124 c h0 hstyle c124 uc
    unfold split_redir
    simp only [hb]
    rw [if_pos (by rw [hk2, hm2]; simp)]
  rcases ho1 with h1 | h1 <;> rcases ho2 with h2 | h2 <;> subst h1 <;> subst h2
  · exact same 62 (Or.inl rfl) hi hj
  · exact mixed i j hi hj
  · exact mixed j i hj hi
  · exact same 124 (Or.inr rfl) hi hj

/-- An instance of the theorem on C10: the clause `a|b|c`. -/
theorem split_redir_rejects_two_operators_witness :
    split_redir [97, 124, 98, 124, 99, 0, 0] 0 [0, 0, 0] =
      some (-1, [97, 124, 98, 124, 99, 0, 0], [0, 0, 0]) :=
  split_redir_rejects_two_operators [97, 124, 98, 124, 99, 0, 0] 0 [0, 0, 0]
    [97, 124, 98, 124, 99] [0] 1 3 124 124 rfl (by decide) (by decide) (by decide)
    (Or.inr rfl) (Or.inr rfl) ⟨by decide, by decide⟩ ⟨by decide, by decide⟩

/-! ## Theorems: buffers and the libc tokenizer -/

theorem peek_append_right (a r : List Int) (x : Int) : peek (a ++ x :: r) a.length = x := by
  induction a with
  | nil => rfl
  | cons z a ih => simpa [peek] using ih

theorem set_append_right (a r : List Int) (x y : Int) :
    (a ++ x :: r).set a.length y = a ++ y :: r := by
  induction a with
  | nil => rfl
  | cons z a ih => simp [ih]

theorem strspn_cons (c : Int) (s accept : List Int) :
    strspn (c :: s) accept = if c ≠ 0 ∧ c ∈ accept then strspn s accept + 1 else 0 := rfl

theorem strcspn_cons (c : Int) (s reject : List Int) :
    strcspn (c :: s) reject = if c ≠ 0 ∧ c ∉ reject then strcspn s reject + 1 else 0 := rfl

theorem strspn_append (a r accept : List Int) (h : ∀ c ∈ a, c ≠ 0 ∧ c ∈ accept) :
    strspn (a ++ r) accept = a.length + strspn r accept := by
  induction a with
  | nil => simp
  | cons x a ih =>
    rw [List.cons_append, strspn_cons, if_pos (h x (by simp)),
      ih (fun c hc => h c (by simp [hc]))]
    simp only [List.length_cons]
    omega

theorem strcspn_append (a r reject : List Int) (h : ∀ c ∈ a, c ≠ 0 ∧ c ∉ reject) :
    strcspn (a ++ r) reject = a.length + strcspn r reject := by
  induction a with
  | nil => simp
  | cons x a ih =>
    rw [List.cons_append, strcspn_cons, if_pos (h x (by simp)),
      ih (fun c hc => h c (by simp [hc]))]
    simp only [List.length_cons]
    omega

theorem strspn_stop (x : Int) (r accept : List Int) (h : x = 0 ∨ x ∉ accept) :
    strspn (x :: r) accept = 0 := by
  rw [strspn_cons, if_neg]
  rintro ⟨h1, h2⟩
  rcases h with h | h
  · exact h1 h
  · exact h h2

theorem strcspn_stop (x : Int) (r reject : List Int) (h : x = 0 ∨ x ∈ reject) :
    strcspn (x :: r) reject = 0 := by
  rw [strcspn_cons, if_neg]
  rintro ⟨h1, h2⟩
  rcases h with h | h
  · exact h1 h
  · exact h2 h

theorem memset_append (a m r : List Int) (v : Int) :
    memset (a ++ m ++ r) a.length v m.length = a ++ List.replicate m.length v ++ r := by
  induction m generalizing a with
  | nil => simp [memset]
  | cons x m ih =>
    simp only [List.length_cons, memset]
    have h1 : (a ++ x :: m ++ r).set a.length v = (a ++ [v]) ++ m ++ r := by
      have := set_append_right a (m ++ r) x v
      simp [this]
    have h2 : a.length + 1 = (a ++ [v]).length := by simp
    rw [h1, h2, ih (a ++ [v])]
    simp [List.replicate_succ]

theorem strchr_first (a r : List Int) (c : Int) (h0 : (0 : Int) ∉ a) (hc : c ∉ a) :
    strchr (a ++ c :: r) c = some a.length := by
  induction a with
  | nil => simp [strchr]
  | cons x a ih =>
    simp only [List.mem_cons, not_or] at h0 hc
    rw [List.cons_append, strchr_cons, if_neg (Ne.symm hc.1), if_neg (Ne.symm h0.1),
      ih h0.2 hc.2]
    simp

theorem strchr2_no_quote (s rest : List Int) (c : Int) (h0 : (0 : Int) ∉ s)
    (h1 : (39 : Int) ∉ s) (h2 : (34 : Int) ∉ s) :
    strchr2 (s ++ 0 :: rest) c = strchr (s ++ 0 :: rest) c := by
  unfold strchr2
  rw [strlen_append_nul s rest h0]
  simp only
  rw [get_quote_none s _ h1 h2, if_pos rfl]

theorem get_quote_zero_of_no_quote (s r : List Int) (n : Nat) (hn : n ≤ s.length)
    (h1 : (39 : Int) ∉ s) (h2 : (34 : Int) ∉ s) : get_quote (s ++ r) n = 0 := by
  have h := get_quote_none (s.take n) (s.drop n ++ r)
    (fun h => h1 (List.mem_of_mem_take h)) (fun h => h2 (List.mem_of_mem_take h))
  rw [← List.append_assoc, List.take_append_drop, List.length_take, Nat.min_eq_left hn] at h
  exact h

theorem replace_within_quotes_no_quote (s r d : List Int) (n : Nat) (hn : n ≤ s.length)
    (h1 : (39 : Int) ∉ s) (h2 : (34 : Int) ∉ s) :
    replace_within_quotes (s ++ r) d n = s ++ r := by
  unfold replace_within_quotes
  simp only
  rw [get_quote_zero_of_no_quote s r n hn h1 h2, if_pos rfl]

theorem restore_within_quotes_no_quote (s r : List Int) (n : Nat) (hn : n ≤ s.length)
    (h1 : (39 : Int) ∉ s) (h2 : (34 : Int) ∉ s) :
    restore_within_quotes (s ++ r) n = s ++ r := by
  unfold restore_within_quotes
  simp only
  rw [get_quote_zero_of_no_quote s r n hn h1 h2, if_pos rfl]

/-! ## Theorems: `append_cmd` on one token -/

theorem peek_last (v r : List Int) (hv : v ≠ []) :
    peek (v ++ r) (v.length - 1) = v.getLast hv := by
  obtain ⟨w, l, rfl⟩ : ∃ w l, v = w ++ [l] := ⟨v.dropLast, v.getLast hv,
    (List.dropLast_append_getLast hv).symm⟩
  have h := peek_append_right w r l
  simp only [List.length_append, List.length_singleton, Nat.add_sub_cancel,
    List.append_assoc, List.singleton_append, List.getLast_append_singleton] at h ⊢
  exact h

theorem peek_head (v r : List Int) (hv : v ≠ []) : peek (v ++ r) 0 = peek v 0 := by
  cases v with
  | nil => exact absurd rfl hv
  | cons x v => rfl

theorem memcpy_at (out tail bytes : List Int) (h : bytes.length ≤ tail.length) :
    memcpy (out ++ tail) out.length bytes = some (out ++ bytes ++ tail.drop bytes.length) := by
  unfold memcpy
  rw [if_pos (by simp; omega)]
  simp [List.take_append, List.drop_append]

/-- Effect of `append_cmd` on a token that does not start with a quote:
`v` is the token, `nl` an optional trailing newline. -/
theorem append_cmd_plain (out tail v nl r : List Int) (hv : v ≠ [])
    (h0 : ∀ x ∈ v, x ≠ 0 ∧ x ≠ 10) (hq : peek v 0 ≠ 39 ∧ peek v 0 ≠ 34)
    (hnl : nl = [] ∨ nl = [10]) (hfit : v.length + 1 ≤ tail.length) :
    append_cmd (out ++ tail) (v ++ nl ++ 0 :: r) out.length =
      some (out ++ (v ++ [0]) ++ tail.drop (v.length + 1), out.length + (v.length + 1)) := by
  have hv0 : (0 : Int) ∉ v := fun h => (h0 0 h).1 rfl
  have hlast : v.getLast hv ≠ 10 := (h0 _ (List.getLast_mem hv)).2
  have hlen : 0 < v.length := List.length_pos.2 hv
  have hnlit : ∀ w : List Int, is_str_lit (v ++ w) = false := by
    intro w
    unfold is_str_lit
    rw [peek_head v w hv]
    simp [hq.1, hq.2]
  have hcopy : memcpy (out ++ tail) out.length (v ++ [0]) =
      some (out ++ (v ++ [0]) ++ tail.drop (v.length + 1)) := by
    have := memcpy_at out tail (v ++ [0]) (by simpa using hfit)
    simpa using this
  rcases hnl with rfl | rfl
  · have hs : strlen (v ++ [] ++ 0 :: r) = v.length := by
      simp [strlen_append_nul v r hv0]
    have hc : cstr (v ++ [] ++ 0 :: r) = v := by
      simp [cstr_append_nul v r hv0]
    have hl : is_last_arg (v ++ [] ++ 0 :: r) = some false := by
      unfold is_last_arg
      rw [hs, if_neg (by omega)]
      have := peek_last v (0 :: r) hv
      simp only [List.append_nil] at this ⊢
      rw [this]
      simp [hlast]
    unfold append_cmd
    rw [hl]
    simp only
    have hlit := hnlit (0 :: r)
    simp only [List.append_nil] at hlit hs hc ⊢
    rw [hlit]
    simp only [Bool.false_eq_true, if_false]
    rw [hc, hs, hcopy]
    rfl
  · have hv1 : (0 : Int) ∉ v ++ [10] := by
      simp only [List.mem_append, List.mem_singleton, not_or]
      exact ⟨hv0, by decide⟩
    have hs : strlen (v ++ [10] ++ 0 :: r) = v.length + 1 := by
      simpa using strlen_append_nul (v ++ [10]) r hv1
    have hc : cstr (v ++ [10] ++ 0 :: r) = v ++ [10] := cstr_append_nul (v ++ [10]) r hv1
    have hl : is_last_arg (v ++ [10] ++ 0 :: r) = some true := by
      unfold is_last_arg
      rw [hs, if_neg (by omega)]
      have := peek_append_right v (0 :: r) 10
      simp only [List.append_assoc, List.singleton_append, Nat.add_sub_cancel]
      rw [this]
      simp
    have hs2 : strlen (v ++ [10] ++ [0]) = v.length + 1 := by
      simpa using strlen_append_nul (v ++ [10]) [] hv1
    have hl2 : is_last_arg (v ++ [10] ++ [0]) = some true := by
      unfold is_last_arg
      rw [hs2, if_neg (by omega)]
      have := peek_append_right v [0] 10
      simp only [List.append_assoc, List.singleton_append, Nat.add_sub_cancel]
      rw [this]
      simp
    have hrm : rm_newline (v ++ [10] ++ [0]) = some (v ++ 0 :: [0]) := by
      unfold rm_newline
      rw [hl2]
      simp only [hs2]
      have e1 : (v ++ [10] ++ [0]).set (v.length + 1) 0 = v ++ [10] ++ [0] := by
        simp
      rw [e1, hs2]
      have e2 : (v ++ [10] ++ [0]).set (v.length + 1 - 1) 0 = v ++ 0 :: [0] := by
        simp
      rw [e2]
    have hs3 : strlen (v ++ 0 :: [0]) = v.length := strlen_append_nul v [0] hv0
    have hc3 : cstr (v ++ 0 :: [0]) = v := cstr_append_nul v [0] hv0
    unfold append_cmd
    rw [hl]
    simp only
    rw [hc, hrm]
    simp only
    rw [hnlit (0 :: [0])]
    simp only [Bool.false_eq_true, if_false]
    rw [hc3, hs3, hcopy]
    rfl

/-! ## Theorems: `split_redir` on a clause with one operator -/

/-- C2: for every clause `c op t`, optionally followed by a newline `nl`, where
`op` is `>` or `|`, `c` is non-empty, `c` and `t` contain no quote character,
no `>` and no `|` (and, being text of one line, `t` holds no newline), and `t`
contains a character that is not white space, `split_redir` returns `op`,
leaves `src` holding exactly `c` (the operator and what follows it are set to
NUL), and fills `dest_redir` with `t` without the trailing newline. -/
theorem split_redir_splits (c t nl rest dest : List Int) (op : Int)
    (hop : op = 62 ∨ op = 124) (hc : c ≠ [])
    (hcc : ∀ x ∈ c, x ≠ 0 ∧ x ≠ 39 ∧ x ≠ 34 ∧ x ≠ 62 ∧ x ≠ 124)
    (htc : ∀ x ∈ t, x ≠ 0 ∧ x ≠ 39 ∧ x ≠ 34 ∧ x ≠ 62 ∧ x ≠ 124 ∧ x ≠ 10)
    (hns : ∃ x ∈ t, x ≠ 32 ∧ x ≠ 9) (hnl : nl = [] ∨ nl = [10])
    (hdest : t.length + 2 ≤ dest.length) :
    split_redir (c ++ op :: (t ++ nl) ++ 0 :: rest) 0 dest =
        some (op, c ++ 0 :: List.replicate (t.length + nl.length) 0 ++ 0 :: rest,
          t ++ 0 :: 0 :: dest.drop (t.length + 2)) ∧
      cstr (c ++ 0 :: List.replicate (t.length + nl.length) 0 ++ 0 :: rest) = c ∧
      cstr (t ++ 0 :: 0 :: dest.drop (t.length + 2)) = t := by
  have hc0 : (0 : Int) ∉ c := fun h => (hcc 0 h).1 rfl
  have ht0 : (0 : Int) ∉ t := fun h => (htc 0 h).1 rfl
  refine ⟨?_, by simpa using cstr_append_nul c _ hc0, cstr_append_nul t _ ht0⟩
  obtain ⟨tx, htx, htx1, htx2⟩ := hns
  have htne : t ≠ [] := List.ne_nil_of_mem htx
  -- the text after the operator, with the optional newline
  have hu : ∀ x ∈ t ++ nl, x ≠ 0 ∧ x ≠ 39 ∧ x ≠ 34 ∧ x ≠ 62 ∧ x ≠ 124 := by
    intro x hx
    rcases List.mem_append.1 hx with h | h
    · obtain ⟨a1, a2, a3, a4, a5, _⟩ := htc x h
      exact ⟨a1, a2, a3, a4, a5⟩
    · rcases hnl with rfl | rfl
      · simp at h
      · simp only [List.mem_singleton] at h
        subst h
        decide
  generalize hudef : t ++ nl = u at hu
  have hune : u ≠ [] := by rw [← hudef]; simp [htne]
  have hopn : op ≠ 0 ∧ op ≠ 39 ∧ op ≠ 34 := by rcases hop with h | h <;> subst h <;> decide
  have hopc : op ∉ c := by
    intro h
    rcases hop with h1 | h1 <;> subst h1
    · exact (hcc _ h).2.2.2.1 rfl
    · exact (hcc _ h).2.2.2.2 rfl
  have hopu : op ∉ u := by
    intro h
    rcases hop with h1 | h1 <;> subst h1
    · exact (hu _ h).2.2.2.1 rfl
    · exact (hu _ h).2.2.2.2 rfl
  have hu0 : (0 : Int) ∉ u := fun h => (hu 0 h).1 rfl
  -- the whole clause
  have hs0 : (0 : Int) ∉ c ++ op :: u := by
    simp only [List.mem_append, List.mem_cons, not_or]
    exact ⟨hc0, Ne.symm hopn.1, hu0⟩
  have hs39 : (39 : Int) ∉ c ++ op :: u := by
    simp only [List.mem_append, List.mem_cons, not_or]
    exact ⟨fun h => (hcc _ h).2.1 rfl, Ne.symm hopn.2.1, fun h => (hu _ h).2.1 rfl⟩
  have hs34 : (34 : Int) ∉ c ++ op :: u := by
    simp only [List.mem_append, List.mem_cons, not_or]
    exact ⟨fun h => (hcc _ h).2.2.1 rfl, Ne.symm hopn.2.2, fun h => (hu _ h).2.2.1 rfl⟩
  have hr39 : (39 : Int) ∉ c ++ 0 :: u := by
    simp only [List.mem_append, List.mem_cons, not_or]
    exact ⟨fun h => (hcc _ h).2.1 rfl, by decide, fun h => (hu _ h).2.1 rfl⟩
  have hr34 : (34 : Int) ∉ c ++ 0 :: u := by
    simp only [List.mem_append, List.mem_cons, not_or]
    exact ⟨fun h => (hcc _ h).2.2.1 rfl, by decide, fun h => (hu _ h).2.2.1 rfl⟩
  have hlen : strlen (c ++ op :: u ++ 0 :: rest) = (c ++ op :: u).length :=
    strlen_append_nul _ rest hs0
  -- the searches for the operators
  have hfind : ∀ o : Int, strchr2 (c ++ op :: u ++ 0 :: rest) o =
      strchr (c ++ op :: u ++ 0 :: rest) o :=
    fun o => strchr2_no_quote _ rest o hs0 hs39 hs34
  have hfirst : strchr (c ++ op :: u ++ 0 :: rest) op = some c.length := by
    have := strchr_first c (u ++ 0 :: rest) op hc0 hopc
    simpa using this
  have hother : ∀ o : Int, o ≠ 0 → o ≠ op → o ∉ c → o ∉ u →
      strchr (c ++ op :: u ++ 0 :: rest) o = none := by
    intro o h1 h2 h3 h4
    apply strchr_none_of_not_mem _ rest o h1
    simp only [List.mem_append, List.mem_cons, not_or]
    exact ⟨h3, h2, h4⟩
  have hafter : (c ++ op :: u ++ 0 :: rest).drop (0 + c.length + 1) = u ++ 0 :: rest := by
    have : c ++ op :: u ++ 0 :: rest = (c ++ [op]) ++ (u ++ 0 :: rest) := by simp
    rw [this, Nat.zero_add]
    have hl : c.length + 1 = (c ++ [op]).length := by simp
    rw [hl, List.drop_left]
  have hsecond : strchr2 (u ++ 0 :: rest) op = none := by
    rw [strchr2_no_quote u rest op hu0 (fun h => (hu _ h).2.1 rfl) (fun h => (hu _ h).2.2.1 rfl)]
    exact strchr_none_of_not_mem u rest op hopn.1 hopu
  -- first call of strtok2: the command
  obtain ⟨c1, cs, rfl⟩ : ∃ c1 cs, c = c1 :: cs := List.exists_cons_of_ne_nil hc
  have hc1 : c1 ≠ 0 ∧ c1 ≠ op :=
    ⟨(hcc c1 (by simp)).1, fun h => hopc (by rw [← h]; simp)⟩
  have htok1 : strtok (c1 :: cs ++ op :: u ++ 0 :: rest) (some 0) [op] 0 =
      (some 0, c1 :: cs ++ 0 :: u ++ 0 :: rest, (c1 :: cs).length + 1) := by
    unfold strtok
    have h1 : strspn (c1 :: cs ++ op :: u ++ 0 :: rest) [op] = 0 :=
      strspn_stop _ _ _ (Or.inr (by simp [hc1.2]))
    have h2 : strcspn (c1 :: cs ++ op :: u ++ 0 :: rest) [op] = (c1 :: cs).length := by
      have := strcspn_append (c1 :: cs) (op :: (u ++ 0 :: rest)) [op] (by
        intro x hx
        exact ⟨(hcc x hx).1, by
          simp only [List.mem_singleton]
          intro h; exact hopc (h ▸ hx)⟩)
      rw [strcspn_stop _ _ _ (Or.inr (by simp))] at this
      simpa using this
    simp only [Option.getD_some, List.drop_zero, h1, Nat.add_zero, h2, Nat.zero_add]
    have h3 : peek (c1 :: cs ++ op :: u ++ 0 :: rest) 0 = c1 := rfl
    have h4 : peek (c1 :: cs ++ op :: u ++ 0 :: rest) (c1 :: cs).length = op := by
      have := peek_append_right (c1 :: cs) (u ++ 0 :: rest) op
      simpa using this
    have h5 : (c1 :: cs ++ op :: u ++ 0 :: rest).set (c1 :: cs).length 0 =
        c1 :: cs ++ 0 :: u ++ 0 :: rest := by
      simp
    rw [h3, if_neg hc1.1, h4, if_neg hopn.1, h5]
  have hcall1 : strtok2 (c1 :: cs ++ op :: u ++ 0 :: rest) ⟨0, 0, 0⟩ (some 0) [op] =
      (some 0, c1 :: cs ++ 0 :: u ++ 0 :: rest,
        ⟨0, (c1 :: cs ++ op :: u).length, (c1 :: cs).length + 1⟩) := by
    unfold strtok2
    simp only [List.take_zero, List.drop_zero, List.nil_append]
    rw [hlen, replace_within_quotes_no_quote _ _ _ _ (le_refl _) hs39 hs34, htok1]
    simp only
    have := restore_within_quotes_no_quote (c1 :: cs ++ 0 :: u) (0 :: rest)
      (c1 :: cs ++ op :: u).length (by simp) hr39 hr34
    rw [this]
  -- second call of strtok2: the destination
  obtain ⟨u1, us, rfl⟩ : ∃ u1 us, u = u1 :: us := List.exists_cons_of_ne_nil hune
  have hu1 : u1 ≠ 0 ∧ u1 ≠ op :=
    ⟨(hu u1 (by simp)).1, fun h => hopu (by rw [← h]; simp)⟩
  have hdrop2 : (c1 :: cs ++ 0 :: (u1 :: us) ++ 0 :: rest).drop ((c1 :: cs).length + 1) =
      u1 :: us ++ 0 :: rest := by
    have : c1 :: cs ++ 0 :: (u1 :: us) ++ 0 :: rest =
        (c1 :: cs ++ [0]) ++ (u1 :: us ++ 0 :: rest) := by simp
    rw [this]
    have hl : (c1 :: cs).length + 1 = (c1 :: cs ++ [0]).length := by simp
    rw [hl, List.drop_left]
  have htok2 : strtok (c1 :: cs ++ 0 :: (u1 :: us) ++ 0 :: rest) none [op]
      ((c1 :: cs).length + 1) =
      (some ((c1 :: cs).length + 1), c1 :: cs ++ 0 :: (u1 :: us) ++ 0 :: rest,
        (c1 :: cs).length + 1 + (u1 :: us).length) := by
    unfold strtok
    simp only [Option.getD_none]
    rw [hdrop2]
    have h1 : strspn (u1 :: us ++ 0 :: rest) [op] = 0 :=
      strspn_stop _ _ _ (Or.inr (by simp [hu1.2]))
    rw [h1, Nat.add_zero, hdrop2]
    have h2 : strcspn (u1 :: us ++ 0 :: rest) [op] = (u1 :: us).length := by
      have := strcspn_append (u1 :: us) (0 :: rest) [op] (by
        intro x hx
        exact ⟨(hu x hx).1, by
          simp only [List.mem_singleton]
          intro h; exact hopu (h ▸ hx)⟩)
      rw [strcspn_stop _ _ _ (Or.inl rfl)] at this
      simpa using this
    rw [h2]
    have h3 : peek (c1 :: cs ++ 0 :: (u1 :: us) ++ 0 :: rest) ((c1 :: cs).length + 1) = u1 := by
      have := peek_append_right (c1 :: cs ++ [0]) (us ++ 0 :: rest) u1
      simpa using this
    have h4 : peek (c1 :: cs ++ 0 :: (u1 :: us) ++ 0 :: rest)
        ((c1 :: cs).length + 1 + (u1 :: us).length) = 0 := by
      have := peek_append_right (c1 :: cs ++ 0 :: (u1 :: us)) rest 0
      simp only [List.length_append, List.length_cons] at this ⊢
      have e : cs.length + 1 + 1 + (us.length + 1) = cs.length + 1 + (us.length + 1 + 1) := by
        omega
      rw [e]
      simpa using this
    rw [h3, if_neg hu1.1, h4, if_pos rfl]
  have hcall2 : strtok2 (c1 :: cs ++ 0 :: (u1 :: us) ++ 0 :: rest)
      ⟨0, (c1 :: cs ++ op :: (u1 :: us)).length, (c1 :: cs).length + 1⟩ none [op] =
      (some ((c1 :: cs).length + 1), c1 :: cs ++ 0 :: (u1 :: us) ++ 0 :: rest,
        ⟨0, (c1 :: cs ++ op :: (u1 :: us)).length,
          (c1 :: cs).length + 1 + (u1 :: us).length⟩) := by
    unfold strtok2
    simp only [List.take_zero, List.drop_zero, List.nil_append]
    have hrep := replace_within_quotes_no_quote (c1 :: cs ++ 0 :: (u1 :: us)) (0 :: rest) [op]
      (c1 :: cs ++ op :: (u1 :: us)).length (by simp) hr39 hr34
    have hres := restore_within_quotes_no_quote (c1 :: cs ++ 0 :: (u1 :: us)) (0 :: rest)
      (c1 :: cs ++ op :: (u1 :: us)).length (by simp) hr39 hr34
    rw [hrep, htok2]
    simp only
    rw [hres]
  -- the destination is not a lone white space character
  have hcstr2 : cstr (u1 :: us ++ 0 :: rest) = u1 :: us := cstr_append_nul _ rest hu0
  have hnotws : ¬ (u1 :: us = [32] ∨ u1 :: us = [9] ∨ u1 :: us = [10]) := by
    rw [← hudef]
    have hmem : tx ∈ t ++ nl := List.mem_append_left _ htx
    rintro (h | h | h) <;> rw [h] at hmem <;> simp only [List.mem_singleton] at hmem
    · exact htx1 hmem
    · exact htx2 hmem
    · exact (htc tx htx).2.2.2.2.2 hmem
  -- the copy into dest_redir
  have happ : append_cmd dest (u1 :: us ++ 0 :: rest) 0 =
      some (t ++ [0] ++ dest.drop (t.length + 1), t.length + 1) := by
    have := append_cmd_plain [] dest t nl rest htne
      (fun x hx => ⟨(htc x hx).1, (htc x hx).2.2.2.2.2⟩)
      (by
        cases t with
        | nil => exact absurd rfl htne
        | cons t1 ts =>
          exact ⟨(htc t1 (by simp)).2.1, (htc t1 (by simp)).2.2.1⟩)
      hnl (by omega)
    rw [hudef] at this
    simpa using this
  have hpoke : poke (t ++ [0] ++ dest.drop (t.length + 1)) (t.length + 1) 0 =
      some (t ++ 0 :: 0 :: dest.drop (t.length + 2)) := by
    unfold poke
    rw [if_pos (by simp; omega)]
    obtain ⟨y, ys, hy⟩ : ∃ y ys, dest.drop (t.length + 1) = y :: ys :=
      List.exists_cons_of_ne_nil (by
        intro h
        have := congrArg List.length h
        simp at this
        omega)
    have hys : dest.drop (t.length + 2) = ys := by
      have := congrArg (List.drop 1) hy
      simpa [List.drop_drop] using this
    rw [hy, hys]
    simp
  have hstrlen2 : strlen (u1 :: us ++ 0 :: rest) = (u1 :: us).length :=
    strlen_append_nul _ rest hu0
  have hcmdlen : strlen (c1 :: cs ++ 0 :: (u1 :: us) ++ 0 :: rest) = (c1 :: cs).length := by
    have := strlen_append_nul (c1 :: cs) ((u1 :: us) ++ 0 :: rest) hc0
    simpa using this
  have hmemset : memset (c1 :: cs ++ 0 :: (u1 :: us) ++ 0 :: rest) (0 + (c1 :: cs).length + 1) 0
      (u1 :: us).length =
      c1 :: cs ++ 0 :: List.replicate (t.length + nl.length) 0 ++ 0 :: rest := by
    have := memset_append (c1 :: cs ++ [0]) (u1 :: us) (0 :: rest) 0
    have hl : (t.length + nl.length) = (u1 :: us).length := by rw [← hudef]; simp
    rw [hl]
    simpa using this
  unfold split_redir
  simp only [List.drop_zero, hfind]
  rcases hop with rfl | rfl
  · have hp : strchr (c1 :: cs ++ 62 :: (u1 :: us) ++ 0 :: rest) 124 = none :=
      hother 124 (by decide) (by decide) (fun h => (hcc _ h).2.2.2.2 rfl)
        (fun h => (hu _ h).2.2.2.2 rfl)
    rw [hfirst, hp]
    simp only [ne_eq, not_true_eq_false, and_false, if_false, Option.any_some, hafter, hsecond,
      Option.isSome_none, Option.any_none, Bool.false_eq_true, or_self, reduceCtorEq,
      not_false_eq_true, or_false, if_true, hcall1, List.drop_zero, hcmdlen, hcall2, hdrop2,
      hcstr2, hnotws, happ, hpoke, Option.map_some', hstrlen2, hmemset]
  · have hp : strchr (c1 :: cs ++ 124 :: (u1 :: us) ++ 0 :: rest) 62 = none :=
      hother 62 (by decide) (by decide) (fun h => (hcc _ h).2.2.2.1 rfl)
        (fun h => (hu _ h).2.2.2.1 rfl)
    rw [hfirst, hp]
    simp only [ne_eq, not_true_eq_false, false_and, if_false, Option.any_some, hafter, hsecond,
      Option.isSome_none, Option.any_none, Bool.false_eq_true, or_self, reduceCtorEq,
      not_false_eq_true, false_or, if_true, hcall1, List.drop_zero, hcmdlen, hcall2, hdrop2,
      hcstr2, hnotws, happ, hpoke, Option.map_some', hstrlen2, hmemset]

/-- An instance of the theorem on C2: the clause `ls -l>out` followed by a newline. -/
theorem split_redir_splits_witness :
    split_redir ([108, 115, 32, 45, 108] ++ 62 :: ([111, 117, 116] ++ [10]) ++ 0 :: [0, 0]) 0
        [0, 0, 0, 0, 0, 0] =
        some (62, [108, 115, 32, 45, 108] ++
            0 :: List.replicate (([111, 117, 116] : List Int).length + ([10] : List Int).length) 0 ++
            0 :: [0, 0],
          [111, 117, 116] ++ 0 :: 0 :: ([0, 0, 0, 0, 0, 0] : List Int).drop
            (([111, 117, 116] : List Int).length + 2)) ∧
      cstr ([108, 115, 32, 45, 108] ++
        0 :: List.replicate (([111, 117, 116] : List Int).length + ([10] : List Int).length) 0 ++
        0 :: [0, 0]) = [108, 115, 32, 45, 108] ∧
      cstr ([111, 117, 116] ++ 0 :: 0 :: ([0, 0, 0, 0, 0, 0] : List Int).drop
        (([111, 117, 116] : List Int).length + 2)) = [111, 117, 116] :=
  split_redir_splits [108, 115, 32, 45, 108] [111, 117, 116] [10] [0, 0] [0, 0, 0, 0, 0, 0] 62
    (Or.inl rfl) (by decide) (by decide) (by decide) ⟨111, by decide, by decide, by decide⟩
    (Or.inr rfl) (by decide)

/-! ## Theorems: hiding and restoring the delimiters inside quotes -/

theorem replace_byte_ws (c : Int) :
    replace_byte [32, 9] c = if c = 32 then -32 else if c = 9 then -9 else c := by
  unfold replace_byte
  simp only [cstr, List.foldl]
  by_cases h1 : c = 32
  · subst h1; decide
  · by_cases h2 : c = 9
    · subst h2; decide
    · simp [h1, h2]

theorem replace_loop_zero (q : Int) (d s : List Int) (ins : Bool) :
    replace_loop q d s 0 ins = s := by
  cases s <;> rfl

theorem replace_loop_cons (q : Int) (d : List Int) (c : Int) (s : List Int) (len : Nat)
    (ins : Bool) :
    replace_loop q d (c :: s) (len + 1) ins =
      if c = q then c :: replace_loop q d s len (!ins)
      else if ins then replace_byte d c :: replace_loop q d s len ins
      else c :: replace_loop q d s len ins := rfl

theorem restore_loop_zero (q : Int) (s : List Int) (ins : Bool) :
    restore_loop q s 0 ins = s := by
  cases s <;> rfl

theorem restore_loop_cons (q : Int) (c : Int) (s : List Int) (len : Nat) (ins : Bool) :
    restore_loop q (c :: s) (len + 1) ins =
      if c = q then c :: restore_loop q s len (!ins)
      else if ins then (if c < 0 then toChar (-c) else c) :: restore_loop q s len ins
      else c :: restore_loop q s len ins := rfl

theorem replace_loop_outside (q : Int) (d A Y : List Int) (m : Nat) (h : q ∉ A) :
    replace_loop q d (A ++ Y) (A.length + m) false = A ++ replace_loop q d Y m false := by
  induction A with
  | nil => simp
  | cons x A ih =>
    simp only [List.mem_cons, not_or] at h
    have e : (x :: A).length + m = (A.length + m) + 1 := by simp; omega
    rw [List.cons_append, e, replace_loop_cons, if_neg (Ne.symm h.1), ih h.2]
    simp

theorem replace_loop_inside (q : Int) (d x Y : List Int) (m : Nat) (h : q ∉ x) :
    replace_loop q d (x ++ q :: Y) (x.length + 1 + m) true =
      x.map (replace_byte d) ++ q :: replace_loop q d Y m false := by
  induction x with
  | nil =>
    have e : ([] : List Int).length + 1 + m = m + 1 := by simp; omega
    rw [List.nil_append, e, replace_loop_cons, if_pos rfl]
    simp
  | cons c x ih =>
    simp only [List.mem_cons, not_or] at h
    have e : (c :: x).length + 1 + m = (x.length + 1 + m) + 1 := by simp; omega
    rw [List.cons_append, e, replace_loop_cons, if_neg (Ne.symm h.1), ih h.2]
    simp

/-- What was hidden by `replace_within_quotes` is restored by
`restore_within_quotes`, on bytes that are not negative. -/
theorem restore_replace (q : Int) (hq : 0 < q) :
    ∀ (X : List Int) (n : Nat) (ins : Bool), (∀ c ∈ X, 0 ≤ c) →
      restore_loop q (replace_loop q [32, 9] X n ins) n ins = X := by
  intro X
  induction X with
  | nil => intro n ins _; cases n <;> rfl
  | cons c X ih =>
    intro n ins h
    have hc : 0 ≤ c := h c (by simp)
    have hX : ∀ c ∈ X, 0 ≤ c := fun c hc => h c (by simp [hc])
    cases n with
    | zero => rfl
    | succ n =>
      rw [replace_loop_cons]
      by_cases h1 : c = q
      · rw [if_pos h1, restore_loop_cons, if_pos h1, ih n _ hX]
      · rw [if_neg h1]
        cases ins with
        | false =>
          simp only [Bool.false_eq_true, if_false]
          rw [restore_loop_cons, if_neg h1]
          simp only [Bool.false_eq_true, if_false]
          rw [ih n _ hX]
        | true =>
          simp only [if_true]
          have hb : replace_byte [32, 9] c ≠ q ∧
              (if replace_byte [32, 9] c < 0 then toChar (-replace_byte [32, 9] c)
                else replace_byte [32, 9] c) = c := by
            rw [replace_byte_ws]
            by_cases h32 : c = 32
            · subst h32
              simp only [if_true]
              exact ⟨by omega, by decide⟩
            · by_cases h9 : c = 9
              · subst h9
                simp only [if_neg h32, if_true]
                exact ⟨by omega, by decide⟩
              · simp only [if_neg h32, if_neg h9]
                exact ⟨h1, by rw [if_neg (by omega)]⟩
          rw [restore_loop_cons, if_neg hb.1]
          simp only [if_true]
          rw [hb.2, ih n _ hX]

/-- Storing NUL over a byte that is not the quote character commutes with
`restore_within_quotes`. -/
theorem restore_loop_set (q : Int) (hq : q ≠ 0) :
    ∀ (X : List Int) (e n : Nat) (ins : Bool), X[e]? ≠ some q →
      restore_loop q (X.set e 0) n ins = (restore_loop q X n ins).set e 0 := by
  intro X
  induction X with
  | nil => intro e n ins _; cases n <;> rfl
  | cons c X ih =>
    intro e n ins h
    cases n with
    | zero => simp [restore_loop_zero]
    | succ n =>
      cases e with
      | zero =>
        simp only [List.getElem?_cons_zero, ne_eq, Option.some.injEq] at h
        simp only [List.set_cons_zero]
        rw [restore_loop_cons, restore_loop_cons, if_neg (Ne.symm hq), if_neg h]
        cases ins <;> simp
      | succ e =>
        simp only [List.getElem?_cons_succ] at h
        simp only [List.set_cons_succ]
        rw [restore_loop_cons, restore_loop_cons]
        split_ifs <;> simp [ih e n _ h]

theorem get_quote_zero (s : List Int) : get_quote s 0 = 0 := by
  cases s <;> rfl

theorem get_quote_replace (q : Int) :
    ∀ (X : List Int) (n m : Nat) (ins : Bool),
      get_quote (replace_loop q [32, 9] X n ins) m = get_quote X m := by
  intro X
  induction X with
  | nil => intro n m ins; cases n <;> rfl
  | cons c X ih =>
    intro n m ins
    cases n with
    | zero => rfl
    | succ n =>
      cases m with
      | zero => simp [get_quote_zero]
      | succ m =>
        rw [replace_loop_cons]
        by_cases h1 : c = q
        · rw [if_pos h1, get_quote_cons, get_quote_cons, ih]
        · rw [if_neg h1]
          cases ins with
          | false =>
            simp only [Bool.false_eq_true, if_false]
            rw [get_quote_cons, get_quote_cons, ih]
          | true =>
            simp only [if_true]
            rw [get_quote_cons, get_quote_cons, ih, replace_byte_ws]
            by_cases h32 : c = 32
            · subst h32; simp
            · by_cases h9 : c = 9
              · subst h9; simp
              · simp only [if_neg h32, if_neg h9]

theorem get_quote_set (X : List Int) :
    ∀ (e m : Nat), X[e]? ≠ some 39 → X[e]? ≠ some 34 →
      get_quote (X.set e 0) m = get_quote X m := by
  induction X with
  | nil => intro e m _ _; rfl
  | cons c X ih =>
    intro e m h1 h2
    cases m with
    | zero => simp [get_quote_zero]
    | succ m =>
      cases e with
      | zero =>
        simp only [List.getElem?_cons_zero, ne_eq, Option.some.injEq] at h1 h2
        simp only [List.set_cons_zero]
        rw [get_quote_cons, get_quote_cons, if_neg h1, if_neg h2, if_neg (by decide),
          if_neg (by decide)]
      | succ e =>
        simp only [List.getElem?_cons_succ] at h1 h2
        simp only [List.set_cons_succ]
        rw [get_quote_cons, get_quote_cons, ih e m h1 h2]

theorem get_quote_zero_not_mem :
    ∀ (X : List Int) (n : Nat), get_quote X n = 0 → (39 : Int) ∉ X.take n ∧ (34 : Int) ∉ X.take n := by
  intro X
  induction X with
  | nil => intro n _; simp
  | cons c X ih =>
    intro n h
    cases n with
    | zero => simp
    | succ n =>
      rw [get_quote_cons] at h
      by_cases h1 : c = 39
      · rw [if_pos h1] at h; exact absurd h (by decide)
      · rw [if_neg h1] at h
        by_cases h2 : c = 34
        · rw [if_pos h2] at h; exact absurd h (by decide)
        · rw [if_neg h2] at h
          have := ih n h
          simp only [List.take_succ_cons, List.mem_cons, not_or]
          exact ⟨⟨Ne.symm h1, this.1⟩, ⟨Ne.symm h2, this.2⟩⟩

theorem replace_loop_no_quote (q : Int) (d : List Int) :
    ∀ (X : List Int) (n : Nat), q ∉ X.take n → replace_loop q d X n false = X := by
  intro X
  induction X with
  | nil => intro n _; cases n <;> rfl
  | cons c X ih =>
    intro n h
    cases n with
    | zero => rfl
    | succ n =>
      simp only [List.take_succ_cons, List.mem_cons, not_or] at h
      rw [replace_loop_cons, if_neg (Ne.symm h.1)]
      simp only [Bool.false_eq_true, if_false]
      rw [ih n h.2]

theorem restore_loop_no_quote (q : Int) :
    ∀ (X : List Int) (n : Nat), q ∉ X.take n → restore_loop q X n false = X := by
  intro X
  induction X with
  | nil => intro n _; cases n <;> rfl
  | cons c X ih =>
    intro n h
    cases n with
    | zero => rfl
    | succ n =>
      simp only [List.take_succ_cons, List.mem_cons, not_or] at h
      rw [restore_loop_cons, if_neg (Ne.symm h.1)]
      simp only [Bool.false_eq_true, if_false]
      rw [ih n h.2]

/-- When the first quote character of the scanned region is `q`, or there is
none, `replace_within_quotes` is the loop run with `q`. -/
theorem replace_within_quotes_eq (q : Int) (hq : q = 39 ∨ q = 34) (b d : List Int) (n : Nat)
    (h : get_quote b n = q ∨ get_quote b n = 0) :
    replace_within_quotes b d n = replace_loop q d b n false := by
  unfold replace_within_quotes
  simp only
  rcases h with h | h
  · rw [h, if_neg (by rcases hq with e | e <;> rw [e] <;> decide)]
  · rw [h, if_pos rfl]
    have := get_quote_zero_not_mem b n h
    rw [replace_loop_no_quote q d b n (by rcases hq with e | e <;> rw [e] <;> tauto)]

theorem restore_within_quotes_eq (q : Int) (hq : q = 39 ∨ q = 34) (b : List Int) (n : Nat)
    (h : get_quote b n = q ∨ get_quote b n = 0) :
    restore_within_quotes b n = restore_loop q b n false := by
  unfold restore_within_quotes
  simp only
  rcases h with h | h
  · rw [h, if_neg (by rcases hq with e | e <;> rw [e] <;> decide)]
  · rw [h, if_pos rfl]
    have := get_quote_zero_not_mem b n h
    rw [restore_loop_no_quote q b n (by rcases hq with e | e <;> rw [e] <;> tauto)]

/-! ## Theorems: one call of `strtok2` on a line of tokens -/

theorem closed_outside (q : Int) (d A : List Int) (h : q ∉ A) : Closed q d A A :=
  ⟨rfl, fun Y m => replace_loop_outside q d A Y m h⟩

theorem closed_append (q : Int) (d A A' B B' : List Int) (hA : Closed q d A A')
    (hB : Closed q d B B') : Closed q d (A ++ B) (A' ++ B') := by
  refine ⟨by simp [hA.1, hB.1], ?_⟩
  intro Y m
  have e : (A ++ B).length + m = A.length + (B.length + m) := by simp; omega
  rw [List.append_assoc, e, hA.2, hB.2, List.append_assoc]

theorem closed_quoted (q : Int) (d x : List Int) (h : q ∉ x) :
    Closed q d (q :: x ++ [q]) (q :: x.map (replace_byte d) ++ [q]) := by
  refine ⟨by simp, ?_⟩
  intro Y m
  have e : (q :: x ++ [q]).length + m = (x.length + 1 + m) + 1 := by simp; omega
  have e2 : q :: x ++ [q] ++ Y = q :: (x ++ q :: Y) := by simp
  rw [e2, e, replace_loop_cons, if_pos rfl]
  simp only [Bool.not_false]
  rw [replace_loop_inside q d x Y m h]
  simp

/-- The libc tokenizer on a buffer in which, from the remembered position on,
a run `sep` of delimiters is followed by a token `T` and by a byte `x` that is
NUL or a delimiter. -/
theorem strtok_shape (P sep T R d : List Int) (x : Int)
    (hsep : ∀ c ∈ sep, c ≠ 0 ∧ c ∈ d) (hT : ∀ c ∈ T, c ≠ 0 ∧ c ∉ d) (hne : T ≠ [])
    (hx : x = 0 ∨ x ∈ d) :
    strtok (P ++ sep ++ T ++ x :: R) none d P.length =
      if x = 0 then
        (some (P.length + sep.length), P ++ sep ++ T ++ x :: R,
          P.length + sep.length + T.length)
      else
        (some (P.length + sep.length), P ++ sep ++ T ++ 0 :: R,
          P.length + sep.length + T.length + 1) := by
  obtain ⟨t1, ts, rfl⟩ : ∃ t1 ts, T = t1 :: ts := List.exists_cons_of_ne_nil hne
  have ht1 := hT t1 (by simp)
  have hd1 : (P ++ sep ++ t1 :: ts ++ x :: R).drop P.length = sep ++ (t1 :: ts ++ x :: R) := by
    have : P ++ sep ++ t1 :: ts ++ x :: R = P ++ (sep ++ (t1 :: ts ++ x :: R)) := by simp
    rw [this, List.drop_left]
  have hspn : strspn (sep ++ (t1 :: ts ++ x :: R)) d = sep.length := by
    rw [strspn_append sep _ d hsep, List.cons_append, strspn_stop _ _ _ (Or.inr ht1.2)]
    rfl
  have hd2 : (P ++ sep ++ t1 :: ts ++ x :: R).drop (P.length + sep.length) =
      t1 :: ts ++ x :: R := by
    have : P ++ sep ++ t1 :: ts ++ x :: R = (P ++ sep) ++ (t1 :: ts ++ x :: R) := by simp
    have hl : P.length + sep.length = (P ++ sep).length := by simp
    rw [this, hl, List.drop_left]
  have hcspn : strcspn (t1 :: ts ++ x :: R) d = (t1 :: ts).length := by
    rw [strcspn_append (t1 :: ts) _ d hT, strcspn_stop _ _ _ hx]
    rfl
  have hp1 : peek (P ++ sep ++ t1 :: ts ++ x :: R) (P.length + sep.length) = t1 := by
    have := peek_append_right (P ++ sep) (ts ++ x :: R) t1
    simpa using this
  have hp2 : peek (P ++ sep ++ t1 :: ts ++ x :: R) (P.length + sep.length + (t1 :: ts).length) =
      x := by
    have := peek_append_right (P ++ sep ++ t1 :: ts) R x
    simpa [Nat.add_assoc] using this
  have hset : (P ++ sep ++ t1 :: ts ++ x :: R).set (P.length + sep.length + (t1 :: ts).length) 0 =
      P ++ sep ++ t1 :: ts ++ 0 :: R := by
    simp [Nat.add_assoc]
  unfold strtok
  simp only [Option.getD_none, hd1, hspn, hd2, hcspn, hp1, hp2, hset, if_neg ht1.1]

theorem strtok_at_end (P R d : List Int) :
    strtok (P ++ 0 :: R) none d P.length = (none, P ++ 0 :: R, P.length) := by
  unfold strtok
  simp only [Option.getD_none, List.drop_left, strspn_stop 0 R d (Or.inl rfl), Nat.add_zero,
    peek_append_right, if_true]

theorem strtok2_first (b d : List Int) :
    strtok2 b ⟨0, 0, 0⟩ (some 0) d = strtok2 b ⟨0, strlen b, 0⟩ none d := by
  unfold strtok2 strtok
  simp

/-- One call `strtok2(NULL, " \t")` on a line of tokens. The buffer holds the
part `done` that is behind the remembered position, a run `sep` of spaces and
tabs, the token `T`, and `tail`, the rest of the line, which is empty or
starts with a space or tab. The call returns the token and replaces the
delimiter after it by NUL. -/
theorem strtok2_step (q : Int) (hq : q = 39 ∨ q = 34) (done done' sep T T' tail pad : List Int)
    (hGQ : get_quote (done ++ sep ++ T ++ tail ++ 0 :: pad) (done ++ sep ++ T ++ tail).length = q ∨
      get_quote (done ++ sep ++ T ++ tail ++ 0 :: pad) (done ++ sep ++ T ++ tail).length = 0)
    (hnn : ∀ c ∈ done ++ sep ++ T ++ tail ++ 0 :: pad, 0 ≤ c)
    (hdone : Closed q [32, 9] done done') (hsep : ∀ c ∈ sep, c = 32 ∨ c = 9)
    (hT : Closed q [32, 9] T T') (hT' : ∀ c ∈ T', c ≠ 0 ∧ c ≠ 32 ∧ c ≠ 9) (hne : T' ≠ [])
    (htail : tail = [] ∨ ∃ dch tail', tail = dch :: tail' ∧ (dch = 32 ∨ dch = 9)) :
    strtok2 (done ++ sep ++ T ++ tail ++ 0 :: pad)
        ⟨0, (done ++ sep ++ T ++ tail).length, done.length⟩ none [32, 9] =
      (some (done.length + sep.length),
        done ++ sep ++ T ++ (0 :: tail.tail) ++ (if tail = [] then pad else 0 :: pad),
        ⟨0, (done ++ sep ++ T ++ tail).length,
          (done ++ sep ++ T).length + (if tail = [] then 0 else 1)⟩) := by
  have hq0 : 0 < q := by rcases hq with e | e <;> rw [e] <;> decide
  have hqsep : q ∉ sep := by
    intro h
    have := hsep q h
    omega
  -- the buffer with the delimiters inside quotes hidden
  have hrep : replace_loop q [32, 9] (done ++ sep ++ T ++ tail ++ 0 :: pad)
      (done ++ sep ++ T ++ tail).length false =
      done' ++ sep ++ T' ++ replace_loop q [32, 9] (tail ++ 0 :: pad) tail.length false := by
    have e1 : done ++ sep ++ T ++ tail ++ 0 :: pad = done ++ (sep ++ (T ++ (tail ++ 0 :: pad))) := by
      simp
    have e2 : (done ++ sep ++ T ++ tail).length =
        done.length + (sep.length + (T.length + tail.length)) := by
      simp only [List.length_append]; omega
    rw [e1, e2, hdone.2, replace_loop_outside q _ sep _ _ hqsep, hT.2]
    simp
  have hsep' : ∀ c ∈ sep, c ≠ 0 ∧ c ∈ ([32, 9] : List Int) := by
    intro c hc
    rcases hsep c hc with e | e <;> subst e <;> simp
  have hT'' : ∀ c ∈ T', c ≠ 0 ∧ c ∉ ([32, 9] : List Int) := by
    intro c hc
    have := hT' c hc
    simp [this.1, this.2.1, this.2.2]
  have hlen' : (done' ++ sep ++ T').length = (done ++ sep ++ T).length := by
    simp [hdone.1, hT.1]
  have hroundtrip := restore_replace q hq0 (done ++ sep ++ T ++ tail ++ 0 :: pad)
    (done ++ sep ++ T ++ tail).length false hnn
  have hGQ1 : ∀ X : List Int,
      get_quote X (done ++ sep ++ T ++ tail).length =
        get_quote (done ++ sep ++ T ++ tail ++ 0 :: pad) (done ++ sep ++ T ++ tail).length →
      restore_within_quotes X (done ++ sep ++ T ++ tail).length =
        restore_loop q X (done ++ sep ++ T ++ tail).length false := by
    intro X hX
    exact restore_within_quotes_eq q hq X _ (by rw [hX]; exact hGQ)
  unfold strtok2
  simp only [List.take_zero, List.drop_zero, List.nil_append]
  rw [replace_within_quotes_eq q hq _ _ _ hGQ, hrep]
  rcases htail with rfl | ⟨dch, tail', rfl, hd⟩
  · -- the token ends the line
    simp only [List.length_nil, replace_loop_zero, List.append_nil, if_true, List.tail_nil,
      Nat.add_zero, List.nil_append]
    have hs := strtok_shape done' sep T' pad [32, 9] 0 hsep' hT'' hne (Or.inl rfl)
    rw [hdone.1] at hs
    rw [hs]
    simp only [if_true]
    have hback : restore_within_quotes (done' ++ sep ++ T' ++ 0 :: pad)
        (done ++ sep ++ T).length = done ++ sep ++ T ++ 0 :: pad := by
      have h1 := hGQ1 (done' ++ sep ++ T' ++ 0 :: pad) (by
        have := get_quote_replace q (done ++ sep ++ T ++ [] ++ 0 :: pad)
          (done ++ sep ++ T ++ []).length (done ++ sep ++ T ++ []).length false
        rw [hrep] at this
        simpa using this)
      simp only [List.append_nil] at h1 hroundtrip hrep
      rw [h1, ← hroundtrip]
      congr 1
      rw [hrep]
      simp [replace_loop_zero]
    rw [hback]
    have hl2 : (done ++ sep ++ T).length = done.length + sep.length + T'.length := by
      simp only [List.length_append, hT.1]
    rw [hl2]
    simp
  · -- the token is followed by a space or tab
    have hdq : dch ≠ q := by
      intro h
      rcases hd with e | e <;> rcases hq with e2 | e2 <;> omega
    have hd0 : dch ≠ 0 := by rcases hd with e | e <;> rw [e] <;> decide
    have hR : replace_loop q [32, 9] (dch :: tail' ++ 0 :: pad) (dch :: tail').length false =
        dch :: replace_loop q [32, 9] (tail' ++ 0 :: pad) tail'.length false := by
      rw [List.cons_append, List.length_cons, replace_loop_cons, if_neg hdq]
      simp
    rw [hR]
    generalize hRR : replace_loop q [32, 9] (tail' ++ 0 :: pad) tail'.length false = R at *
    have hs := strtok_shape done' sep T' R [32, 9] dch hsep' hT'' hne
      (Or.inr (by rcases hd with e | e <;> rw [e] <;> simp))
    rw [hdone.1, if_neg hd0] at hs
    rw [hs]
    simp only [List.tail_cons, reduceCtorEq, if_false]
    have hsetl : (done' ++ sep ++ T' ++ dch :: R).set (done ++ sep ++ T).length 0 =
        done' ++ sep ++ T' ++ 0 :: R := by
      rw [← hlen']
      exact set_append_right _ _ _ _
    have hgetl : (done' ++ sep ++ T' ++ dch :: R)[(done ++ sep ++ T).length]? = some dch := by
      rw [← hlen']
      exact getElem?_of_drop_eq_cons (r := R) (by rw [List.drop_left])
    have hback : restore_within_quotes (done' ++ sep ++ T' ++ 0 :: R)
        (done ++ sep ++ T ++ dch :: tail').length =
        done ++ sep ++ T ++ 0 :: tail' ++ 0 :: pad := by
      have hg0 : get_quote (done' ++ sep ++ T' ++ dch :: R)
          (done ++ sep ++ T ++ dch :: tail').length =
          get_quote (done ++ sep ++ T ++ dch :: tail' ++ 0 :: pad)
            (done ++ sep ++ T ++ dch :: tail').length := by
        have := get_quote_replace q (done ++ sep ++ T ++ dch :: tail' ++ 0 :: pad)
          (done ++ sep ++ T ++ dch :: tail').length (done ++ sep ++ T ++ dch :: tail').length
          false
        rw [hrep, hR] at this
        exact this
      have h1 := hGQ1 (done' ++ sep ++ T' ++ 0 :: R) (by
        rw [← hsetl, get_quote_set _ _ _ (by rw [hgetl]; simp; rcases hd with e | e <;> omega)
          (by rw [hgetl]; simp; rcases hd with e | e <;> omega)]
        exact hg0)
      rw [h1, ← hsetl, restore_loop_set q (by omega) _ _ _ _ (by rw [hgetl]; simp [hdq])]
      have : done' ++ sep ++ T' ++ dch :: R =
          replace_loop q [32, 9] (done ++ sep ++ T ++ dch :: tail' ++ 0 :: pad)
            (done ++ sep ++ T ++ dch :: tail').length false := by
        rw [hrep, hR]
      rw [this, hroundtrip]
      simp
    rw [hback]
    have hl2 : (done ++ sep ++ T).length = done.length + sep.length + T'.length := by
      simp only [List.length_append, hT.1]
    rw [hl2]

/-! ## Theorems: `append_cmd` on a quoted token -/

theorem is_last_arg_newline (v r : List Int) (hv0 : (0 : Int) ∉ v) :
    is_last_arg (v ++ [10] ++ 0 :: r) = some true := by
  have hv1 : (0 : Int) ∉ v ++ [10] := by
    simp only [List.mem_append, List.mem_singleton, not_or]
    exact ⟨hv0, by decide⟩
  have hs : strlen (v ++ [10] ++ 0 :: r) = v.length + 1 := by
    simpa using strlen_append_nul (v ++ [10]) r hv1
  unfold is_last_arg
  rw [hs, if_neg (by omega)]
  have := peek_append_right v (0 :: r) 10
  simp only [List.append_assoc, List.singleton_append, Nat.add_sub_cancel]
  rw [this]
  simp

theorem is_last_arg_other (v r : List Int) (hv : v ≠ []) (hv0 : (0 : Int) ∉ v)
    (hlast : v.getLast hv ≠ 10) : is_last_arg (v ++ 0 :: r) = some false := by
  have hlen : 0 < v.length := List.length_pos.2 hv
  unfold is_last_arg
  rw [strlen_append_nul v r hv0, if_neg (by omega), peek_last v (0 :: r) hv]
  simp [hlast]

theorem rm_newline_newline (v : List Int) (hv0 : (0 : Int) ∉ v) :
    rm_newline (v ++ [10] ++ [0]) = some (v ++ 0 :: [0]) := by
  have hv1 : (0 : Int) ∉ v ++ [10] := by
    simp only [List.mem_append, List.mem_singleton, not_or]
    exact ⟨hv0, by decide⟩
  have hs2 : strlen (v ++ [10] ++ [0]) = v.length + 1 := by
    simpa using strlen_append_nul (v ++ [10]) [] hv1
  unfold rm_newline
  rw [is_last_arg_newline v [] hv0]
  simp only [hs2]
  have e1 : (v ++ [10] ++ [0]).set (v.length + 1) 0 = v ++ [10] ++ [0] := by
    simp
  rw [e1, hs2]
  have e2 : (v ++ [10] ++ [0]).set (v.length + 1 - 1) 0 = v ++ 0 :: [0] := by
    simp
  rw [e2]

theorem is_str_lit_quoted (q : Int) (hq : q = 39 ∨ q = 34) (x w : List Int)
    (h0 : (0 : Int) ∉ x) : is_str_lit (q :: x ++ [q] ++ 0 :: w) = true := by
  have hq0 : q ≠ 0 := by rcases hq with e | e <;> rw [e] <;> decide
  have hV0 : (0 : Int) ∉ q :: x ++ [q] := by
    simp [h0, Ne.symm hq0]
  have hs : strlen (q :: x ++ [q] ++ 0 :: w) = x.length + 2 := by
    simpa using strlen_append_nul (q :: x ++ [q]) w hV0
  have hp : peek (q :: x ++ [q] ++ 0 :: w) (x.length + 2 - 1) = q := by
    have := peek_append_right (q :: x) (0 :: w) q
    simpa using this
  unfold is_str_lit
  rw [hs, hp]
  have hp0 : peek (q :: x ++ [q] ++ 0 :: w) 0 = q := rfl
  rw [hp0]
  rcases hq with e | e <;> rw [e] <;> simp

theorem strip_quotes_quoted (q : Int) (hq : q = 39 ∨ q = 34) (x w : List Int)
    (h0 : (0 : Int) ∉ x) :
    strip_quotes (q :: x ++ [q] ++ 0 :: w) = x ++ 0 :: 0 :: w := by
  have hq0 : q ≠ 0 := by rcases hq with e | e <;> rw [e] <;> decide
  have hV0 : (0 : Int) ∉ q :: x ++ [q] := by
    simp [h0, Ne.symm hq0]
  have hs : strlen (q :: x ++ [q] ++ 0 :: w) = x.length + 2 := by
    simpa using strlen_append_nul (q :: x ++ [q]) w hV0
  have hp0 : peek (q :: x ++ [q] ++ 0 :: w) 0 = q := rfl
  unfold strip_quotes
  rw [hp0, if_neg (by rcases hq with e | e <;> rw [e] <;> simp), hs]
  have e1 : (q :: x ++ [q] ++ 0 :: w).set 0 0 = (0 :: x) ++ q :: 0 :: w := by simp
  rw [e1]
  have e2 : ((0 :: x) ++ q :: 0 :: w).set (x.length + 2 - 1) 0 = (0 :: x) ++ 0 :: 0 :: w := by
    simp
  rw [e2]
  simp

/-- Effect of `append_cmd` on a token between quotes: the text `x` between the
quotes is copied, `nl` being an optional trailing newline. -/
theorem append_cmd_quoted (q : Int) (hq : q = 39 ∨ q = 34) (out tail x nl r : List Int)
    (h0 : (0 : Int) ∉ x) (hnl : nl = [] ∨ nl = [10]) (hfit : x.length + 1 ≤ tail.length) :
    append_cmd (out ++ tail) (q :: x ++ [q] ++ nl ++ 0 :: r) out.length =
      some (out ++ (x ++ [0]) ++ tail.drop (x.length + 1), out.length + (x.length + 1)) := by
  have hq0 : q ≠ 0 := by rcases hq with e | e <;> rw [e] <;> decide
  have hq10 : q ≠ 10 := by rcases hq with e | e <;> rw [e] <;> decide
  have hV0 : (0 : Int) ∉ q :: x ++ [q] := by
    simp [h0, Ne.symm hq0]
  have hVne : q :: x ++ [q] ≠ [] := by simp
  have hcopy : memcpy (out ++ tail) out.length (x ++ [0]) =
      some (out ++ (x ++ [0]) ++ tail.drop (x.length + 1)) := by
    have := memcpy_at out tail (x ++ [0]) (by simpa using hfit)
    simpa using this
  have hcs : ∀ w : List Int, cstr (x ++ 0 :: w) = x ∧ strlen (x ++ 0 :: w) = x.length :=
    fun w => ⟨cstr_append_nul x w h0, strlen_append_nul x w h0⟩
  rcases hnl with rfl | rfl
  · have hl : is_last_arg (q :: x ++ [q] ++ [] ++ 0 :: r) = some false := by
      have := is_last_arg_other (q :: x ++ [q]) r hVne hV0 (by simp [hq10])
      simpa using this
    have hc : cstr (q :: x ++ [q] ++ [] ++ 0 :: r) = q :: x ++ [q] := by
      have := cstr_append_nul (q :: x ++ [q]) r hV0
      simpa using this
    have hlit : is_str_lit (q :: x ++ [q] ++ [] ++ 0 :: r) = true := by
      have := is_str_lit_quoted q hq x r h0
      simpa using this
    unfold append_cmd
    rw [hl]
    simp only
    rw [hlit, hc]
    simp only [if_true]
    have hst := strip_quotes_quoted q hq x [] h0
    simp only [List.append_assoc, List.cons_append, List.nil_append, List.singleton_append]
      at hst ⊢
    rw [hst, (hcs [0]).1, (hcs [0]).2]
    simp only [List.append_assoc, List.cons_append, List.nil_append, List.singleton_append]
      at hcopy
    rw [hcopy]
    rfl
  · have hl : is_last_arg (q :: x ++ [q] ++ [10] ++ 0 :: r) = some true :=
      is_last_arg_newline (q :: x ++ [q]) r hV0
    have hc : cstr (q :: x ++ [q] ++ [10] ++ 0 :: r) = q :: x ++ [q] ++ [10] := by
      apply cstr_append_nul
      simp [h0, Ne.symm hq0]
    have hrm := rm_newline_newline (q :: x ++ [q]) hV0
    have hlit := is_str_lit_quoted q hq x [0] h0
    have hst := strip_quotes_quoted q hq x [0] h0
    unfold append_cmd
    rw [hl]
    simp only
    rw [hc, hrm]
    simp only
    rw [hlit]
    simp only [if_true]
    rw [hst, (hcs [0, 0]).1, (hcs [0, 0]).2, hcopy]
    rfl

/-! ## Theorems: tokens -/

theorem token_raw_nonneg (q : Int) (hq : q = 39 ∨ q = 34) (t : Token) (h : t.Wf q) :
    ∀ c ∈ t.raw q, 0 ≤ c := by
  cases t with
  | plain p =>
    intro c hc
    exact le_of_lt (h.2 c hc).1
  | quoted x =>
    intro c hc
    simp only [Token.raw, List.cons_append, List.mem_cons, List.mem_append,
      List.mem_singleton, List.not_mem_nil, or_false] at hc
    rcases hc with e | e | e
    · rcases hq with e2 | e2 <;> omega
    · exact le_of_lt (h.2 c e).1
    · rcases hq with e2 | e2 <;> omega

theorem token_value_spec (q : Int) (t : Token) (h : t.Wf q) :
    t.value ≠ [] ∧ (0 : Int) ∉ t.value ∧ t.value.length ≤ (t.raw q).length := by
  cases t with
  | plain p => exact ⟨h.1, fun h0 => absurd (h.2 0 h0).1 (by decide), le_refl _⟩
  | quoted x =>
    refine ⟨h.1, fun h0 => absurd (h.2 0 h0).1 (by decide), ?_⟩
    simp only [Token.raw, Token.value, List.cons_append, List.length_cons, List.length_append,
      List.length_singleton]
    omega

/-- The text of a token, with an optional newline after it, is left by the
replacement with the scan outside quotes and without NUL, space or tab. -/
theorem token_closed (q : Int) (hq : q = 39 ∨ q = 34) (t : Token) (nl : List Int)
    (h : t.Wf q) (hnl : nl = [] ∨ nl = [10]) :
    ∃ T', Closed q [32, 9] (t.raw q ++ nl) T' ∧ (∀ c ∈ T', c ≠ 0 ∧ c ≠ 32 ∧ c ≠ 9) ∧ T' ≠ [] := by
  have hqnl : q ∉ nl := by
    rcases hnl with e | e <;> rw [e]
    · simp
    · simp only [List.mem_singleton]; rcases hq with e2 | e2 <;> omega
  have hnlc : ∀ c ∈ nl, c ≠ 0 ∧ c ≠ 32 ∧ c ≠ 9 := by
    intro c hc
    rcases hnl with e | e <;> rw [e] at hc
    · simp at hc
    · simp only [List.mem_singleton] at hc; omega
  cases t with
  | plain p =>
    refine ⟨p ++ nl, closed_outside q _ _ ?_, ?_, by simp [h.1]⟩
    · simp only [List.mem_append, not_or]
      refine ⟨fun hm => ?_, hqnl⟩
      have := h.2 q hm
      rcases hq with e | e <;> omega
    · intro c hc
      rcases List.mem_append.1 hc with hc | hc
      · have := h.2 c hc
        exact ⟨by omega, this.2.2.2.1, this.2.2.2.2.1⟩
      · exact hnlc c hc
  | quoted x =>
    have hqx : q ∉ x := fun hm => (h.2 q hm).2.2.2 rfl
    refine ⟨(q :: x.map (replace_byte [32, 9]) ++ [q]) ++ nl,
      closed_append q _ _ _ _ _ (closed_quoted q _ x hqx) (closed_outside q _ nl hqnl), ?_,
      by simp⟩
    intro c hc
    simp only [List.cons_append, List.append_assoc, List.mem_cons, List.mem_append,
      List.mem_map, List.mem_singleton, List.not_mem_nil, false_or] at hc
    rcases hc with e | ⟨a, ha, e⟩ | e | e
    · rcases hq with e2 | e2 <;> omega
    · rw [replace_byte_ws] at e
      have := h.2 a ha
      split_ifs at e <;> omega
    · rcases hq with e2 | e2 <;> omega
    · exact hnlc c e

/-- Effect of `append_cmd` on a token of the line, with an optional newline
after it: the value of the token is copied, followed by NUL. -/
theorem append_cmd_token (q : Int) (hq : q = 39 ∨ q = 34) (t : Token) (h : t.Wf q)
    (out nl r : List Int) (k : Nat) (hnl : nl = [] ∨ nl = [10])
    (hfit : t.value.length + 1 ≤ k) :
    append_cmd (out ++ List.replicate k 0) (t.raw q ++ nl ++ 0 :: r) out.length =
      some (out ++ (t.value ++ [0]) ++ List.replicate (k - (t.value.length + 1)) 0,
        out.length + (t.value.length + 1)) := by
  have hdrop : (List.replicate k (0 : Int)).drop (t.value.length + 1) =
      List.replicate (k - (t.value.length + 1)) 0 := by simp
  cases t with
  | plain p =>
    have := append_cmd_plain out (List.replicate k 0) p nl r h.1
      (fun x hx => ⟨by have := h.2 x hx; omega, (h.2 x hx).2.2.1⟩)
      (by
        obtain ⟨p1, ps, rfl⟩ := List.exists_cons_of_ne_nil h.1
        have := h.2 p1 (by simp)
        exact ⟨this.2.2.2.2.2.1, this.2.2.2.2.2.2⟩)
      hnl (by simpa [Token.value] using hfit)
    rw [hdrop.symm]
    exact this
  | quoted x =>
    have := append_cmd_quoted q hq out (List.replicate k 0) x nl r
      (fun h0 => absurd (h.2 0 h0).1 (by decide)) hnl (by simpa [Token.value] using hfit)
    rw [hdrop.symm]
    exact this

/-! ## Theorems: the first quote character of a line -/

theorem get_quote_skip (A Y : List Int) (m : Nat) (h1 : (39 : Int) ∉ A) (h2 : (34 : Int) ∉ A) :
    get_quote (A ++ Y) (A.length + m) = get_quote Y m := by
  induction A with
  | nil => simp
  | cons x A ih =>
    simp only [List.mem_cons, not_or] at h1 h2
    have e : (x :: A).length + m = (A.length + m) + 1 := by simp; omega
    rw [List.cons_append, e, get_quote_cons, if_neg (Ne.symm h1.1), if_neg (Ne.symm h2.1),
      ih h1.2 h2.2]

theorem get_quote_token (q : Int) (hq : q = 39 ∨ q = 34) (t : Token) (h : t.Wf q)
    (Y : List Int) (m : Nat) (hY : get_quote Y m = q ∨ get_quote Y m = 0) :
    get_quote (t.raw q ++ Y) ((t.raw q).length + m) = q ∨
      get_quote (t.raw q ++ Y) ((t.raw q).length + m) = 0 := by
  cases t with
  | plain p =>
    rw [Token.raw, get_quote_skip p Y m (fun hm => (h.2 _ hm).2.2.2.2.2.1 rfl)
      (fun hm => (h.2 _ hm).2.2.2.2.2.2 rfl)]
    exact hY
  | quoted x =>
    left
    have e : (Token.raw q (Token.quoted x)).length + m = (x.length + 1 + m) + 1 := by
      simp [Token.raw]; omega
    rw [e]
    simp only [Token.raw, List.cons_append]
    rw [get_quote_cons]
    rcases hq with e2 | e2 <;> subst e2 <;> simp

theorem get_quote_text (q : Int) (hq : q = 39 ∨ q = 34) (nl pad : List Int)
    (hnl : nl = [] ∨ nl = [10]) :
    ∀ (rest : List (List Int × Token)),
      (∀ p ∈ rest, p.1 ≠ [] ∧ (∀ c ∈ p.1, c = 32 ∨ c = 9) ∧ p.2.Wf q) →
      get_quote (text q nl rest ++ pad) (text q nl rest).length = q ∨
        get_quote (text q nl rest ++ pad) (text q nl rest).length = 0 := by
  intro rest
  induction rest with
  | nil =>
    intro _
    right
    have := get_quote_skip nl pad 0
      (by rcases hnl with e | e <;> simp [e])
      (by rcases hnl with e | e <;> simp [e])
    simp only [Nat.add_zero] at this
    rw [text, this, get_quote_zero]
  | cons p r ih =>
    intro h
    have hp := h p (by simp)
    have hr := ih (fun p' hp' => h p' (by simp [hp']))
    have h1 := get_quote_token q hq p.2 hp.2.2 (text q nl r ++ pad) (text q nl r).length hr
    have h2 := get_quote_skip p.1 (p.2.raw q ++ (text q nl r ++ pad))
      ((p.2.raw q).length + (text q nl r).length)
      (fun hm => by have := hp.2.1 _ hm; omega) (fun hm => by have := hp.2.1 _ hm; omega)
    have e1 : text q nl (p :: r) ++ pad = p.1 ++ (p.2.raw q ++ (text q nl r ++ pad)) := by
      simp [text]
    have e2 : (text q nl (p :: r)).length =
        p.1.length + ((p.2.raw q).length + (text q nl r).length) := by
      simp only [text, List.length_append]; omega
    rw [e1, e2, h2]
    exact h1

/-! ## Theorems: taking one token off a line -/

theorem text_nonneg (q : Int) (hq : q = 39 ∨ q = 34) (nl : List Int) (hnl : nl = [] ∨ nl = [10]) :
    ∀ (rest : List (List Int × Token)),
      (∀ p ∈ rest, p.1 ≠ [] ∧ (∀ c ∈ p.1, c = 32 ∨ c = 9) ∧ p.2.Wf q) →
      ∀ c ∈ text q nl rest, 0 ≤ c := by
  intro rest
  induction rest with
  | nil =>
    intro _ c hc
    rcases hnl with e | e <;> rw [text, e] at hc
    · simp at hc
    · simp only [List.mem_singleton] at hc; omega
  | cons p r ih =>
    intro h c hc
    have hp := h p (by simp)
    simp only [text, List.mem_append] at hc
    rcases hc with (hc | hc) | hc
    · have := hp.2.1 c hc; omega
    · exact token_raw_nonneg q hq p.2 hp.2.2 c hc
    · exact ih (fun p' hp' => h p' (by simp [hp'])) c hc

/-- One call of `strtok2` followed by `append_cmd`, on a line of tokens: behind
`done` the buffer holds a run `sep` of spaces and tabs, the token `t` and the
rest of the line. The token is found, its value is appended to the destination,
and the buffer is left ready for the next call. -/
theorem token_step (q : Int) (hq : q = 39 ∨ q = 34) (nl : List Int) (hnl : nl = [] ∨ nl = [10])
    (done done' sep : List Int) (t : Token) (r : List (List Int × Token)) (pad out : List Int)
    (k : Nat) (hdone : Closed q [32, 9] done done') (hdn : ∀ c ∈ done, 0 ≤ c)
    (hsep : ∀ c ∈ sep, c = 32 ∨ c = 9) (ht : t.Wf q)
    (hr : ∀ p ∈ r, p.1 ≠ [] ∧ (∀ c ∈ p.1, c = 32 ∨ c = 9) ∧ p.2.Wf q)
    (hpad : ∀ c ∈ pad, 0 ≤ c)
    (hG : get_quote (done ++ sep ++ t.raw q ++ text q nl r ++ 0 :: pad)
        (done ++ sep ++ t.raw q ++ text q nl r).length = q ∨
      get_quote (done ++ sep ++ t.raw q ++ text q nl r ++ 0 :: pad)
        (done ++ sep ++ t.raw q ++ text q nl r).length = 0)
    (hfit : t.value.length + 1 ≤ k) :
    ∃ (tok : Nat) (dn dn' : List Int),
      strtok2 (done ++ sep ++ t.raw q ++ text q nl r ++ 0 :: pad)
          ⟨0, (done ++ sep ++ t.raw q ++ text q nl r).length, done.length⟩ none [32, 9] =
        (some tok, dn ++ pending q nl r ++ 0 :: pad,
          ⟨0, (done ++ sep ++ t.raw q ++ text q nl r).length, dn.length⟩) ∧
      (dn ++ pending q nl r).length = (done ++ sep ++ t.raw q ++ text q nl r).length ∧
      Closed q [32, 9] dn dn' ∧ (∀ c ∈ dn, 0 ≤ c) ∧
      (get_quote (dn ++ pending q nl r ++ 0 :: pad)
          (done ++ sep ++ t.raw q ++ text q nl r).length = q ∨
        get_quote (dn ++ pending q nl r ++ 0 :: pad)
          (done ++ sep ++ t.raw q ++ text q nl r).length = 0) ∧
      append_cmd (out ++ List.replicate k 0) ((dn ++ pending q nl r ++ 0 :: pad).drop tok)
          out.length =
        some (out ++ (t.value ++ [0]) ++ List.replicate (k - (t.value.length + 1)) 0,
          out.length + (t.value.length + 1)) := by
  have hq0 : q ≠ 0 := by rcases hq with e | e <;> rw [e] <;> decide
  have hqsep : q ∉ sep := by
    intro h
    have := hsep q h
    omega
  have hsepn : ∀ c ∈ sep, 0 ≤ c := by
    intro c hc
    have := hsep c hc
    omega
  have hrawn := token_raw_nonneg q hq t ht
  have htextn := text_nonneg q hq nl hnl r hr
  have hds : Closed q [32, 9] (done ++ sep) (done' ++ sep) :=
    closed_append q _ _ _ _ _ hdone (closed_outside q _ sep hqsep)
  cases r with
  | nil =>
    obtain ⟨T', hT, hT', hne⟩ := token_closed q hq t nl ht hnl
    have hl : done ++ sep ++ t.raw q ++ text q nl [] = done ++ sep ++ (t.raw q ++ nl) ++ [] := by
      simp [text]
    rw [hl] at hG ⊢
    have hstep := strtok2_step q hq done done' sep (t.raw q ++ nl) T' [] pad hG
      (by
        intro c hc
        simp only [List.append_assoc, List.mem_append, List.mem_cons, List.not_mem_nil,
          false_or] at hc
        rcases hc with hc | hc | hc | hc | hc | hc
        · exact hdn c hc
        · exact hsepn c hc
        · exact hrawn c hc
        · have := htextn c (by simpa [text] using hc); exact this
        · omega
        · exact hpad c hc)
      hdone hsep hT hT' hne (Or.inl rfl)
    simp only [List.tail_nil, if_true, Nat.add_zero] at hstep
    refine ⟨done.length + sep.length, done ++ sep ++ (t.raw q ++ nl), done' ++ sep ++ T', ?_, ?_,
      closed_append q _ _ _ _ _ hds hT, ?_, ?_, ?_⟩
    · rw [hstep]
      simp [pending]
    · simp [pending]
    · intro c hc
      simp only [List.append_assoc, List.mem_append] at hc
      rcases hc with hc | hc | hc | hc
      · exact hdn c hc
      · exact hsepn c hc
      · exact hrawn c hc
      · exact htextn c (by simpa [text] using hc)
    · simpa [pending] using hG
    · have hd : (done ++ sep ++ (t.raw q ++ nl) ++ pending q nl [] ++ 0 :: pad).drop
          (done.length + sep.length) = t.raw q ++ nl ++ 0 :: pad := by
        have e : done ++ sep ++ (t.raw q ++ nl) ++ pending q nl [] ++ 0 :: pad =
            (done ++ sep) ++ (t.raw q ++ nl ++ 0 :: pad) := by simp [pending]
        have e2 : done.length + sep.length = (done ++ sep).length := by simp
        rw [e, e2, List.drop_left]
      rw [hd]
      exact append_cmd_token q hq t ht out nl pad k hnl hfit
  | cons p2 r2 =>
    have hp2 := hr p2 (by simp)
    obtain ⟨dch, s2, hs2⟩ := List.exists_cons_of_ne_nil hp2.1
    have hdch : dch = 32 ∨ dch = 9 := hp2.2.1 dch (by rw [hs2]; simp)
    obtain ⟨T', hT, hT', hne⟩ := token_closed q hq t [] ht (Or.inl rfl)
    rw [List.append_nil] at hT
    have htext : text q nl (p2 :: r2) = dch :: pending q nl (p2 :: r2) := by
      simp [text, pending, hs2]
    rw [htext] at hG ⊢
    have hnn : ∀ c ∈ done ++ sep ++ t.raw q ++ dch :: pending q nl (p2 :: r2) ++ 0 :: pad,
        0 ≤ c := by
      intro c hc
      rw [← htext] at hc
      simp only [List.append_assoc, List.mem_append, List.mem_cons] at hc
      rcases hc with hc | hc | hc | hc | hc | hc
      · exact hdn c hc
      · exact hsepn c hc
      · exact hrawn c hc
      · exact htextn c hc
      · omega
      · exact hpad c hc
    have hstep := strtok2_step q hq done done' sep (t.raw q) T' (dch :: pending q nl (p2 :: r2))
      pad hG hnn hdone hsep hT hT' hne (Or.inr ⟨dch, _, rfl, hdch⟩)
    simp only [List.tail_cons, reduceCtorEq, if_false] at hstep
    have hset : (done ++ sep ++ t.raw q ++ dch :: pending q nl (p2 :: r2) ++ 0 :: pad).set
        (done ++ sep ++ t.raw q).length 0 =
        done ++ sep ++ t.raw q ++ [0] ++ pending q nl (p2 :: r2) ++ 0 :: pad := by
      simp
    have hget : (done ++ sep ++ t.raw q ++ dch :: pending q nl (p2 :: r2) ++ 0 :: pad)[
        (done ++ sep ++ t.raw q).length]? = some dch :=
      getElem?_of_drop_eq_cons (r := pending q nl (p2 :: r2) ++ 0 :: pad) (by
        have e : done ++ sep ++ t.raw q ++ dch :: pending q nl (p2 :: r2) ++ 0 :: pad =
            (done ++ sep ++ t.raw q) ++ (dch :: (pending q nl (p2 :: r2) ++ 0 :: pad)) := by
          simp
        rw [e, List.drop_left])
    refine ⟨done.length + sep.length, done ++ sep ++ t.raw q ++ [0], done' ++ sep ++ T' ++ [0],
      ?_, ?_, closed_append q _ _ _ _ _ (closed_append q _ _ _ _ _ hds hT)
        (closed_outside q _ [0] (by simp [hq0])), ?_, ?_, ?_⟩
    · rw [hstep]
      simp
      omega
    · simp
    · intro c hc
      simp only [List.append_assoc, List.mem_append, List.mem_singleton] at hc
      rcases hc with hc | hc | hc | hc
      · exact hdn c hc
      · exact hsepn c hc
      · exact hrawn c hc
      · omega
    · rw [← hset, get_quote_set _ _ _ (by rw [hget]; simp; omega) (by rw [hget]; simp; omega)]
      exact hG
    · have hd : (done ++ sep ++ t.raw q ++ [0] ++ pending q nl (p2 :: r2) ++ 0 :: pad).drop
          (done.length + sep.length) =
          t.raw q ++ [] ++ 0 :: (pending q nl (p2 :: r2) ++ 0 :: pad) := by
        have e : done ++ sep ++ t.raw q ++ [0] ++ pending q nl (p2 :: r2) ++ 0 :: pad =
            (done ++ sep) ++ (t.raw q ++ [] ++ 0 :: (pending q nl (p2 :: r2) ++ 0 :: pad)) := by
          simp
        have e2 : done.length + sep.length = (done ++ sep).length := by simp
        rw [e, e2, List.drop_left]
      rw [hd]
      exact append_cmd_token q hq t ht out [] _ k (Or.inl rfl) hfit

/-! ## Theorems: `buf_to_strs` and the size of the destination -/

theorem buf_to_strs_loop_pack (vs : List (List Int)) :
    ∀ (pre z : List Int) (fuel : Nat), (∀ v ∈ vs, v ≠ [] ∧ (0 : Int) ∉ v) → vs.length < fuel →
      buf_to_strs_loop fuel (pre ++ pack vs ++ 0 :: z) pre.length = vs := by
  induction vs with
  | nil =>
    intro pre z fuel _ hf
    obtain ⟨f, rfl⟩ : ∃ f, fuel = f + 1 := ⟨fuel - 1, by simp at hf; omega⟩
    simp only [pack, List.append_nil, buf_to_strs_loop, peek_append_right, if_true]
  | cons v vs ih =>
    intro pre z fuel h hf
    obtain ⟨f, rfl⟩ : ∃ f, fuel = f + 1 := ⟨fuel - 1, by simp at hf; omega⟩
    have hv := h v (by simp)
    obtain ⟨v1, vr, rfl⟩ := List.exists_cons_of_ne_nil hv.1
    have hv1 : v1 ≠ 0 := fun e => hv.2 (by rw [e]; simp)
    have hpk : peek (pre ++ pack ((v1 :: vr) :: vs) ++ 0 :: z) pre.length = v1 := by
      have := peek_append_right pre (vr ++ 0 :: pack vs ++ 0 :: z) v1
      simpa [pack] using this
    have hdrop : (pre ++ pack ((v1 :: vr) :: vs) ++ 0 :: z).drop pre.length =
        (v1 :: vr) ++ 0 :: (pack vs ++ 0 :: z) := by
      have e : pre ++ pack ((v1 :: vr) :: vs) ++ 0 :: z =
          pre ++ ((v1 :: vr) ++ 0 :: (pack vs ++ 0 :: z)) := by simp [pack]
      rw [e, List.drop_left]
    have hnext : pre ++ pack ((v1 :: vr) :: vs) ++ 0 :: z =
        (pre ++ (v1 :: vr) ++ [0]) ++ pack vs ++ 0 :: z := by simp [pack]
    have hlen : pre.length + (v1 :: vr).length + 1 = (pre ++ (v1 :: vr) ++ [0]).length := by
      simp only [List.length_append, List.length_cons, List.length_nil]
    simp only [buf_to_strs_loop]
    rw [hpk, if_neg hv1, hdrop, cstr_append_nul _ _ hv.2, strlen_append_nul _ _ hv.2, hlen,
      hnext, ih _ z f (fun w hw => h w (by simp [hw])) (by simp at hf; omega)]

theorem pack_length_le_text (q : Int) (nl : List Int) :
    ∀ (rest : List (List Int × Token)),
      (∀ p ∈ rest, p.1 ≠ [] ∧ (∀ c ∈ p.1, c = 32 ∨ c = 9) ∧ p.2.Wf q) →
      (pack (rest.map fun p => p.2.value)).length + nl.length ≤ (text q nl rest).length ∧
      rest.length + nl.length ≤ (text q nl rest).length := by
  intro rest
  induction rest with
  | nil => intro _; simp [pack, text]
  | cons p r ih =>
    intro h
    have hp := h p (by simp)
    have hr := ih (fun p' hp' => h p' (by simp [hp']))
    have hv := (token_value_spec q p.2 hp.2.2).2.2
    have hs : 0 < p.1.length := List.length_pos.2 hp.1
    simp only [List.map_cons, pack, text, List.length_append, List.length_cons]
    omega

/-! ## Theorems: `format_cmd` on a line of tokens -/

theorem strtok2_end (q : Int) (hq : q = 39 ∨ q = 34) (done done' pad : List Int)
    (hG : get_quote (done ++ 0 :: pad) done.length = q ∨
      get_quote (done ++ 0 :: pad) done.length = 0)
    (hnn : ∀ c ∈ done ++ 0 :: pad, 0 ≤ c) (hdone : Closed q [32, 9] done done') :
    strtok2 (done ++ 0 :: pad) ⟨0, done.length, done.length⟩ none [32, 9] =
      (none, done ++ 0 :: pad, ⟨0, done.length, done.length⟩) := by
  have hq0 : 0 < q := by rcases hq with e | e <;> rw [e] <;> decide
  have hrep : replace_loop q [32, 9] (done ++ 0 :: pad) done.length false = done' ++ 0 :: pad := by
    have := hdone.2 (0 :: pad) 0
    simpa [replace_loop_zero] using this
  have hroundtrip := restore_replace q hq0 (done ++ 0 :: pad) done.length false hnn
  unfold strtok2
  simp only [List.take_zero, List.drop_zero, List.nil_append]
  rw [replace_within_quotes_eq q hq _ _ _ hG, hrep]
  have hs := strtok_at_end done' pad [32, 9]
  rw [hdone.1] at hs
  rw [hs]
  simp only
  have hg : get_quote (done' ++ 0 :: pad) done.length = get_quote (done ++ 0 :: pad) done.length := by
    have := get_quote_replace q (done ++ 0 :: pad) done.length done.length false
    rw [hrep] at this
    exact this
  rw [restore_within_quotes_eq q hq _ _ (by rw [hg]; exact hG), ← hrep, hroundtrip]

theorem format_loop_tokens (q : Int) (hq : q = 39 ∨ q = 34) (nl : List Int)
    (hnl : nl = [] ∨ nl = [10]) (pad : List Int) (hpad : ∀ c ∈ pad, 0 ≤ c) :
    ∀ (rest : List (List Int × Token)) (done done' out : List Int) (k fuel L : Nat),
      (∀ p ∈ rest, p.1 ≠ [] ∧ (∀ c ∈ p.1, c = 32 ∨ c = 9) ∧ p.2.Wf q) →
      Closed q [32, 9] done done' → (∀ c ∈ done, 0 ≤ c) →
      L = (done ++ pending q nl rest).length →
      (get_quote (done ++ pending q nl rest ++ 0 :: pad) L = q ∨
        get_quote (done ++ pending q nl rest ++ 0 :: pad) L = 0) →
      rest.length < fuel → (pack (rest.map fun p => p.2.value)).length < k →
      ∃ bfin, format_loop [32, 9] fuel (done ++ pending q nl rest ++ 0 :: pad)
          ⟨0, L, done.length⟩ (out ++ List.replicate k 0) out.length =
        some (bfin, out ++ pack (rest.map fun p => p.2.value) ++
          List.replicate (k - (pack (rest.map fun p => p.2.value)).length) 0) := by
  intro rest
  induction rest with
  | nil =>
    intro done done' out k fuel L _ hdone hdn hL hG hf hk
    obtain ⟨f, rfl⟩ : ∃ f, fuel = f + 1 := ⟨fuel - 1, by simp at hf; omega⟩
    simp only [pending, List.append_nil] at hL hG ⊢
    subst hL
    have hend := strtok2_end q hq done done' pad hG (by
      intro c hc
      simp only [List.mem_append, List.mem_cons] at hc
      rcases hc with hc | hc | hc
      · exact hdn c hc
      · omega
      · exact hpad c hc) hdone
    simp only [format_loop, hend, List.map_nil, pack, List.length_nil, Nat.sub_zero,
      List.append_nil]
    refine ⟨done ++ 0 :: pad, ?_⟩
    obtain ⟨k', rfl⟩ : ∃ k', k = k' + 1 := ⟨k - 1, by simp [pack] at hk; omega⟩
    unfold poke
    rw [if_pos (by simp)]
    simp [List.replicate_succ]
  | cons p r ih =>
    intro done done' out k fuel L h hdone hdn hL hG hf hk
    obtain ⟨f, rfl⟩ : ∃ f, fuel = f + 1 := ⟨fuel - 1, by simp at hf; omega⟩
    have hp := h p (by simp)
    have hr : ∀ p' ∈ r, p'.1 ≠ [] ∧ (∀ c ∈ p'.1, c = 32 ∨ c = 9) ∧ p'.2.Wf q :=
      fun p' hp' => h p' (by simp [hp'])
    have e : done ++ pending q nl (p :: r) = done ++ p.1.tail ++ p.2.raw q ++ text q nl r := by
      simp [pending]
    rw [e] at hL hG ⊢
    subst hL
    have hk1 : p.2.value.length + 1 ≤ k := by
      simp only [List.map_cons, pack, List.length_append, List.length_cons] at hk
      omega
    obtain ⟨tok, dn, dn', h1, h2, h3, h4, h5, h6⟩ := token_step q hq nl hnl done done' p.1.tail
      p.2 r pad out k hdone hdn (fun c hc => hp.2.1 c (List.mem_of_mem_tail hc)) hp.2.2 hr hpad hG
      hk1
    have hout : out.length + (p.2.value.length + 1) = (out ++ (p.2.value ++ [0])).length := by
      simp
    have hk2 : (pack (r.map fun p => p.2.value)).length < k - (p.2.value.length + 1) := by
      simp only [List.map_cons, pack, List.length_append, List.length_cons] at hk
      omega
    obtain ⟨bfin, hfin⟩ := ih dn dn' (out ++ (p.2.value ++ [0])) (k - (p.2.value.length + 1)) f
      _ hr h3 h4 h2.symm h5 (by simp at hf; omega) hk2
    refine ⟨bfin, ?_⟩
    simp only [format_loop, h1, h6]
    rw [hout, hfin]
    simp only [List.map_cons, pack, List.length_append, List.length_cons, List.append_assoc,
      List.singleton_append, List.cons_append, List.nil_append]
    have hsub : k - (p.2.value.length + 1) - (pack (r.map fun p => p.2.value)).length =
        k - (p.2.value.length + ((pack (r.map fun p => p.2.value)).length + 1)) := by omega
    rw [hsub]

theorem token_raw_no_nul (q : Int) (hq : q = 39 ∨ q = 34) (t : Token) (h : t.Wf q) :
    (0 : Int) ∉ t.raw q := by
  cases t with
  | plain p => exact fun h0 => absurd (h.2 0 h0).1 (by decide)
  | quoted x =>
    have hq0 : q ≠ 0 := by rcases hq with e | e <;> rw [e] <;> decide
    have hx : (0 : Int) ∉ x := fun h0 => absurd (h.2 0 h0).1 (by decide)
    simp [Token.raw, hx, Ne.symm hq0]

theorem text_no_nul (q : Int) (hq : q = 39 ∨ q = 34) (nl : List Int) (hnl : nl = [] ∨ nl = [10]) :
    ∀ (rest : List (List Int × Token)),
      (∀ p ∈ rest, p.1 ≠ [] ∧ (∀ c ∈ p.1, c = 32 ∨ c = 9) ∧ p.2.Wf q) →
      (0 : Int) ∉ text q nl rest := by
  intro rest
  induction rest with
  | nil =>
    intro _
    rcases hnl with e | e <;> simp [text, e]
  | cons p r ih =>
    intro h hc
    have hp := h p (by simp)
    simp only [text, List.mem_append] at hc
    rcases hc with (hc | hc) | hc
    · have := hp.2.1 0 hc; omega
    · exact token_raw_no_nul q hq p.2 hp.2.2 hc
    · exact ih (fun p' hp' => h p' (by simp [hp'])) hc

theorem text_length (q : Int) (nl : List Int) (rest : List (List Int × Token)) :
    (text q nl rest).length = (text q [] rest).length + nl.length := by
  induction rest with
  | nil => simp [text]
  | cons p r ih => simp only [text, List.length_append, ih]; omega

/-- C1: for every line of at most 64 seven-bit characters, optionally ending
in a newline `nl`, made of the tokens `t0` and those of `rest`, separated by
non-empty runs of spaces and tabs, where each token either is non-empty and
contains no quote, space or tab, or has the form `q x q` with `q` the quote
character of the line and `x` non-empty and free of `q`: `format_cmd` on the
line buffer followed by `buf_to_strs` yields exactly the tokens in their
order, with the outer quote pair removed from every quoted token and the
spaces and tabs inside `x` kept. -/
theorem format_cmd_yields_tokens (q : Int) (hq : q = 39 ∨ q = 34) (t0 : Token)
    (rest : List (List Int × Token)) (nl : List Int) (ht0 : t0.Wf q)
    (hrest : ∀ p ∈ rest, p.1 ≠ [] ∧ (∀ c ∈ p.1, c = 32 ∨ c = 9) ∧ p.2.Wf q)
    (hnl : nl = [] ∨ nl = [10]) (hlen : (t0.raw q ++ text q [] rest).length ≤ 64) :
    (format_cmd (lineBuf (t0.raw q ++ text q nl rest)) 0 (List.replicate MAX_LEN 0)).map
        (fun r => buf_to_strs r.2) =
      some (t0.value :: rest.map fun p => p.2.value) := by
  have hnll : nl.length ≤ 1 := by rcases hnl with e | e <;> simp [e]
  have hline : (t0.raw q ++ text q nl rest).length ≤ 65 := by
    simp only [List.length_append] at hlen ⊢
    rw [text_length q nl rest]
    omega
  have hv0 := token_value_spec q t0 ht0
  have hraw0 : 0 < (t0.raw q).length := by
    have := List.length_pos.2 hv0.1
    omega
  have hpk := pack_length_le_text q [] rest hrest
  simp only [List.length_nil, Nat.add_zero] at hpk
  simp only [List.length_append] at hlen
  -- the line buffer
  obtain ⟨pad, hpad, hbuf, hbl⟩ : ∃ pad : List Int, (∀ c ∈ pad, 0 ≤ c) ∧
      lineBuf (t0.raw q ++ text q nl rest) = t0.raw q ++ text q nl rest ++ 0 :: pad ∧
      (lineBuf (t0.raw q ++ text q nl rest)).length = 66 := by
    refine ⟨List.replicate (65 - (t0.raw q ++ text q nl rest).length) 0, ?_, ?_, ?_⟩
    · intro c hc
      rw [List.eq_of_mem_replicate hc]
    · unfold lineBuf MAX_LEN
      have : 66 - (t0.raw q ++ text q nl rest).length =
          (65 - (t0.raw q ++ text q nl rest).length) + 1 := by omega
      rw [this, List.replicate_succ]
    · unfold lineBuf MAX_LEN
      simp only [List.length_append, List.length_replicate] at hline ⊢
      omega
  have hno0 : (0 : Int) ∉ t0.raw q ++ text q nl rest := by
    simp only [List.mem_append, not_or]
    exact ⟨token_raw_no_nul q hq t0 ht0, text_no_nul q hq nl hnl rest hrest⟩
  have hG := get_quote_token q hq t0 ht0 (text q nl rest ++ 0 :: pad) (text q nl rest).length
    (get_quote_text q hq nl (0 :: pad) hnl rest hrest)
  -- the first token
  obtain ⟨tok, dn, dn', h1, h2, h3, h4, h5, h6⟩ := token_step q hq nl hnl [] [] [] t0 rest pad []
    66 (closed_outside q _ [] (by simp)) (by simp) (by simp) ht0 hrest hpad
    (by simpa [List.append_assoc] using hG) (by omega)
  simp only [List.nil_append, List.length_nil] at h1 h2 h5 h6
  have hfirst : strtok2 (lineBuf (t0.raw q ++ text q nl rest)) ⟨0, 0, 0⟩ (some 0) [32, 9] =
      (some tok, dn ++ pending q nl rest ++ 0 :: pad,
        ⟨0, (t0.raw q ++ text q nl rest).length, dn.length⟩) := by
    rw [strtok2_first, hbuf, strlen_append_nul _ pad hno0, h1]
  -- the other tokens
  have hk : (pack (rest.map fun p => p.2.value)).length < 66 - (t0.value.length + 1) := by
    omega
  obtain ⟨bfin, hloop⟩ := format_loop_tokens q hq nl hnl pad hpad rest dn dn' (t0.value ++ [0])
    (66 - (t0.value.length + 1)) 67 (t0.raw q ++ text q nl rest).length hrest h3 h4 h2.symm h5
    (by omega) hk
  have hol : (t0.value ++ [0]).length = 0 + (t0.value.length + 1) := by simp
  rw [hol] at hloop
  unfold format_cmd
  simp only [hfirst, MAX_LEN, h6, hbl, hloop, Option.map_some']
  -- the strings of the destination buffer
  obtain ⟨m, hm⟩ : ∃ m, 66 - (t0.value.length + 1) - (pack (rest.map fun p => p.2.value)).length =
      m + 1 := ⟨66 - (t0.value.length + 1) - (pack (rest.map fun p => p.2.value)).length - 1,
        by omega⟩
  rw [hm, List.replicate_succ]
  have hshape : t0.value ++ [0] ++ pack (rest.map fun p => p.2.value) ++ 0 :: List.replicate m 0 =
      [] ++ pack (t0.value :: rest.map fun p => p.2.value) ++ 0 :: List.replicate m 0 := by
    simp [pack]
  unfold buf_to_strs
  rw [hshape]
  have := buf_to_strs_loop_pack (t0.value :: rest.map fun p => p.2.value) [] (List.replicate m 0)
    ([] ++ pack (t0.value :: rest.map fun (p : List Int × Token) => p.2.value) ++
      0 :: List.replicate m 0).length
    (by
      intro v hv
      rcases List.mem_cons.1 hv with e | hv
      · rw [e]; exact ⟨hv0.1, hv0.2.1⟩
      · obtain ⟨p, hp, rfl⟩ := List.mem_map.1 hv
        have := token_value_spec q p.2 (hrest p hp).2.2
        exact ⟨this.1, this.2.1⟩)
    (by
      simp only [List.nil_append, pack, List.length_append, List.length_cons, List.length_map,
        List.length_replicate]
      omega)
  simpa using this

/-- An instance of the theorem on C1: the line `echo 'a b' c` followed by a
newline. -/
theorem format_cmd_yields_tokens_witness :
    (format_cmd (lineBuf ((Token.plain [101, 99, 104, 111]).raw 39 ++
        text 39 [10] [([32], Token.quoted [97, 32, 98]), ([32], Token.plain [99])])) 0
        (List.replicate MAX_LEN 0)).map (fun r => buf_to_strs r.2) =
      some ((Token.plain [101, 99, 104, 111]).value ::
        ([([32], Token.quoted [97, 32, 98]), ([32], Token.plain [99])] :
          List (List Int × Token)).map fun p => p.2.value) :=
  format_cmd_yields_tokens 39 (Or.inl rfl) (Token.plain [101, 99, 104, 111])
    [([32], Token.quoted [97, 32, 98]), ([32], Token.plain [99])] [10]
    (by simp [Token.Wf]) (by simp [Token.Wf]) (Or.inr rfl) (by decide)

/-! ## Theorems: what `strchr2` returns -/

theorem strchr2_loop_sound (q c : Int) (rest : List Int) :
    ∀ (t : List Int) (inside : Bool) (k : Nat), (0 : Int) ∉ t →
      strchr2_loop q c (t ++ 0 :: rest) inside = some k →
      t[k]? = some c ∧ ((t.take k).count q + inside.toNat) % 2 = 0 := by
  intro t
  induction t with
  | nil =>
    intro inside k _ h
    simp [strchr2_loop] at h
  | cons x t ih =>
    intro inside k h0 h
    simp only [List.mem_cons, not_or] at h0
    rw [List.cons_append, strchr2_loop_cons, if_neg (Ne.symm h0.1)] at h
    by_cases hxq : x = q
    · rw [if_pos hxq] at h
      obtain ⟨k', hk', rfl⟩ := Option.map_eq_some'.1 h
      obtain ⟨h1, h2⟩ := ih (!inside) k' h0.2 hk'
      refine ⟨by simpa using h1, ?_⟩
      simp only [List.take_succ_cons, hxq, List.count_cons_self]
      cases inside <;> simp only [Bool.not_false, Bool.not_true, Bool.toNat_true,
        Bool.toNat_false] at h2 ⊢ <;> omega
    · rw [if_neg hxq] at h
      by_cases hhit : inside = false ∧ x = c
      · rw [if_pos hhit] at h
        obtain rfl : 0 = k := by simpa using h
        exact ⟨by simp [hhit.2], by simp [hhit.1]⟩
      · rw [if_neg hhit] at h
        obtain ⟨k', hk', rfl⟩ := Option.map_eq_some'.1 h
        obtain ⟨h1, h2⟩ := ih inside k' h0.2 hk'
        refine ⟨by simpa using h1, ?_⟩
        rw [List.take_succ_cons, List.count_cons_of_ne (Ne.symm hxq)]
        exact h2

/-- What `strchr2` returns, with one quote style in `s`, is a place where `c`
stands outside quotes. -/
theorem strchr2_sound (s rest : List Int) (c : Int) (k : Nat) (h0 : (0 : Int) ∉ s)
    (hstyle : ¬ ((39 : Int) ∈ s ∧ (34 : Int) ∈ s)) (hc : c ≠ 0)
    (h : strchr2 (s ++ 0 :: rest) c = some k) : unquoted_at s k c := by
  unfold strchr2 at h
  rw [strlen_append_nul s rest h0] at h
  simp only at h
  by_cases h1 : (39 : Int) ∈ s
  · have h2 : (34 : Int) ∉ s := fun h => hstyle ⟨h1, h⟩
    rw [get_quote_single s _ h1 h2, if_neg (by decide)] at h
    obtain ⟨e1, e2⟩ := strchr2_loop_sound 39 c rest s false k h0 h
    refine ⟨e1, ?_⟩
    rw [countP_is_quote_eq (s.take k) 39 34 (Or.inl ⟨rfl, rfl⟩)
      (fun h => h2 (List.mem_of_mem_take h))]
    simpa using e2
  · by_cases h2 : (34 : Int) ∈ s
    · rw [get_quote_double s _ h1 h2, if_neg (by decide)] at h
      obtain ⟨e1, e2⟩ := strchr2_loop_sound 34 c rest s false k h0 h
      refine ⟨e1, ?_⟩
      rw [countP_is_quote_eq (s.take k) 34 39 (Or.inr ⟨rfl, rfl⟩)
        (fun h => h1 (List.mem_of_mem_take h))]
      simpa using e2
    · rw [get_quote_none s _ h1 h2, if_pos rfl] at h
      have hmem : c ∈ s := by
        by_contra hn
        rw [strchr_none_of_not_mem s rest c hc hn] at h
        exact absurd h (by simp)
      obtain ⟨a, b, e1, _, e3⟩ := strchr_split s rest c h0 hmem
      rw [e3] at h
      obtain rfl : a.length = k := by simpa using h
      refine ⟨by rw [e1, List.getElem?_append_right (Nat.le_refl _)]; simp, ?_⟩
      rw [List.countP_eq_zero.2, Nat.zero_mod]
      intro x hx
      have hx := List.mem_of_mem_take hx
      have : x ≠ 39 := fun e => h1 (e ▸ hx)
      have : x ≠ 34 := fun e => h2 (e ▸ hx)
      simp [is_quote, *]

/-- C12: for a string `s` with one quote style (its quotes balanced) and a
character `c` that is neither a quote nor NUL, `strchr2` returns `k` exactly
when `k` is the first place where `c` stands outside quotes, it returns NULL
exactly when `c` stands nowhere outside quotes, and on a string without quotes
it returns what `strchr` returns. -/
theorem strchr2_first_unquoted (s rest : List Int) (c : Int) (h0 : (0 : Int) ∉ s)
    (hstyle : ¬ ((39 : Int) ∈ s ∧ (34 : Int) ∈ s)) (_heven : s.countP is_quote % 2 = 0)
    (hc : c ≠ 0 ∧ c ≠ 39 ∧ c ≠ 34) :
    (∀ k, strchr2 (s ++ 0 :: rest) c = some k ↔
      (unquoted_at s k c ∧ ∀ i, i < k → ¬ unquoted_at s i c)) ∧
    (strchr2 (s ++ 0 :: rest) c = none ↔ ∀ i, ¬ unquoted_at s i c) ∧
    (((39 : Int) ∉ s ∧ (34 : Int) ∉ s) →
      strchr2 (s ++ 0 :: rest) c = strchr (s ++ 0 :: rest) c) := by
  refine ⟨?_, ?_, fun h => strchr2_no_quote s rest c h0 h.1 h.2⟩
  · intro k
    constructor
    · intro h
      refine ⟨strchr2_sound s rest c k h0 hstyle hc.1 h, ?_⟩
      intro i hik hi
      obtain ⟨k', hk1, hk2, _⟩ := strchr2_finds s rest c i h0 hstyle hc.2 hi
      rw [h] at hk2
      have : k = k' := by simpa using hk2
      omega
    · rintro ⟨hk, hmin⟩
      obtain ⟨k', hk1, hk2, hk3⟩ := strchr2_finds s rest c k h0 hstyle hc.2 hk
      rcases Nat.lt_or_ge k' k with hlt | hge
      · exact absurd hk3 (hmin k' hlt)
      · have : k' = k := by omega
        rw [hk2, this]
  · constructor
    · intro h i hi
      obtain ⟨k', _, hk2, _⟩ := strchr2_finds s rest c i h0 hstyle hc.2 hi
      rw [h] at hk2
      exact absurd hk2 (by simp)
    · intro h
      cases hres : strchr2 (s ++ 0 :: rest) c with
      | none => rfl
      | some k => exact absurd (strchr2_sound s rest c k h0 hstyle hc.1 hres) (h k)

/-- An instance of the theorem on C12: in `a '>' > b` the character `>` is
searched, its first occurrence outside quotes is at index 6. -/
theorem strchr2_first_unquoted_witness :
    strchr2 ([97, 32, 39, 62, 39, 32, 62, 32, 98] ++ 0 :: []) 62 = some 6 :=
  ((strchr2_first_unquoted [97, 32, 39, 62, 39, 32, 62, 32, 98] [] 62 (by decide) (by decide)
    (by decide) (by decide)).1 6).2
    ⟨⟨by decide, by decide⟩, by
      intro i hi h
      have h1 := h.1
      have h2 := h.2
      interval_cases i <;> simp_all [is_quote]⟩

/-! ## Theorems: hiding and restoring, for every set of delimiters -/

theorem replace_byte_cases (d : List Int) (c : Int) (hc : 0 ≤ c ∧ c < 128) :
    replace_byte d c = c ∨ replace_byte d c = -c := by
  unfold replace_byte
  have key : ∀ (l : List Int) (cur : Int), (cur = c ∨ cur = -c) →
      (l.foldl (fun cur d => if cur = d then toChar (-d) else cur) cur = c ∨
        l.foldl (fun cur d => if cur = d then toChar (-d) else cur) cur = -c) := by
    intro l
    induction l with
    | nil => intro cur h; exact h
    | cons e l ih =>
      intro cur h
      rw [List.foldl_cons]
      apply ih
      by_cases he : cur = e
      · rw [if_pos he]
        subst he
        unfold toChar
        rcases h with h | h <;> omega
      · rw [if_neg he]
        exact h
  exact key _ c (Or.inl rfl)

theorem get_quote_values : ∀ (X : List Int) (n : Nat),
    get_quote X n = 0 ∨ get_quote X n = 39 ∨ get_quote X n = 34 := by
  intro X
  induction X with
  | nil => intro n; cases n <;> exact Or.inl rfl
  | cons c X ih =>
    intro n
    cases n with
    | zero => exact Or.inl rfl
    | succ n =>
      rw [get_quote_cons]
      by_cases h1 : c = 39
      · rw [if_pos h1]; exact Or.inr (Or.inl rfl)
      · rw [if_neg h1]
        by_cases h2 : c = 34
        · rw [if_pos h2]; exact Or.inr (Or.inr rfl)
        · rw [if_neg h2]; exact ih n

/-- The replacement does not change the first quote character of the string. -/
theorem get_quote_replace_any (q : Int) (hq : q = 39 ∨ q = 34) (d : List Int) :
    ∀ (X : List Int) (n : Nat), get_quote X n = q →
      get_quote (replace_loop q d X n false) n = q := by
  intro X
  induction X with
  | nil =>
    intro n h
    cases n <;> exact h
  | cons c X ih =>
    intro n h
    cases n with
    | zero => exact h
    | succ n =>
      rw [replace_loop_cons]
      rw [get_quote_cons] at h
      by_cases h1 : c = q
      · rw [if_pos h1, get_quote_cons, h1]
        rcases hq with e | e <;> rw [e] <;> simp
      · rw [if_neg h1]
        simp only [Bool.false_eq_true, if_false]
        rw [get_quote_cons]
        by_cases h39 : c = 39
        · rw [if_pos h39] at h
          exact absurd (h39.trans h) h1
        · rw [if_neg h39] at h ⊢
          by_cases h34 : c = 34
          · rw [if_pos h34] at h
            exact absurd (h34.trans h) h1
          · rw [if_neg h34] at h ⊢
            exact ih n h

/-- What was hidden by the replacement loop is restored by the restoring loop,
on seven-bit bytes, whatever the delimiters are. -/
theorem restore_replace_any (q : Int) (hq : 0 < q) (d : List Int) :
    ∀ (X : List Int) (n : Nat) (ins : Bool), (∀ c ∈ X, 0 ≤ c ∧ c < 128) →
      restore_loop q (replace_loop q d X n ins) n ins = X := by
  intro X
  induction X with
  | nil => intro n ins _; cases n <;> rfl
  | cons c X ih =>
    intro n ins h
    have hc : 0 ≤ c ∧ c < 128 := h c (by simp)
    have hX : ∀ c ∈ X, 0 ≤ c ∧ c < 128 := fun c hc => h c (by simp [hc])
    cases n with
    | zero => rfl
    | succ n =>
      rw [replace_loop_cons]
      by_cases h1 : c = q
      · rw [if_pos h1, restore_loop_cons, if_pos h1, ih n _ hX]
      · rw [if_neg h1]
        cases ins with
        | false =>
          simp only [Bool.false_eq_true, if_false]
          rw [restore_loop_cons, if_neg h1]
          simp only [Bool.false_eq_true, if_false]
          rw [ih n _ hX]
        | true =>
          simp only [if_true]
          have hb : replace_byte d c ≠ q ∧
              (if replace_byte d c < 0 then toChar (-replace_byte d c)
                else replace_byte d c) = c := by
            rcases replace_byte_cases d c hc with e | e
            · rw [e]
              exact ⟨h1, by rw [if_neg (by omega)]⟩
            · rw [e]
              refine ⟨by omega, ?_⟩
              unfold toChar
              split_ifs <;> omega
          rw [restore_loop_cons, if_neg hb.1]
          simp only [if_true]
          rw [hb.2, ih n _ hX]

/-- On a buffer of seven-bit bytes, `restore_within_quotes` undoes
`replace_within_quotes`, whatever the delimiters are. -/
theorem restore_within_replace_within (X d : List Int) (len : Nat)
    (hX : ∀ c ∈ X, 0 ≤ c ∧ c < 128) :
    restore_within_quotes (replace_within_quotes X d len) len = X := by
  rcases get_quote_values X len with h | h | h
  · have e : replace_within_quotes X d len = X := by
      unfold replace_within_quotes
      simp only
      rw [h, if_pos rfl]
    rw [e]
    unfold restore_within_quotes
    simp only
    rw [h, if_pos rfl]
  · have e : replace_within_quotes X d len = replace_loop 39 d X len false := by
      unfold replace_within_quotes
      simp only
      rw [h, if_neg (by decide)]
    rw [e]
    unfold restore_within_quotes
    simp only
    rw [get_quote_replace_any 39 (Or.inl rfl) d X len h, if_neg (by decide)]
    exact restore_replace_any 39 (by decide) d X len false hX
  · have e : replace_within_quotes X d len = replace_loop 34 d X len false := by
      unfold replace_within_quotes
      simp only
      rw [h, if_neg (by decide)]
    rw [e]
    unfold restore_within_quotes
    simp only
    rw [get_quote_replace_any 34 (Or.inr rfl) d X len h, if_neg (by decide)]
    exact restore_replace_any 34 (by decide) d X len false hX

/-- The destination buffer of `format_cmd` on a line of tokens: the arguments,
each followed by NUL, then NUL bytes up to the end. -/
theorem format_cmd_buffer (q : Int) (hq : q = 39 ∨ q = 34) (t0 : Token)
    (rest : List (List Int × Token)) (nl : List Int) (ht0 : t0.Wf q)
    (hrest : ∀ p ∈ rest, p.1 ≠ [] ∧ (∀ c ∈ p.1, c = 32 ∨ c = 9) ∧ p.2.Wf q)
    (hnl : nl = [] ∨ nl = [10]) (hlen : (t0.raw q ++ text q [] rest).length ≤ 64) :
    (format_cmd (lineBuf (t0.raw q ++ text q nl rest)) 0 (List.replicate MAX_LEN 0)).map
        (fun r => r.2) =
      some (t0.value ++ [0] ++ pack (rest.map fun p => p.2.value) ++
        List.replicate (66 - (t0.value.length + 1) -
          (pack (rest.map fun p => p.2.value)).length) 0) := by
  have hnll : nl.length ≤ 1 := by rcases hnl with e | e <;> simp [e]
  have hline : (t0.raw q ++ text q nl rest).length ≤ 65 := by
    simp only [List.length_append] at hlen ⊢
    rw [text_length q nl rest]
    omega
  have hv0 := token_value_spec q t0 ht0
  have hraw0 : 0 < (t0.raw q).length := by
    have := List.length_pos.2 hv0.1
    omega
  have hpk := pack_length_le_text q [] rest hrest
  simp only [List.length_nil, Nat.add_zero] at hpk
  simp only [List.length_append] at hlen
  obtain ⟨pad, hpad, hbuf, hbl⟩ : ∃ pad : List Int, (∀ c ∈ pad, 0 ≤ c) ∧
      lineBuf (t0.raw q ++ text q nl rest) = t0.raw q ++ text q nl rest ++ 0 :: pad ∧
      (lineBuf (t0.raw q ++ text q nl rest)).length = 66 := by
    refine ⟨List.replicate (65 - (t0.raw q ++ text q nl rest).length) 0, ?_, ?_, ?_⟩
    · intro c hc
      rw [List.eq_of_mem_replicate hc]
    · unfold lineBuf MAX_LEN
      have : 66 - (t0.raw q ++ text q nl rest).length =
          (65 - (t0.raw q ++ text q nl rest).length) + 1 := by omega
      rw [this, List.replicate_succ]
    · unfold lineBuf MAX_LEN
      simp only [List.length_append, List.length_replicate] at hline ⊢
      omega
  have hno0 : (0 : Int) ∉ t0.raw q ++ text q nl rest := by
    simp only [List.mem_append, not_or]
    exact ⟨token_raw_no_nul q hq t0 ht0, text_no_nul q hq nl hnl rest hrest⟩
  have hG := get_quote_token q hq t0 ht0 (text q nl rest ++ 0 :: pad) (text q nl rest).length
    (get_quote_text q hq nl (0 :: pad) hnl rest hrest)
  obtain ⟨tok, dn, dn', h1, h2, h3, h4, h5, h6⟩ := token_step q hq nl hnl [] [] [] t0 rest pad []
    66 (closed_outside q _ [] (by simp)) (by simp) (by simp) ht0 hrest hpad
    (by simpa [List.append_assoc] using hG) (by omega)
  simp only [List.nil_append, List.length_nil] at h1 h2 h5 h6
  have hfirst : strtok2 (lineBuf (t0.raw q ++ text q nl rest)) ⟨0, 0, 0⟩ (some 0) [32, 9] =
      (some tok, dn ++ pending q nl rest ++ 0 :: pad,
        ⟨0, (t0.raw q ++ text q nl rest).length, dn.length⟩) := by
    rw [strtok2_first, hbuf, strlen_append_nul _ pad hno0, h1]
  have hk : (pack (rest.map fun p => p.2.value)).length < 66 - (t0.value.length + 1) := by
    omega
  obtain ⟨bfin, hloop⟩ := format_loop_tokens q hq nl hnl pad hpad rest dn dn' (t0.value ++ [0])
    (66 - (t0.value.length + 1)) 67 (t0.raw q ++ text q nl rest).length hrest h3 h4 h2.symm h5
    (by omega) hk
  have hol : (t0.value ++ [0]).length = 0 + (t0.value.length + 1) := by simp
  rw [hol] at hloop
  unfold format_cmd
  simp only [hfirst, MAX_LEN, h6, hbl, hloop, Option.map_some']

/-- C13, as stated, fails for a byte with the high bit set: in the token made
of the byte -61 (0xC3) between two single quotes, the byte comes back from
`restore_within_quotes` as 61, and `format_cmd` emits 61 in place of it. -/
theorem quoted_high_bit_byte_is_changed :
    restore_within_quotes (replace_within_quotes [39, -61, 39, 0] [32, 9] 3) 3 =
      [39, 61, 39, 0] ∧
    (format_cmd (lineBuf ([39] ++ [-61] ++ [39])) 0 (List.replicate MAX_LEN 0)).map
      (fun r => cstr r.2) = some [61] := by
  decide

/-- C13, for seven-bit bytes: for every token `q x q` on a line of the input
buffer, optionally ended by a newline `nl`, where `q` is a quote character
and `x` a sequence of seven-bit bytes other than `q`, NUL and newline,
`format_cmd` emits `x` byte for byte, followed by NUL bytes; and on every
buffer `X` of seven-bit bytes and for every set of delimiters `d`,
`replace_within_quotes` followed by `restore_within_quotes` gives `X` back. -/
theorem mask_restore_identity_seven_bit (q : Int) (hq : q = 39 ∨ q = 34) (x nl : List Int)
    (hx : ∀ c ∈ x, 0 < c ∧ c < 128 ∧ c ≠ 10 ∧ c ≠ q) (hnl : nl = [] ∨ nl = [10])
    (hlen : x.length + 2 ≤ 64) (X d : List Int) (len : Nat)
    (hX : ∀ c ∈ X, 0 ≤ c ∧ c < 128) :
    (format_cmd (lineBuf (q :: x ++ q :: nl)) 0 (List.replicate MAX_LEN 0)).map
        (fun r => r.2) = some (x ++ List.replicate (MAX_LEN - x.length) 0) ∧
    restore_within_quotes (replace_within_quotes X d len) len = X := by
  refine ⟨?_, restore_within_replace_within X d len hX⟩
  by_cases hx0 : x = []
  · subst hx0
    rcases hq with rfl | rfl <;> rcases hnl with rfl | rfl <;> decide
  · have h := format_cmd_buffer q hq (Token.quoted x) [] nl ⟨hx0, hx⟩ (by simp) hnl
      (by simp [Token.raw, text]; omega)
    simp only [Token.raw, text, Token.value, List.map_nil, pack, List.length_nil,
      List.append_nil, Nat.sub_zero, List.append_assoc, List.singleton_append,
      List.cons_append, List.nil_append] at h
    rw [List.cons_append, h]
    unfold MAX_LEN
    have e : 66 - x.length = (66 - (x.length + 1)) + 1 := by omega
    rw [e, List.replicate_succ]

/-- An instance of the theorem on C13: the token `'a b'` followed by a
newline, and the buffer `'a b'` with the delimiters space and `b`. -/
theorem mask_restore_identity_seven_bit_witness :
    (format_cmd (lineBuf (39 :: [97, 32, 98] ++ 39 :: [10])) 0 (List.replicate MAX_LEN 0)).map
        (fun r => r.2) = some ([97, 32, 98] ++ List.replicate (MAX_LEN - 3) 0) ∧
    restore_within_quotes (replace_within_quotes [39, 97, 32, 98, 39, 0] [32, 98] 5) 5 =
      [39, 97, 32, 98, 39, 0] :=
  mask_restore_identity_seven_bit 39 (Or.inl rfl) [97, 32, 98] [10] (by decide) (Or.inr rfl)
    (by decide) [39, 97, 32, 98, 39, 0] [32, 98] 5 (by decide)

/-! ## Theorems: a redirection without a destination -/

/-- C11 fails on the code: `split_redir` compares the text after the operator
with one space, one tab and one newline only. For the clause `ls >` and for
`ls >` followed by one newline or by one space it returns -1, but for `ls > `
followed by the newline, and for `ls >` followed by two spaces, it returns the
operator `>` with the blank text as destination. -/
theorem split_redir_accepts_blank_destination :
    (split_redir (lineBuf [108, 115, 32, 62]) 0 (List.replicate MAX_LEN 0)).map
      (fun r => r.1) = some (-1) ∧
    (split_redir (lineBuf [108, 115, 32, 62, 10]) 0 (List.replicate MAX_LEN 0)).map
      (fun r => r.1) = some (-1) ∧
    (split_redir (lineBuf [108, 115, 32, 62, 32]) 0 (List.replicate MAX_LEN 0)).map
      (fun r => r.1) = some (-1) ∧
    (split_redir (lineBuf [108, 115, 32, 62, 32, 10]) 0 (List.replicate MAX_LEN 0)).map
      (fun r => (r.1, cstr r.2.2)) = some (62, [32]) ∧
    (split_redir (lineBuf [108, 115, 32, 62, 32, 32]) 0 (List.replicate MAX_LEN 0)).map
      (fun r => (r.1, cstr r.2.2)) = some (62, [32, 32]) := by
  refine ⟨?_, ?_, ?_, ?_, ?_⟩
  all_goals decide

/-! ## Theorems: a failed `cd` among parallel commands -/

/-- C14 fails on the code: for `cd a b & pwd`, with every system call
succeeding, `exec_cmds_par` returns 0 although the `cd` clause has two
arguments, while `exec_cmds_seq` on the same clauses and `exec_cmd` on the
`cd` clause alone return -1, and `exec_cmds_par` returns -1 for `ls & pwd`
when the fork for `ls` fails. -/
theorem exec_cmds_par_drops_failed_cd :
    (∃ s1, exec_cmds_par [⟨["cd", "a", "b"], 0, []⟩, ⟨["pwd"], 0, []⟩] (shell 0 1 2 [] []) =
      Res.ret 0 s1) ∧
    (∃ s1, exec_cmds_seq [⟨["cd", "a", "b"], 0, []⟩, ⟨["pwd"], 0, []⟩] (shell 0 1 2 [] []) =
      Res.ret (-1) s1) ∧
    (∃ s1, exec_cmd ["cd", "a", "b"] 0 [] (shell 0 1 2 [] []) = Res.ret (-1) s1) ∧
    (∃ s1, exec_cmds_par [⟨["ls"], 0, []⟩, ⟨["pwd"], 0, []⟩] (shell 0 1 2 [false] []) =
      Res.ret (-1) s1) := by
  refine ⟨⟨{ shell 0 1 2 [] [] with procs := 1, log := [Ev.fork 1] }, by decide⟩,
    ⟨{ shell 0 1 2 [] [] with procs := 1, log := [Ev.fork 1] }, by decide⟩,
    ⟨shell 0 1 2 [] [], by decide⟩,
    ⟨{ shell 0 1 2 [] [] with procs := 1, log := [Ev.fork (-1), Ev.fork 1] }, by decide⟩⟩

/-! ## Theorems: the clauses of a line with several commands -/

/-- C15 fails on the code: on the line `'echo' 'a b';pwd` the branch of `main`
for several commands copies the first clause through `append_cmd`, which takes
the first and the last quote of the clause for an outer pair, and the
arguments of the clause become `echo' 'a` and `b`; the clause alone, as a line
with a single command, has the arguments `echo` and `a b`. -/
theorem multi_cmds_strips_clause_quotes :
    multi_cmds (lineBuf ([39, 101, 99, 104, 111, 39, 32, 39, 97, 32, 98, 39] ++
        [59, 112, 119, 100, 10])) [59] =
      some [[[101, 99, 104, 111, 39, 32, 39, 97], [98]], [[112, 119, 100]]] ∧
    single_cmd (lineBuf [39, 101, 99, 104, 111, 39, 32, 39, 97, 32, 98, 39]) =
      some [[101, 99, 104, 111], [97, 32, 98]] ∧
    single_cmd (lineBuf ([39, 101, 99, 104, 111, 39, 32, 39, 97, 32, 98, 39] ++ [10])) =
      some [[101, 99, 104, 111], [97, 32, 98]] := by
  decide

end Mysh
